import Mathlib

/-!
Verification of the Aho-Corasick "Ken Steele" matcher (ac_ks.go).

The Go source is shallowly embedded: bytes are `Nat` values (uint8 values are
< 256, stated as hypotheses where needed), slices are `List`s, the per-call
dedup structures (`recordSlice` of uint64 words / `recordMap`) are a list of
words and a list of ids, and Go runtime panics (negative slice index) are
modelled by `Option` (`none` = panic).  Loops whose termination Go leaves
implicit (the failure-link walks, the BFS queue) take an explicit fuel
argument; the fuel is always large enough, which is proved.
-/

namespace AhoCorasick

/-- Flag bit for case-insensitive matching (`Caseless` in ac_ks.go). -/
def Caseless : Nat := 1

/-- Flag bit for report-once matching (`SingleMatch` in ac_ks.go). -/
def SingleMatch : Nat := 2

/-- A registered pattern: content bytes, external id, flag bitmask and the
byte length cached by `AddPattern` (`Pattern` in ac_ks.go). -/
structure Pattern where
  content : List Nat
  id : Nat
  flags : Nat
  strlen : Nat
deriving DecidableEq, Repr

/-- Zero value used for out-of-range `patterns` lookups. -/
def dfltPat : Pattern := ⟨[], 0, 0, 0⟩

/-- The matcher state (`ACKS` in ac_ks.go).  `translateTable` is the byte →
compressed-symbol map, `stateTable` the flattened `state*alphabetSize + sym`
transition table, `outputTable` the per-state list of pattern indices. -/
structure ACKS where
  patterns : List Pattern
  translateTable : Nat → Nat
  alphabetSize : Nat
  stateTable : List Nat
  outputTable : List (List Nat)
  size : Nat
  maxID : Nat
  stateCount : Nat
  hasSingleMatch : Bool

/-- `NewACKS` in ac_ks.go. -/
def NewACKS : ACKS :=
  { patterns := [], translateTable := fun _ => 0, alphabetSize := 0,
    stateTable := [], outputTable := [], size := 0, maxID := 0,
    stateCount := 0, hasSingleMatch := false }

/-- `toLower` in ac_ks.go: fold ASCII uppercase to lowercase. -/
def toLower (b : Nat) : Nat := if 65 ≤ b ∧ b ≤ 90 then b + 32 else b

/-- `AddPattern` in ac_ks.go: cache the length, append, update the summary
fields; the returned error is always nil (`none`). -/
def AddPattern (ac : ACKS) (p : Pattern) : ACKS × Option Unit :=
  let p2 := { p with strlen := p.content.length }
  let pats := ac.patterns ++ [p2]
  ({ ac with
      patterns := pats
      hasSingleMatch := ac.hasSingleMatch || decide ((p2.flags &&& SingleMatch) ≠ 0)
      size := pats.length
      maxID := if ac.maxID < p2.id then p2.id else ac.maxID }, none)

/-- Register a whole pattern list starting from `NewACKS`. -/
def addAll (ps : List Pattern) : ACKS :=
  ps.foldl (fun ac p => (AddPattern ac p).1) NewACKS

/-- Per-folded-byte occurrence count over all registered patterns
(the `counts` array of `initTranslateTable`). -/
def countsOf (pats : List Pattern) (b : Nat) : Nat :=
  pats.foldl (fun acc p => acc + p.content.countP (fun c => toLower c == b)) 0

/-- One step of the `initTranslateTable` assignment loop: skip uppercase,
assign the next dense symbol to a used byte value, 0 to an unused one. -/
def ttStep (counts : Nat → Nat) (acc : (Nat → Nat) × Nat) (i : Nat) :
    (Nat → Nat) × Nat :=
  if 65 ≤ i ∧ i ≤ 90 then acc
  else if 0 < counts i then
    (fun b => if b = i then acc.2 else acc.1 b, acc.2 + 1)
  else
    (fun b => if b = i then 0 else acc.1 b, acc.2)

/-- `initTranslateTable` in ac_ks.go: count folded bytes, assign dense
symbols (0 reserved for unused bytes), then map uppercase bytes to the
symbol of their lowercase counterpart. -/
def initTranslateTable (ac : ACKS) : ACKS :=
  let counts := countsOf ac.patterns
  let built := (List.range 256).foldl (ttStep counts) (fun _ => 0, 1)
  { ac with
      translateTable := fun b => if 65 ≤ b ∧ b ≤ 90 then built.1 (b + 32) else built.1 b
      alphabetSize := built.2 }

/-- The temporary trie of `buildStateMachine`: the edge list (in insertion
order), the allocated state count and the growing output table. -/
structure TrieB where
  edges : List (Nat × Nat × Nat)
  stateCount : Nat
  out : List (List Nat)
deriving Repr

/-- Edge lookup (`trie[state][code]` in ac_ks.go). -/
def trieGet (es : List (Nat × Nat × Nat)) (s c : Nat) : Option Nat :=
  (es.find? (fun e => e.1 == s && e.2.1 == c)).map (fun e => e.2.2)

/-- Append `k` to the output list of state `i`. -/
def appAt (out : List (List Nat)) (i k : Nat) : List (List Nat) :=
  out.set i (out.getD i [] ++ [k])

/-- One byte of the trie insertion walk: follow an existing edge or allocate
a fresh state. -/
def insStep (tt : Nat → Nat) (acc : TrieB × Nat) (b : Nat) : TrieB × Nat :=
  let tb := acc.1
  let cur := acc.2
  let tc := tt (toLower b)
  match trieGet tb.edges cur tc with
  | some nxt => (tb, nxt)
  | none =>
      (⟨tb.edges ++ [(cur, tc, tb.stateCount)], tb.stateCount + 1, tb.out ++ [[]]⟩,
        tb.stateCount)

/-- Insert pattern `k` into the trie and record it at its terminal state. -/
def insertPat (tt : Nat → Nat) (tb : TrieB) (k : Nat) (content : List Nat) : TrieB :=
  let r := content.foldl (insStep tt) (tb, 0)
  { r.1 with out := appAt r.1.out r.2 k }

/-- The `for k, p := range ac.patterns` trie-construction loop, with the
running pattern index `k` explicit. -/
def buildTrieGo (tt : Nat → Nat) : List Pattern → Nat → TrieB → TrieB
  | [], _, tb => tb
  | p :: ps, k, tb => buildTrieGo tt ps (k + 1) (insertPat tt tb k p.content)

/-- Phase 1 of `buildStateMachine`: the goto trie over compressed symbols.
State 0 is the root, `stateCount` starts at 1, `outputTable` at `[[]]`. -/
def buildTrie (tt : Nat → Nat) (pats : List Pattern) : TrieB :=
  buildTrieGo tt pats 0 ⟨[], 1, [[]]⟩

/-- Edges leaving state `s`, in insertion order (the Go code iterates the
per-state map; insertion order is one admissible iteration order). -/
def childEdges (es : List (Nat × Nat × Nat)) (s : Nat) : List (Nat × Nat × Nat) :=
  es.filter (fun e => e.1 == s)

/-- The failure-chain walk shared by the failure-link and the delta-table
loops of `buildStateMachine`: from `fState`, look for a `c`-edge, falling
back along failure links, 0 if the root has none.  `fu` is fuel bounding the
chain length (the Go loop has no explicit bound). -/
def failWalk (es : List (Nat × Nat × Nat)) (failure : List Nat) (c : Nat) :
    Nat → Nat → Nat
  | 0, _ => 0
  | fu + 1, fState =>
    match trieGet es fState c with
    | some v => v
    | none => if fState = 0 then 0 else failWalk es failure c fu (failure.getD fState 0)

/-- Processing of one discovered edge during the failure BFS: enqueue the
child, compute its failure link, merge the failure target's outputs. -/
def bfsStep (es : List (Nat × Nat × Nat)) (n : Nat)
    (st : List Nat × List Nat × List (List Nat)) (e : Nat × Nat × Nat) :
    List Nat × List Nat × List (List Nat) :=
  let f := failWalk es st.2.1 e.2.1 n (st.2.1.getD e.1 0)
  (st.1 ++ [e.2.2], st.2.1.set e.2.2 f,
    st.2.2.set e.2.2 (st.2.2.getD e.2.2 [] ++ st.2.2.getD f []))

/-- The BFS queue loop of `buildStateMachine` (fuelled; one unit of fuel per
popped state). -/
def bfsLoop (es : List (Nat × Nat × Nat)) (n : Nat) :
    Nat → List Nat → List Nat → List (List Nat) → List Nat × List (List Nat)
  | 0, _, failure, out => (failure, out)
  | _ + 1, [], failure, out => (failure, out)
  | fu + 1, r :: rest, failure, out =>
    let st := (childEdges es r).foldl (bfsStep es n) (rest, failure, out)
    bfsLoop es n fu st.1 st.2.1 st.2.2

/-- `buildStateMachine` in ac_ks.go: trie, failure links with output
merging, then the dense total transition table (the delta walk from a state
is the same loop as `failWalk`, started at the state itself). -/
def buildStateMachine (ac : ACKS) : ACKS :=
  let tb := buildTrie ac.translateTable ac.patterns
  let n := tb.stateCount
  let queue0 := (childEdges tb.edges 0).map (fun e => e.2.2)
  let fo := bfsLoop tb.edges n n queue0 (List.replicate n 0) tb.out
  { ac with
      stateCount := n
      outputTable := fo.2
      stateTable :=
        ((List.range n).map (fun s =>
          (List.range ac.alphabetSize).map (fun c => failWalk tb.edges fo.1 c n s))).flatten }

/-- `Build` in ac_ks.go. -/
def Build (ac : ACKS) : ACKS := buildStateMachine (initTranslateTable ac)

/-- `memcmp` in ac_ks.go. -/
def memcmp (a b : List Nat) (l : Nat) : Bool :=
  if b.length < l || a.length < l then false
  else a.take l == b.take l

/-- The SingleMatch dedup step of `searchPatterns` for one reported pattern:
`none` = already recorded (skip this pattern), `some dd` = proceed with the
updated `(recordSlice, recordMap)` pair.  The bit-array branch mirrors
`recordSlice[ID/64] & (1 << (ID%64))`; the map branch mirrors `recordMap`. -/
def dedupStep (useSlice : Bool) (pat : Pattern) (dd : List Nat × List Nat) :
    Option (List Nat × List Nat) :=
  if (pat.flags &&& SingleMatch) ≠ 0 then
    if useSlice then
      let idx := pat.id / 64
      let mask := 1 <<< (pat.id % 64)
      if (dd.1.getD idx 0) &&& mask ≠ 0 then none
      else some (dd.1.set idx ((dd.1.getD idx 0) ||| mask), dd.2)
    else
      if pat.id ∈ dd.2 then none else some (dd.1, dd.2 ++ [pat.id])
  else some dd

/-- The body of the `for _, id := range ac.outputTable[currentState]` loop of
`searchPatterns`, instrumented to collect the would-be callback invocations
`(pos, patternIndex)` instead of invoking a callback.  Returns `none` when
the Go code would panic (`text[i-strlen+1:]` with a negative start). -/
def procIdsC (ac : ACKS) (useSlice : Bool) (text : List Nat) (i : Nat) :
    List Nat → List Nat × List Nat → List (Nat × Nat) →
    Option ((List Nat × List Nat) × List (Nat × Nat))
  | [], dd, acc => some (dd, acc)
  | id :: ids, dd, acc =>
    let pat := ac.patterns.getD id dfltPat
    match dedupStep useSlice pat dd with
    | none => procIdsC ac useSlice text i ids dd acc
    | some dd2 =>
      if (pat.flags &&& Caseless) ≠ 0 then
        procIdsC ac useSlice text i ids dd2 (acc ++ [(i + 1, id)])
      else
        if i + 1 < pat.strlen then none
        else if memcmp pat.content (text.drop (i + 1 - pat.strlen)) pat.strlen then
          procIdsC ac useSlice text i ids dd2 (acc ++ [(i + 1, id)])
        else procIdsC ac useSlice text i ids dd2 acc

/-- The per-byte loop of `searchPatterns`, instrumented to collect calls:
translate the byte, take the dense transition (with the defensive
reset-to-root branch on an out-of-range index), process the output set. -/
def searchLoopC (ac : ACKS) (useSlice : Bool) (text : List Nat) :
    List Nat → Nat → Nat → List Nat × List Nat → List (Nat × Nat) →
    Option (List (Nat × Nat))
  | [], _, _, _, acc => some acc
  | b :: rem, i, cur, dd, acc =>
    let tc := ac.translateTable b
    let idx := cur * ac.alphabetSize + tc
    let cur2 := if ac.stateTable.length ≤ idx then 0 else ac.stateTable.getD idx 0
    match procIdsC ac useSlice text i (ac.outputTable.getD cur2 []) dd acc with
    | none => none
    | some r => searchLoopC ac useSlice text rem (i + 1) cur2 r.1 r.2

/-- `searchPatterns` with the dedup-structure choice as an explicit
parameter, collecting the `(pos, patternIndex)` pairs of all callback
invocations it would make. -/
def searchCallsWith (ac : ACKS) (useSlice : Bool) (text : List Nat) :
    Option (List (Nat × Nat)) :=
  let dd0 : List Nat × List Nat :=
    if ac.hasSingleMatch then
      if useSlice then (List.replicate (ac.maxID / 64 + 1) 0, []) else ([], [])
    else ([], [])
  searchLoopC ac useSlice text text 0 0 dd0 []

/-- The invocation trace of `searchPatterns` with the source's dedup choice
`ac.maxID <= 16*1024*1024`. -/
def searchCalls (ac : ACKS) (text : List Nat) : Option (List (Nat × Nat)) :=
  searchCallsWith ac (decide (ac.maxID ≤ 16 * 1024 * 1024)) text

/-- The invocation trace, defaulting to `[]` on the (never-reached) panic. -/
def searchEvents (ac : ACKS) (text : List Nat) : List (Nat × Nat) :=
  (searchCalls ac text).getD []

/-- `procIdsC` with the callback actually invoked: `matched` threads a
caller state `σ` and may return an error, which aborts the pass. -/
def procIdsM {σ E : Type} (ac : ACKS) (useSlice : Bool) (text : List Nat) (i : Nat)
    (matched : σ → Nat → Pattern → σ × Option E) :
    List Nat → List Nat × List Nat → σ →
    Option ((List Nat × List Nat) × σ × Option E)
  | [], dd, s => some (dd, s, none)
  | id :: ids, dd, s =>
    let pat := ac.patterns.getD id dfltPat
    match dedupStep useSlice pat dd with
    | none => procIdsM ac useSlice text i matched ids dd s
    | some dd2 =>
      if (pat.flags &&& Caseless) ≠ 0 then
        match matched s (i + 1) pat with
        | (s2, some e) => some (dd2, s2, some e)
        | (s2, none) => procIdsM ac useSlice text i matched ids dd2 s2
      else
        if i + 1 < pat.strlen then none
        else if memcmp pat.content (text.drop (i + 1 - pat.strlen)) pat.strlen then
          match matched s (i + 1) pat with
          | (s2, some e) => some (dd2, s2, some e)
          | (s2, none) => procIdsM ac useSlice text i matched ids dd2 s2
        else procIdsM ac useSlice text i matched ids dd2 s

/-- The per-byte loop of `searchPatterns` with the callback invoked. -/
def searchLoopM {σ E : Type} (ac : ACKS) (useSlice : Bool) (text : List Nat)
    (matched : σ → Nat → Pattern → σ × Option E) :
    List Nat → Nat → Nat → List Nat × List Nat → σ → Option (σ × Option E)
  | [], _, _, _, s => some (s, none)
  | b :: rem, i, cur, dd, s =>
    let tc := ac.translateTable b
    let idx := cur * ac.alphabetSize + tc
    let cur2 := if ac.stateTable.length ≤ idx then 0 else ac.stateTable.getD idx 0
    match procIdsM ac useSlice text i matched (ac.outputTable.getD cur2 []) dd s with
    | none => none
    | some (_, s2, some e) => some (s2, some e)
    | some (dd2, s2, none) => searchLoopM ac useSlice text matched rem (i + 1) cur2 dd2 s2

/-- `searchPatterns` in ac_ks.go: outer `Option` is a Go panic, the inner
`Option E` the error returned to the caller (`none` = nil). -/
def searchPatterns {σ E : Type} (ac : ACKS) (text : List Nat)
    (matched : σ → Nat → Pattern → σ × Option E) (s0 : σ) : Option (σ × Option E) :=
  let useSlice := decide (ac.maxID ≤ 16 * 1024 * 1024)
  let dd0 : List Nat × List Nat :=
    if ac.hasSingleMatch then
      if useSlice then (List.replicate (ac.maxID / 64 + 1) 0, []) else ([], [])
    else ([], [])
  searchLoopM ac useSlice text matched text 0 0 dd0 s0

/-- `Search` in ac_ks.go: accumulate the matched ids; the accumulating
handler never fails, so the error branch of the Go code is dead. -/
def SearchGo (ac : ACKS) (text : List Nat) : Option (List Nat) :=
  (searchPatterns (E := Unit) ac text
      (fun ms _pos ps => (ms ++ [ps.id], none)) []).map (fun r => r.1)

/-- `Scan` in ac_ks.go: wrap the caller handler `m`, which receives
`(id, from = 0, to = pos)` and whose error aborts the pass. -/
def ScanGo {σ E : Type} (ac : ACKS) (text : List Nat)
    (m : σ → Nat → Nat → Nat → σ × Option E) (s0 : σ) : Option (σ × Option E) :=
  searchPatterns ac text (fun s pos ps => m s ps.id 0 pos) s0

/-- Run a matched-handler down a list of `(pos, Pattern)` invocations,
stopping at the first error — the shape `searchPatterns` factors through. -/
def runMatched {σ E : Type} (matched : σ → Nat → Pattern → σ × Option E) :
    σ → List (Nat × Pattern) → σ × Option E
  | s, [] => (s, none)
  | s, (pos, p) :: rest =>
    match matched s pos p with
    | (s2, none) => runMatched matched s2 rest
    | (s2, some e) => (s2, some e)

/-- The state-transition part of the search loop alone. -/
def runState (ac : ACKS) : List Nat → Nat → Nat
  | [], cur => cur
  | b :: rem, cur =>
    let tc := ac.translateTable b
    let idx := cur * ac.alphabetSize + tc
    runState ac rem (if ac.stateTable.length ≤ idx then 0 else ac.stateTable.getD idx 0)

/-- The DFA state the search loop holds after consuming `i` bytes of `text`. -/
def stateAt (ac : ACKS) (text : List Nat) (i : Nat) : Nat :=
  runState ac (text.take i) 0

/-- The output list of a state. -/
def outList (ac : ACKS) (s : Nat) : List Nat :=
  ac.outputTable.getD s []

/-- The state recursion of the search loop, instrumented to record whether
the defensive reset-to-root branch (`idx >= len(ac.stateTable)`) is ever
taken: `true` as soon as its condition first holds, `false` when the whole
pass runs without it.  The non-taken step updates the state exactly as the
search loop does. -/
def guardHit (ac : ACKS) : List Nat → Nat → Bool
  | [], _ => false
  | b :: rem, cur =>
    let idx := cur * ac.alphabetSize + ac.translateTable b
    if ac.stateTable.length ≤ idx then true
    else guardHit ac rem (ac.stateTable.getD idx 0)

/-!  ### Abstract per-call machine

`specProc`/`specLoop` are `procIdsC`/`searchLoopC` with the per-call dedup
state abstracted to the plain list of already-recorded external ids and with
the re-verification window taken by truncated subtraction (no panic).  The
simulation theorem below shows a built automaton's search agrees with them,
for either dedup structure. -/

/-- Abstract processing of one output set: `m` is the list of already
recorded external ids. -/
def specProc (ps : List Pattern) (text : List Nat) (i : Nat) :
    List Nat → List Nat → List Nat × List (Nat × Nat)
  | [], m => (m, [])
  | k :: ids, m =>
    let pat := ps.getD k dfltPat
    if (pat.flags &&& SingleMatch) ≠ 0 ∧ pat.id ∈ m then specProc ps text i ids m
    else
      let m2 := if (pat.flags &&& SingleMatch) ≠ 0 then m ++ [pat.id] else m
      let fire : Bool :=
        if (pat.flags &&& Caseless) ≠ 0 then true
        else memcmp pat.content (text.drop (i + 1 - pat.strlen)) pat.strlen
      let r := specProc ps text i ids m2
      (r.1, (if fire then [(i + 1, k)] else []) ++ r.2)

/-- Abstract per-byte loop. -/
def specLoop (ac : ACKS) (text : List Nat) :
    List Nat → Nat → Nat → List Nat → List (Nat × Nat)
  | [], _, _, _ => []
  | b :: rem, i, cur, m =>
    let tc := ac.translateTable b
    let idx := cur * ac.alphabetSize + tc
    let cur2 := if ac.stateTable.length ≤ idx then 0 else ac.stateTable.getD idx 0
    let pr := specProc ac.patterns text i (ac.outputTable.getD cur2 []) m
    pr.2 ++ specLoop ac text rem (i + 1) cur2 pr.1

/-- Abstract invocation trace. -/
def specEvents (ac : ACKS) (text : List Nat) : List (Nat × Nat) :=
  specLoop ac text text 0 0 []

/-!  ### Occurrence predicates (spec vocabulary) -/

/-- The byte sequence `pat` occurs in `text` ending at byte index `i`,
byte-for-byte. -/
def endsAt (pat text : List Nat) (i : Nat) : Prop :=
  i < text.length ∧ pat <:+ text.take (i + 1)

instance (pat text : List Nat) (i : Nat) : Decidable (endsAt pat text i) := by
  unfold endsAt; infer_instance

/-- Some ASCII-case variant of `pat` occurs in `text` ending at index `i`:
equality after folding uppercase to lowercase. -/
def foldEndsAt (pat text : List Nat) (i : Nat) : Prop :=
  i < text.length ∧ pat.map toLower <:+ (text.take (i + 1)).map toLower

instance (pat text : List Nat) (i : Nat) : Decidable (foldEndsAt pat text i) := by
  unfold foldEndsAt; infer_instance

/-- The occurrence notion the search accepts for pattern `p`: folded for
`Caseless` patterns, exact otherwise. -/
def acceptedEnd (p : Pattern) (text : List Nat) (i : Nat) : Prop :=
  if (p.flags &&& Caseless) ≠ 0 then foldEndsAt p.content text i
  else endsAt p.content text i

instance (p : Pattern) (text : List Nat) (i : Nat) : Decidable (acceptedEnd p text i) := by
  unfold acceptedEnd; infer_instance

/-- All bytes of a pattern are uint8 values. -/
def wfBytes (p : Pattern) : Prop := ∀ b ∈ p.content, b < 256

instance (p : Pattern) : Decidable (wfBytes p) := by
  unfold wfBytes; infer_instance

/-- The automaton built from a registered pattern list. -/
def builtFrom (ps : List Pattern) : ACKS := Build (addAll ps)

/-!  ## Translate-table theory -/

/-- A byte value gets a symbol: it is not uppercase and occurs (folded) in
some pattern. -/
def usedP (counts : Nat → Nat) (j : Nat) : Bool :=
  !(decide (65 ≤ j ∧ j ≤ 90)) && decide (0 < counts j)

/-- Number of symbol-carrying byte values below `b`. -/
def rankOf (counts : Nat → Nat) (b : Nat) : Nat :=
  (List.range b).countP (usedP counts)

/-- Closed form of the translate table produced by `initTranslateTable`. -/
def ttF (pats : List Pattern) (b : Nat) : Nat :=
  if toLower b < 256 ∧ usedP (countsOf pats) (toLower b) = true then
    1 + rankOf (countsOf pats) (toLower b)
  else 0

theorem toLower_not_upper (b : Nat) : ¬(65 ≤ toLower b ∧ toLower b ≤ 90) := by
  unfold toLower
  by_cases h : 65 ≤ b ∧ b ≤ 90
  · rw [if_pos h]; omega
  · rw [if_neg h]; omega

theorem toLower_idem (b : Nat) : toLower (toLower b) = toLower b := by
  unfold toLower
  by_cases h : 65 ≤ b ∧ b ≤ 90
  · rw [if_pos h, if_neg (by omega)]
  · simp only [if_neg h]

theorem toLower_lt_256 {b : Nat} (h : b < 256) : toLower b < 256 := by
  unfold toLower; split <;> omega

theorem rankOf_succ (counts : Nat → Nat) (n : Nat) :
    rankOf counts (n + 1) = rankOf counts n + (if usedP counts n then 1 else 0) := by
  unfold rankOf
  rw [List.range_succ, List.countP_append]
  have h1 : List.countP (usedP counts) [n] = if usedP counts n then 1 else 0 := by
    rw [List.countP_cons]
    simp
  rw [h1]

theorem rankOf_mono (counts : Nat → Nat) {m n : Nat} (h : m ≤ n) :
    rankOf counts m ≤ rankOf counts n := by
  induction n with
  | zero =>
    have h0 : m = 0 := by omega
    subst h0; exact Nat.le_refl _
  | succ k ih =>
    rcases Nat.lt_or_ge m (k + 1) with h2 | h2
    · have := ih (by omega)
      rw [rankOf_succ]; split <;> omega
    · have h3 : m = k + 1 := by omega
      subst h3; exact Nat.le_refl _

theorem rankOf_lt_of_used (counts : Nat → Nat) {b n : Nat} (hb : b < n)
    (hu : usedP counts b = true) : rankOf counts b < rankOf counts n := by
  have h1 : rankOf counts b + 1 = rankOf counts (b + 1) := by
    rw [rankOf_succ]; simp [hu]
  have h2 : rankOf counts (b + 1) ≤ rankOf counts n := rankOf_mono counts (by omega)
  omega

theorem rankOf_inj (counts : Nat → Nat) {b b2 : Nat}
    (hb : usedP counts b = true) (hb2 : usedP counts b2 = true)
    (h : rankOf counts b = rankOf counts b2) : b = b2 := by
  rcases Nat.lt_trichotomy b b2 with hlt | heq | hgt
  · have := rankOf_lt_of_used counts hlt hb; omega
  · exact heq
  · have := rankOf_lt_of_used counts hgt hb2; omega

/-- The assignment fold of `initTranslateTable`, solved. -/
theorem ttFold_spec (counts : Nat → Nat) (n : Nat) :
    (((List.range n).foldl (ttStep counts) (fun _ => 0, 1)).2 = 1 + rankOf counts n)
    ∧ ∀ b, ((List.range n).foldl (ttStep counts) (fun _ => 0, 1)).1 b
        = if b < n ∧ usedP counts b = true then 1 + rankOf counts b else 0 := by
  induction n with
  | zero => constructor <;> simp [rankOf]
  | succ k ih =>
    rw [List.range_succ, List.foldl_append]
    obtain ⟨ih2, ih1⟩ := ih
    set acc := (List.range k).foldl (ttStep counts) (fun _ => 0, 1) with hacc
    simp only [List.foldl_cons, List.foldl_nil]
    unfold ttStep
    by_cases hup : 65 ≤ k ∧ k ≤ 90
    · have hu : usedP counts k = false := by simp [usedP, hup]
      simp only [if_pos hup]
      constructor
      · rw [rankOf_succ, hu, ih2]; simp
      · intro b
        rw [ih1 b]
        by_cases hbk : b = k
        · subst hbk; simp [hu]
        · have : (b < k + 1 ∧ usedP counts b = true) ↔ (b < k ∧ usedP counts b = true) := by
            constructor
            · rintro ⟨h1, h2⟩
              exact ⟨by rcases Nat.lt_or_ge b k with h | h; exact h; omega, h2⟩
            · rintro ⟨h1, h2⟩; exact ⟨by omega, h2⟩
          rw [if_congr this rfl rfl]
    · by_cases hc : 0 < counts k
      · have hu : usedP counts k = true := by simp [usedP, hup, hc]
        simp only [if_neg hup, if_pos hc]
        constructor
        · simp only [ih2]
          rw [rankOf_succ, if_pos hu]
          omega
        · intro b
          by_cases hbk : b = k
          · subst hbk; simp [hu, ih2]
          · simp only [if_neg hbk]
            rw [ih1 b]
            have : (b < k + 1 ∧ usedP counts b = true) ↔ (b < k ∧ usedP counts b = true) := by
              constructor
              · rintro ⟨h1, h2⟩
                exact ⟨by rcases Nat.lt_or_ge b k with h | h; exact h; omega, h2⟩
              · rintro ⟨h1, h2⟩; exact ⟨by omega, h2⟩
            rw [if_congr this rfl rfl]
      · have hu : usedP counts k = false := by simp [usedP, hc]
        simp only [if_neg hup, if_neg hc]
        constructor
        · rw [rankOf_succ, if_neg (by simp [hu]), ih2]
          omega
        · intro b
          by_cases hbk : b = k
          · subst hbk; simp [hu]
          · simp only [if_neg hbk]
            rw [ih1 b]
            have : (b < k + 1 ∧ usedP counts b = true) ↔ (b < k ∧ usedP counts b = true) := by
              constructor
              · rintro ⟨h1, h2⟩
                exact ⟨by rcases Nat.lt_or_ge b k with h | h; exact h; omega, h2⟩
              · rintro ⟨h1, h2⟩; exact ⟨by omega, h2⟩
            rw [if_congr this rfl rfl]

/-- The translate table of a built automaton, in closed form. -/
theorem initTT_translate (ac : ACKS) (b : Nat) :
    (initTranslateTable ac).translateTable b = ttF ac.patterns b := by
  unfold initTranslateTable ttF
  simp only
  obtain ⟨h2, h1⟩ := ttFold_spec (countsOf ac.patterns) 256
  by_cases hup : 65 ≤ b ∧ b ≤ 90
  · have hlow : toLower b = b + 32 := by unfold toLower; simp [hup]
    have h256 : b + 32 < 256 := by omega
    simp only [if_pos hup, h1, hlow, h256, true_and]
  · have hlow : toLower b = b := by unfold toLower; simp [hup]
    simp only [if_neg hup, h1, hlow]

theorem initTT_alphabet (ac : ACKS) :
    (initTranslateTable ac).alphabetSize = 1 + rankOf (countsOf ac.patterns) 256 := by
  unfold initTranslateTable
  simp only
  exact (ttFold_spec (countsOf ac.patterns) 256).1

theorem initTT_patterns (ac : ACKS) : (initTranslateTable ac).patterns = ac.patterns := rfl

theorem ttF_lt_alphabet (pats : List Pattern) (b : Nat) :
    ttF pats b < 1 + rankOf (countsOf pats) 256 := by
  unfold ttF
  split
  · next h =>
    have := rankOf_lt_of_used (countsOf pats) h.1 h.2
    omega
  · omega

theorem ttF_toLower (pats : List Pattern) (b : Nat) :
    ttF pats (toLower b) = ttF pats b := by
  unfold ttF; rw [toLower_idem]

theorem ttF_pos_iff (pats : List Pattern) (b : Nat) :
    0 < ttF pats b ↔ (toLower b < 256 ∧ usedP (countsOf pats) (toLower b) = true) := by
  unfold ttF; split <;> simp_all

theorem ttF_inj (pats : List Pattern) {b b2 : Nat}
    (hb : 0 < ttF pats b) (h : ttF pats b = ttF pats b2) : toLower b = toLower b2 := by
  obtain ⟨hl, hu⟩ := (ttF_pos_iff pats b).1 hb
  have hb2 : 0 < ttF pats b2 := h ▸ hb
  obtain ⟨hl2, hu2⟩ := (ttF_pos_iff pats b2).1 hb2
  unfold ttF at h
  rw [if_pos ⟨hl, hu⟩, if_pos ⟨hl2, hu2⟩] at h
  exact rankOf_inj _ hu hu2 (by omega)

theorem foldl_add_init {α : Type} (g : α → Nat) (l : List α) (a : Nat) :
    l.foldl (fun acc p => acc + g p) a = a + l.foldl (fun acc p => acc + g p) 0 := by
  induction l generalizing a with
  | nil => simp
  | cons x xs ih =>
    simp only [List.foldl_cons, Nat.zero_add]
    rw [ih (a + g x), ih (g x)]
    omega

theorem countsOf_pos_iff (pats : List Pattern) (v : Nat) :
    0 < countsOf pats v ↔ ∃ p ∈ pats, ∃ b ∈ p.content, toLower b = v := by
  unfold countsOf
  induction pats with
  | nil => simp
  | cons p ps ih =>
    simp only [List.foldl_cons]
    rw [foldl_add_init]
    simp only [Nat.zero_add] at ih ⊢
    constructor
    · intro h
      rcases Nat.lt_or_ge 0 (p.content.countP (fun c => toLower c == v)) with hc | hc
      · obtain ⟨b, hb, hbe⟩ := List.countP_pos.1 hc
        exact ⟨p, List.mem_cons_self p ps, b, hb, by simpa using hbe⟩
      · have h0 : p.content.countP (fun c => toLower c == v) = 0 := by omega
        rw [h0] at h
        simp only [Nat.zero_add] at h
        obtain ⟨q, hq, r⟩ := ih.1 h
        exact ⟨q, List.mem_cons_of_mem p hq, r⟩
    · rintro ⟨q, hq, b, hb, hbe⟩
      rcases List.mem_cons.1 hq with hq1 | hq2
      · subst hq1
        have : 0 < q.content.countP (fun c => toLower c == v) :=
          List.countP_pos.2 ⟨b, hb, by simpa using hbe⟩
        omega
      · have := ih.2 ⟨q, hq2, b, hb, hbe⟩
        omega

/-- A pattern's own bytes always get a nonzero symbol. -/
theorem ttF_pos_of_mem {pats : List Pattern} {p : Pattern} {b : Nat}
    (hp : p ∈ pats) (hb : b ∈ p.content) (h256 : b < 256) : 0 < ttF pats b := by
  rw [ttF_pos_iff]
  refine ⟨toLower_lt_256 h256, ?_⟩
  unfold usedP
  have : 0 < countsOf pats (toLower b) :=
    (countsOf_pos_iff pats (toLower b)).2 ⟨p, hp, b, hb, rfl⟩
  simp [toLower_not_upper b, this]

/-!  ## Trie theory -/

/-- Walk a code list through the trie edges from a state. -/
def walk (es : List (Nat × Nat × Nat)) : Nat → List Nat → Option Nat
  | s, [] => some s
  | s, c :: cs =>
    match trieGet es s c with
    | some t => walk es t cs
    | none => none

/-- The compressed-symbol sequence the trie stores for a byte sequence. -/
def codeP (tt : Nat → Nat) (content : List Nat) : List Nat :=
  content.map (fun b => tt (toLower b))

theorem walk_append (es : List (Nat × Nat × Nat)) (u v : List Nat) :
    ∀ s, walk es s (u ++ v) = (walk es s u).bind (fun t => walk es t v) := by
  induction u with
  | nil => intro s; simp [walk]
  | cons c cs ih =>
    intro s
    simp only [List.cons_append, walk]
    cases trieGet es s c with
    | none => simp
    | some t => simp [ih t]

theorem trieGet_mono {es ex : List (Nat × Nat × Nat)} {s c t : Nat}
    (h : trieGet es s c = some t) : trieGet (es ++ ex) s c = some t := by
  unfold trieGet at h ⊢
  rw [List.find?_append]
  cases hf : es.find? (fun e => e.1 == s && e.2.1 == c) with
  | none => rw [hf] at h; simp at h
  | some e => rw [hf] at h; simp [Option.or, hf, h]

theorem walk_mono {es ex : List (Nat × Nat × Nat)} {cs : List Nat} {t : Nat} :
    ∀ {s}, walk es s cs = some t → walk (es ++ ex) s cs = some t := by
  induction cs with
  | nil => intro s h; simpa [walk] using h
  | cons c cs ih =>
    intro s h
    simp only [walk] at h ⊢
    cases hg : trieGet es s c with
    | none => rw [hg] at h; simp at h
    | some u =>
      rw [hg] at h
      rw [trieGet_mono hg]
      exact ih h

/-- Lookup in a one-edge extension of the trie. -/
theorem trieGet_append_one (es : List (Nat × Nat × Nat)) (e : Nat × Nat × Nat)
    (s c : Nat) :
    trieGet (es ++ [e]) s c =
      match trieGet es s c with
      | some t => some t
      | none => if e.1 = s ∧ e.2.1 = c then some e.2.2 else none := by
  unfold trieGet
  rw [List.find?_append]
  cases hf : es.find? (fun x => x.1 == s && x.2.1 == c) with
  | some x => simp [Option.or]
  | none =>
    simp only [Option.or, Option.map]
    by_cases he : e.1 = s ∧ e.2.1 = c
    · have : (e.1 == s && e.2.1 == c) = true := by
        simp [he.1, he.2]
      simp [List.find?, this, he]
    · have : (e.1 == s && e.2.1 == c) = false := by
        rcases (not_and_or.1 he) with h1 | h1 <;> simp [h1]
      simp [List.find?, this, he]

/-- The trie structural invariant: targets of the edge list are exactly
`1, 2, …, stateCount-1` in allocation order, sources precede targets, every
edge is the one its own lookup finds, and the output table has one entry
per state. -/
structure TInv (tb : TrieB) : Prop where
  scpos : 1 ≤ tb.stateCount
  targets : tb.edges.map (fun e => e.2.2) = List.range' 1 (tb.stateCount - 1)
  srcLt : ∀ e ∈ tb.edges, e.1 < e.2.2
  getSelf : ∀ e ∈ tb.edges, trieGet tb.edges e.1 e.2.1 = some e.2.2
  outLen : tb.out.length = tb.stateCount

theorem TInv_target_lt {tb : TrieB} (hI : TInv tb) {e : Nat × Nat × Nat}
    (he : e ∈ tb.edges) : 1 ≤ e.2.2 ∧ e.2.2 < tb.stateCount := by
  have hm : e.2.2 ∈ tb.edges.map (fun e => e.2.2) := List.mem_map_of_mem _ he
  rw [hI.targets] at hm
  rw [List.mem_range'] at hm
  obtain ⟨i, hi, he2⟩ := hm
  omega

theorem trieGet_mem {es : List (Nat × Nat × Nat)} {s c t : Nat}
    (h : trieGet es s c = some t) : (s, c, t) ∈ es := by
  unfold trieGet at h
  cases hf : es.find? (fun e => e.1 == s && e.2.1 == c) with
  | none => rw [hf] at h; simp at h
  | some e =>
    rw [hf] at h
    have hp := List.find?_some hf
    have hm := List.mem_of_find?_eq_some hf
    simp only [Bool.and_eq_true, beq_iff_eq] at hp
    simp only [Option.map, Option.some.injEq] at h
    have : e = (s, c, t) := by
      obtain ⟨h1, h2⟩ := hp
      cases e with
      | mk e1 e23 =>
        cases e23 with
        | mk e2 e3 =>
          simp_all
    rw [← this]; exact hm

theorem walk_lt {tb : TrieB} (hI : TInv tb) {cs : List Nat} :
    ∀ {s t : Nat}, s < tb.stateCount → walk tb.edges s cs = some t →
      t < tb.stateCount := by
  induction cs with
  | nil => intro s t hs h; simp [walk] at h; omega
  | cons c cs ih =>
    intro s t hs h
    simp only [walk] at h
    cases hg : trieGet tb.edges s c with
    | none => rw [hg] at h; simp at h
    | some u =>
      rw [hg] at h
      exact ih (TInv_target_lt hI (trieGet_mem hg)).2 h

/-- The unique in-edge of a state (`none` for the root). -/
def parentE (es : List (Nat × Nat × Nat)) (s : Nat) : Option (Nat × Nat × Nat) :=
  es.find? (fun e => e.2.2 == s)

/-- Path from the root to a state, reconstructed along in-edges; `fu` is
fuel (the state index suffices, as sources precede targets). -/
def pathOfF (es : List (Nat × Nat × Nat)) : Nat → Nat → List Nat
  | 0, _ => []
  | fu + 1, s =>
    match parentE es s with
    | some e => pathOfF es fu e.1 ++ [e.2.1]
    | none => []

/-- The code path from the root to a state. -/
def path (es : List (Nat × Nat × Nat)) (s : Nat) : List Nat := pathOfF es s s

theorem find?_eq_of_map_nodup {α β : Type} [DecidableEq β] (f : α → β) :
    ∀ (l : List α) (a : α), (l.map f).Nodup → a ∈ l →
      l.find? (fun x => f x == f a) = some a := by
  intro l
  induction l with
  | nil => intro a _ ha; simp at ha
  | cons x xs ih =>
    intro a hnd ha
    rw [List.map_cons, List.nodup_cons] at hnd
    rcases List.mem_cons.1 ha with h1 | h2
    · subst h1
      simp [List.find?]
    · by_cases hfx : f x = f a
      · exfalso
        exact hnd.1 (hfx ▸ List.mem_map_of_mem f h2)
      · have hb : (f x == f a) = false := by simp [hfx]
        simp only [List.find?, hb]
        exact ih a hnd.2 h2

theorem targets_nodup {tb : TrieB} (hI : TInv tb) :
    (tb.edges.map (fun e => e.2.2)).Nodup := by
  rw [hI.targets]
  exact List.nodup_range' 1 (tb.stateCount - 1)

theorem parentE_of_mem {tb : TrieB} (hI : TInv tb) {e : Nat × Nat × Nat}
    (he : e ∈ tb.edges) : parentE tb.edges e.2.2 = some e := by
  unfold parentE
  exact find?_eq_of_map_nodup (fun x => x.2.2) tb.edges e (targets_nodup hI) he

theorem parentE_root {tb : TrieB} (hI : TInv tb) : parentE tb.edges 0 = none := by
  unfold parentE
  rw [List.find?_eq_none]
  intro e he
  have := (TInv_target_lt hI he).1
  simp
  omega

theorem parentE_props {tb : TrieB} {s : Nat} {e : Nat × Nat × Nat}
    (h : parentE tb.edges s = some e) : e ∈ tb.edges ∧ e.2.2 = s := by
  unfold parentE at h
  refine ⟨List.mem_of_find?_eq_some h, ?_⟩
  have := List.find?_some h
  simpa using this

theorem pathOfF_fuel {tb : TrieB} (hI : TInv tb) :
    ∀ s fu, s ≤ fu → pathOfF tb.edges fu s = path tb.edges s := by
  intro s
  induction s using Nat.strong_induction_on with
  | _ s ih =>
    intro fu hfu
    cases fu with
    | zero =>
      have hs : s = 0 := by omega
      subst hs; rfl
    | succ fu2 =>
      cases hp : parentE tb.edges s with
      | none =>
        cases s with
        | zero => simp [path, pathOfF, hp]
        | succ k => simp [path, pathOfF, hp]
      | some e =>
        obtain ⟨hmem, htgt⟩ := parentE_props hp
        have hlt : e.1 < s := htgt ▸ hI.srcLt e hmem
        cases s with
        | zero => omega
        | succ k =>
          show pathOfF tb.edges (fu2 + 1) (k + 1) = pathOfF tb.edges (k + 1) (k + 1)
          simp only [pathOfF, hp]
          rw [ih e.1 (by omega) fu2 (by omega), ih e.1 (by omega) k (by omega)]

theorem path_spec {tb : TrieB} (hI : TInv tb) :
    ∀ s, s < tb.stateCount →
      walk tb.edges 0 (path tb.edges s) = some s ∧ (path tb.edges s).length ≤ s := by
  intro s
  induction s using Nat.strong_induction_on with
  | _ s ih =>
    intro hs
    by_cases hs0 : s = 0
    · subst hs0
      have : path tb.edges 0 = [] := rfl
      rw [this]
      exact ⟨rfl, by simp⟩
    · have hs1 : 1 ≤ s := by omega
      have hmem : s ∈ tb.edges.map (fun e => e.2.2) := by
        rw [hI.targets, List.mem_range']
        exact ⟨s - 1, by omega, by omega⟩
      obtain ⟨e, he, htgt⟩ := List.mem_map.1 hmem
      have hp : parentE tb.edges s = some e := htgt ▸ parentE_of_mem hI he
      have hlt : e.1 < s := htgt ▸ hI.srcLt e he
      have hpe : path tb.edges s = path tb.edges e.1 ++ [e.2.1] := by
        cases s with
        | zero => omega
        | succ k =>
          show pathOfF tb.edges (k + 1) (k + 1) = _
          simp only [pathOfF, hp]
          rw [pathOfF_fuel hI e.1 k (by omega)]
      have hlt2 : e.1 < tb.stateCount := by
        have := (TInv_target_lt hI he).2
        omega
      obtain ⟨hw, hlen⟩ := ih e.1 hlt hlt2
      constructor
      · rw [hpe, walk_append, hw]
        simp only [Option.bind]
        simp [walk, hI.getSelf e he, htgt]
      · rw [hpe]
        simp only [List.length_append, List.length_cons, List.length_nil]
        omega

/-- In a well-formed trie the walk destination determines the code list. -/
theorem walk_unique {tb : TrieB} (hI : TInv tb) {cs : List Nat} :
    ∀ {s : Nat}, walk tb.edges 0 cs = some s → cs = path tb.edges s := by
  induction cs using List.reverseRecOn with
  | nil =>
    intro s h
    simp only [walk, Option.some.injEq] at h
    subst h
    rfl
  | append_singleton cs c ih =>
    intro s h
    rw [walk_append] at h
    cases hw : walk tb.edges 0 cs with
    | none => rw [hw] at h; simp at h
    | some t =>
      rw [hw] at h
      simp only [Option.bind, walk] at h
      cases hg : trieGet tb.edges t c with
      | none => rw [hg] at h; simp [walk] at h
      | some u =>
        rw [hg] at h
        simp only [walk, Option.some.injEq] at h
        subst h
        have hmem := trieGet_mem hg
        have hp : parentE tb.edges u = some (t, c, u) := parentE_of_mem hI hmem
        have hs1 : 1 ≤ u := (TInv_target_lt hI hmem).1
        have hlt : t < u := hI.srcLt (t, c, u) hmem
        have hpe : path tb.edges u = path tb.edges t ++ [c] := by
          cases u with
          | zero => omega
          | succ k =>
            show pathOfF tb.edges (k + 1) (k + 1) = _
            simp only [pathOfF, hp]
            rw [pathOfF_fuel hI t k (by omega)]
        rw [hpe, ih hw]

theorem getD_set_eq {α : Type} (l : List α) (i : Nat) (a d : α) (h : i < l.length) :
    (l.set i a).getD i d = a := by
  rw [List.getD_eq_getElem?_getD, List.getElem?_set_self h]
  rfl

theorem getD_set_ne {α : Type} (l : List α) {i j : Nat} (a d : α) (h : i ≠ j) :
    (l.set i a).getD j d = l.getD j d := by
  rw [List.getD_eq_getElem?_getD, List.getElem?_set_ne h, ← List.getD_eq_getElem?_getD]

theorem TInv_src_lt {tb : TrieB} (hI : TInv tb) {e : Nat × Nat × Nat}
    (he : e ∈ tb.edges) : e.1 < tb.stateCount := by
  have h1 := hI.srcLt e he
  have h2 := (TInv_target_lt hI he).2
  omega

theorem walk_one (es : List (Nat × Nat × Nat)) (s c : Nat) :
    walk es s [c] = trieGet es s c := by
  simp only [walk]
  cases trieGet es s c <;> simp [walk]

theorem path_edge {tb : TrieB} (hI : TInv tb) {e : Nat × Nat × Nat}
    (he : e ∈ tb.edges) :
    path tb.edges e.2.2 = path tb.edges e.1 ++ [e.2.1] := by
  have hp : parentE tb.edges e.2.2 = some e := parentE_of_mem hI he
  have hs1 : 1 ≤ e.2.2 := (TInv_target_lt hI he).1
  have hlt : e.1 < e.2.2 := hI.srcLt e he
  cases htgt : e.2.2 with
  | zero => omega
  | succ k =>
    rw [htgt] at hp hlt
    show pathOfF tb.edges (k + 1) (k + 1) = _
    simp only [pathOfF, hp]
    rw [pathOfF_fuel hI e.1 k (by omega)]

/-- Stability of a state's root path under a trie extension. -/
theorem path_stable {tb tb2 : TrieB} (hI : TInv tb) (hI2 : TInv tb2)
    (hx : ∃ ex, tb2.edges = tb.edges ++ ex) {s : Nat} (hs : s < tb.stateCount) :
    path tb2.edges s = path tb.edges s := by
  obtain ⟨ex, hex⟩ := hx
  have h1 := (path_spec hI s hs).1
  have h2 : walk tb2.edges 0 (path tb.edges s) = some s := by
    rw [hex]; exact walk_mono h1
  exact (walk_unique hI2 h2).symm

/-- What one trie-insertion walk (over code list `codes`, from state `cur`)
does: `tb2` extends `tb`, ends at `cur2`, the new walkable code lists are
exactly `path(cur) ++ v` for nonempty prefixes `v` of `codes`, old output
entries are untouched and new states have empty output. -/
structure Ext (tb tb2 : TrieB) (cur : Nat) (codes : List Nat) (cur2 : Nat) : Prop where
  inv2 : TInv tb2
  edgesExt : ∃ ex, tb2.edges = tb.edges ++ ex
  scLe : tb.stateCount ≤ tb2.stateCount
  cur2lt : cur2 < tb2.stateCount
  walkTo : walk tb2.edges cur codes = some cur2
  domNew : ∀ cs t, walk tb2.edges 0 cs = some t →
    walk tb.edges 0 cs = some t ∨
      (tb.stateCount ≤ t ∧ ∃ v, v ≠ [] ∧ v <+: codes ∧ cs = path tb.edges cur ++ v)
  outOld : ∀ s, s < tb.stateCount → tb2.out.getD s [] = tb.out.getD s []
  outNew : ∀ s, tb.stateCount ≤ s → tb2.out.getD s [] = []

theorem TInv_out_default {tb : TrieB} (hI : TInv tb) {s : Nat}
    (hs : tb.stateCount ≤ s) : tb.out.getD s [] = [] := by
  apply List.getD_eq_default
  rw [hI.outLen]
  exact hs

theorem Ext_nil {tb : TrieB} (hI : TInv tb) {cur : Nat} (hcur : cur < tb.stateCount) :
    Ext tb tb cur [] cur := by
  refine ⟨hI, ⟨[], by simp⟩, Nat.le_refl _, hcur, rfl, ?_, fun s _ => rfl, ?_⟩
  · intro cs t h
    exact Or.inl h
  · intro s hs
    exact TInv_out_default hI hs

/-- Walks in a trie extended by one fresh edge `(cur, tc, N)`: either the
walk avoids the new edge, or it ends right after taking it. -/
theorem walk_append_one_cases {tb : TrieB} (hI : TInv tb) {cur tc : Nat}
    (hget : trieGet tb.edges cur tc = none) (hcur : cur < tb.stateCount) :
    ∀ (cs : List Nat) (s t : Nat), s < tb.stateCount →
      walk (tb.edges ++ [(cur, tc, tb.stateCount)]) s cs = some t →
      walk tb.edges s cs = some t ∨
        (t = tb.stateCount ∧ ∃ cs0, cs = cs0 ++ [tc] ∧ walk tb.edges s cs0 = some cur) := by
  intro cs
  induction cs with
  | nil =>
    intro s t hs h
    simp only [walk, Option.some.injEq] at h
    subst h
    exact Or.inl rfl
  | cons c rest ih =>
    intro s t hs h
    simp only [walk] at h
    rw [trieGet_append_one] at h
    cases hg : trieGet tb.edges s c with
    | some v =>
      rw [hg] at h
      simp only at h
      have hv : v < tb.stateCount := (TInv_target_lt hI (trieGet_mem hg)).2
      rcases ih v t hv h with h1 | ⟨h1, cs0, h2, h3⟩
      · left
        simp only [walk, hg]
        exact h1
      · right
        refine ⟨h1, c :: cs0, by simp [h2], ?_⟩
        simp only [walk, hg]
        exact h3
    | none =>
      rw [hg] at h
      simp only at h
      by_cases hsc : cur = s ∧ tc = c
      · rw [if_pos hsc] at h
        obtain ⟨hsc1, hsc2⟩ := hsc
        subst hsc1
        subst hsc2
        have hno : ∀ c2, trieGet (tb.edges ++ [(cur, tc, tb.stateCount)]) tb.stateCount c2 = none := by
          intro c2
          rw [trieGet_append_one]
          cases hg2 : trieGet tb.edges tb.stateCount c2 with
          | some w =>
            exfalso
            have := TInv_src_lt hI (trieGet_mem hg2)
            omega
          | none =>
            simp only
            rw [if_neg]
            intro hcc
            omega
        cases rest with
        | nil =>
          simp only [walk, Option.some.injEq] at h
          right
          exact ⟨h.symm, [], by simp, rfl⟩
        | cons c2 rest2 =>
          simp only [walk, hno c2] at h
          exact Option.noConfusion h
      · rw [if_neg hsc] at h
        simp at h

/-- One byte of the insertion walk is an `Ext` over the one-code list. -/
theorem insStep_Ext (tt : Nat → Nat) (tb : TrieB) (cur b : Nat)
    (hI : TInv tb) (hcur : cur < tb.stateCount) :
    Ext tb (insStep tt (tb, cur) b).1 cur [tt (toLower b)] (insStep tt (tb, cur) b).2 := by
  unfold insStep
  simp only
  cases hg : trieGet tb.edges cur (tt (toLower b)) with
  | some nxt =>
    simp only
    have hn : nxt < tb.stateCount := (TInv_target_lt hI (trieGet_mem hg)).2
    refine ⟨hI, ⟨[], by simp⟩, Nat.le_refl _, hn, ?_, ?_, fun s _ => rfl, ?_⟩
    · rw [walk_one, hg]
    · intro cs t h
      exact Or.inl h
    · intro s hs
      exact TInv_out_default hI hs
  | none =>
    simp only
    set N := tb.stateCount with hN
    set e : Nat × Nat × Nat := (cur, tt (toLower b), N) with he
    have hI2 : TInv ⟨tb.edges ++ [e], N + 1, tb.out ++ [[]]⟩ := by
      constructor
      · simp
      · show (tb.edges ++ [e]).map (fun x => x.2.2) = List.range' 1 (N + 1 - 1)
        rw [List.map_append, hI.targets]
        have h1 : 1 ≤ N := hI.scpos
        have h2 : N + 1 - 1 = (N - 1) + 1 := by omega
        rw [h2, List.range'_concat]
        simp only [he]
        have h3 : 1 + 1 * (N - 1) = N := by omega
        rw [h3]
        simp
      · intro x hx
        rcases List.mem_append.1 hx with h1 | h1
        · exact hI.srcLt x h1
        · simp only [List.mem_singleton] at h1
          subst h1
          exact hcur
      · intro x hx
        rcases List.mem_append.1 hx with h1 | h1
        · exact trieGet_mono (hI.getSelf x h1)
        · simp only [List.mem_singleton] at h1
          subst h1
          show trieGet (tb.edges ++ [e]) cur (tt (toLower b)) = some N
          rw [trieGet_append_one, hg]
          simp
      · simp [hI.outLen]
    refine ⟨hI2, ⟨[e], rfl⟩, ?_, ?_, ?_, ?_, ?_, ?_⟩
    · show tb.stateCount ≤ N + 1
      omega
    · show N < N + 1
      omega
    · show walk (tb.edges ++ [e]) cur [tt (toLower b)] = some N
      rw [walk_one, trieGet_append_one, hg]
      simp
    · intro cs t h
      rcases walk_append_one_cases hI hg hcur cs 0 t hI.scpos h with h1 | ⟨h1, cs0, h2, h3⟩
      · exact Or.inl h1
      · right
        refine ⟨by omega, [tt (toLower b)], by simp, List.prefix_refl _, ?_⟩
        rw [h2, walk_unique hI h3]
    · intro s hs
      show (tb.out ++ [[]]).getD s [] = tb.out.getD s []
      rw [List.getD_append]
      rw [hI.outLen]
      exact hs
    · intro s hs
      show (tb.out ++ [[]]).getD s [] = []
      rcases Nat.lt_or_ge s (N + 1) with h1 | h1
      · have hs2 : s = N := by omega
        subst hs2
        rw [List.getD_append_right _ _ _ _ (by rw [hI.outLen])]
        rw [hI.outLen]
        simp
      · apply List.getD_eq_default
        simp [hI.outLen]
        omega

/-- `Ext` composes along consecutive walks. -/
theorem Ext_comp {tb tb1 tb2 : TrieB} {cur c cur1 cur2 : Nat} {codes : List Nat}
    (hI : TInv tb) (hcur : cur < tb.stateCount)
    (h1 : Ext tb tb1 cur [c] cur1) (h2 : Ext tb1 tb2 cur1 codes cur2) :
    Ext tb tb2 cur (c :: codes) cur2 := by
  have hget1 : trieGet tb1.edges cur c = some cur1 := by
    have := h1.walkTo
    rwa [walk_one] at this
  have hget2 : trieGet tb2.edges cur c = some cur1 := by
    obtain ⟨ex, hex⟩ := h2.edgesExt
    rw [hex]
    exact trieGet_mono hget1
  have hpath1 : path tb1.edges cur = path tb.edges cur := path_stable hI h1.inv2 h1.edgesExt hcur
  refine ⟨h2.inv2, ?_, ?_, h2.cur2lt, ?_, ?_, ?_, ?_⟩
  · obtain ⟨ex1, hex1⟩ := h1.edgesExt
    obtain ⟨ex2, hex2⟩ := h2.edgesExt
    exact ⟨ex1 ++ ex2, by rw [hex2, hex1, List.append_assoc]⟩
  · have := h1.scLe
    have := h2.scLe
    omega
  · simp only [walk, hget2]
    exact h2.walkTo
  · intro cs t h
    rcases h2.domNew cs t h with hl | ⟨hge, v, hv, hpre, hcs⟩
    · rcases h1.domNew cs t hl with hll | ⟨hge, v, hv, hpre, hcs⟩
      · exact Or.inl hll
      · right
        have hv1 : v = [c] := by
          rcases hpre with ⟨w, hw⟩
          cases v with
          | nil => exact absurd rfl hv
          | cons x xs =>
            cases xs with
            | nil =>
              simp only [List.cons_append, List.nil_append, List.cons.injEq] at hw
              rw [hw.1]
            | cons y ys => simp at hw
        subst hv1
        exact ⟨hge, [c], by simp, ⟨codes, rfl⟩, hcs⟩
    · right
      refine ⟨by have := h1.scLe; omega, c :: v, by simp, ?_, ?_⟩
      · exact (List.prefix_cons_inj c).2 hpre
      · have hpc1 : path tb1.edges cur1 = path tb1.edges cur ++ [c] := by
          have hmem := trieGet_mem hget1
          have := path_edge h1.inv2 hmem
          simpa using this
        rw [hcs, hpc1, hpath1]
        simp
  · intro s hs
    rw [h2.outOld s (by have := h1.scLe; omega)]
    exact h1.outOld s hs
  · intro s hs
    rcases Nat.lt_or_ge s tb1.stateCount with hlt | hge
    · rw [h2.outOld s hlt]
      exact h1.outNew s hs
    · exact h2.outNew s hge

/-- The whole insertion walk of one pattern is an `Ext`. -/
theorem insFold_Ext (tt : Nat → Nat) (content : List Nat) :
    ∀ (tb : TrieB) (cur : Nat), TInv tb → cur < tb.stateCount →
      Ext tb (content.foldl (insStep tt) (tb, cur)).1 cur (codeP tt content)
        (content.foldl (insStep tt) (tb, cur)).2 := by
  induction content with
  | nil =>
    intro tb cur hI hcur
    exact Ext_nil hI hcur
  | cons b rest ih =>
    intro tb cur hI hcur
    have hstep := insStep_Ext tt tb cur b hI hcur
    have hIH := ih (insStep tt (tb, cur) b).1 (insStep tt (tb, cur) b).2
      hstep.inv2 hstep.cur2lt
    have hfold : (b :: rest).foldl (insStep tt) (tb, cur)
        = rest.foldl (insStep tt) (insStep tt (tb, cur) b) := by
      rw [List.foldl_cons]
    rw [hfold]
    have hcodes : codeP tt (b :: rest) = tt (toLower b) :: codeP tt rest := rfl
    rw [hcodes]
    have : insStep tt (tb, cur) b = ((insStep tt (tb, cur) b).1, (insStep tt (tb, cur) b).2) := rfl
    rw [this] at hIH ⊢
    exact Ext_comp hI hcur hstep hIH

/-- The construction invariant tying a trie to the pattern list inserted so
far: walkable code lists are exactly the prefixes of inserted patterns, and
every state's output list is exactly the (index-ordered) list of patterns
terminating there. -/
structure TrieOK (tt : Nat → Nat) (done : List Pattern) (tb : TrieB) : Prop where
  inv : TInv tb
  domS : ∀ cs t, walk tb.edges 0 cs = some t → cs = [] ∨ ∃ p ∈ done, cs <+: codeP tt p.content
  domC : ∀ p ∈ done, ∀ v, v <+: codeP tt p.content → (walk tb.edges 0 v).isSome = true
  outC : ∀ s, s < tb.stateCount → tb.out.getD s [] =
    (List.range done.length).filter
      (fun q => walk tb.edges 0 (codeP tt ((done.getD q dfltPat).content)) == some s)

theorem getD_mem_of_lt {α : Type} (l : List α) (q : Nat) (d : α) (h : q < l.length) :
    l.getD q d ∈ l := by
  rw [List.getD_eq_getElem?_getD, List.getElem?_eq_getElem h]
  simpa using List.getElem_mem h

theorem insertPat_OK (tt : Nat → Nat) {done : List Pattern} {tb : TrieB}
    (hOK : TrieOK tt done tb) (p : Pattern) :
    TrieOK tt (done ++ [p]) (insertPat tt tb done.length p.content) := by
  obtain ⟨hI, hdomS, hdomC, houtC⟩ := hOK
  have hE := insFold_Ext tt p.content tb 0 hI hI.scpos
  set F := p.content.foldl (insStep tt) (tb, 0) with hF
  have hpath0 : path tb.edges 0 = [] := rfl
  have hIR : TInv (insertPat tt tb done.length p.content) := by
    obtain ⟨inv2, eext, scle, c2lt, wto, dnew, oOld, oNew⟩ := hE
    constructor
    · exact inv2.scpos
    · exact inv2.targets
    · exact inv2.srcLt
    · exact inv2.getSelf
    · show (appAt F.1.out F.2 done.length).length = F.1.stateCount
      unfold appAt
      rw [List.length_set]
      exact inv2.outLen
  have hedges : (insertPat tt tb done.length p.content).edges = F.1.edges := rfl
  have hsc : (insertPat tt tb done.length p.content).stateCount = F.1.stateCount := rfl
  have hwalkP : walk F.1.edges 0 (codeP tt p.content) = some F.2 := hE.walkTo
  constructor
  · exact hIR
  · intro cs t h
    rw [hedges] at h
    rcases hE.domNew cs t h with h1 | ⟨hge, v, hv, hpre, hcs⟩
    · rcases hdomS cs t h1 with h2 | ⟨q, hq, hpre⟩
      · exact Or.inl h2
      · exact Or.inr ⟨q, List.mem_append_left _ hq, hpre⟩
    · rw [hpath0, List.nil_append] at hcs
      subst hcs
      exact Or.inr ⟨p, List.mem_append_right _ (List.mem_singleton.2 rfl), hpre⟩
  · intro q hq v hpre
    rw [hedges]
    rcases List.mem_append.1 hq with h1 | h1
    · have := hdomC q h1 v hpre
      rw [Option.isSome_iff_exists] at this ⊢
      obtain ⟨t, ht⟩ := this
      obtain ⟨ex, hex⟩ := hE.edgesExt
      exact ⟨t, by rw [hex]; exact walk_mono ht⟩
    · simp only [List.mem_singleton] at h1
      subst h1
      obtain ⟨w, hw⟩ := hpre
      rw [Option.isSome_iff_exists]
      rw [← hw, walk_append] at hwalkP
      cases hv : walk F.1.edges 0 v with
      | none => rw [hv] at hwalkP; simp at hwalkP
      | some t => exact ⟨t, rfl⟩
  · intro s hs
    rw [hsc] at hs
    show (appAt F.1.out F.2 done.length).getD s [] = _
    simp only [hedges]
    have hrange : List.range (done ++ [p]).length = List.range done.length ++ [done.length] := by
      rw [List.length_append, List.length_singleton, List.range_succ]
    rw [hrange, List.filter_append]
    have hgetDold : ∀ q, q < done.length → (done ++ [p]).getD q dfltPat = done.getD q dfltPat := by
      intro q hq
      exact List.getD_append _ _ _ _ hq
    have hgetDnew : (done ++ [p]).getD done.length dfltPat = p := by
      rw [List.getD_append_right _ _ _ _ (Nat.le_refl _)]
      simp
    have hcondOld : ∀ q, q ∈ List.range done.length →
        (walk F.1.edges 0 (codeP tt (((done ++ [p]).getD q dfltPat).content)) == some s)
          = (walk tb.edges 0 (codeP tt ((done.getD q dfltPat).content)) == some s) := by
      intro q hq
      rw [List.mem_range] at hq
      rw [hgetDold q hq]
      have hq2 : done.getD q dfltPat ∈ done := getD_mem_of_lt done q dfltPat hq
      have hiso := hdomC _ hq2 _ (List.prefix_refl _)
      rw [Option.isSome_iff_exists] at hiso
      obtain ⟨t, ht⟩ := hiso
      obtain ⟨ex, hex⟩ := hE.edgesExt
      have ht2 : walk F.1.edges 0 (codeP tt ((done.getD q dfltPat).content)) = some t := by
        rw [hex]; exact walk_mono ht
      rw [ht, ht2]
    have hfiltOld : (List.range done.length).filter
        (fun q => walk F.1.edges 0 (codeP tt (((done ++ [p]).getD q dfltPat).content)) == some s)
        = (List.range done.length).filter
          (fun q => walk tb.edges 0 (codeP tt ((done.getD q dfltPat).content)) == some s) :=
      List.filter_congr hcondOld
    rw [hfiltOld]
    have hF2lt : F.2 < F.1.out.length := by
      rw [hE.inv2.outLen]
      exact hE.cur2lt
    by_cases hsF : s = F.2
    · subst hsF
      unfold appAt
      rw [getD_set_eq _ _ _ _ hF2lt]
      have hcondNew : (walk F.1.edges 0 (codeP tt (((done ++ [p]).getD done.length dfltPat).content))
          == some F.2) = true := by
        rw [hgetDnew, hwalkP]
        simp
      have hfiltNew : List.filter
          (fun q => walk F.1.edges 0 (codeP tt (((done ++ [p]).getD q dfltPat).content)) == some F.2)
          [done.length] = [done.length] := by
        simp only [List.filter_singleton, hgetDnew]
        rw [hwalkP]
        simp
      rw [hfiltNew]
      congr 1
      rcases Nat.lt_or_ge F.2 tb.stateCount with h1 | h1
      · rw [hE.outOld F.2 h1]
        exact houtC F.2 h1
      · rw [hE.outNew F.2 h1]
        symm
        rw [List.filter_eq_nil_iff]
        intro q hq
        rw [List.mem_range] at hq
        have hq2 : done.getD q dfltPat ∈ done := getD_mem_of_lt done q dfltPat hq
        have hiso := hdomC _ hq2 _ (List.prefix_refl _)
        rw [Option.isSome_iff_exists] at hiso
        obtain ⟨t, ht⟩ := hiso
        have htlt : t < tb.stateCount := walk_lt hI hI.scpos ht
        rw [ht]
        simp
        omega
    · unfold appAt
      rw [getD_set_ne _ _ _ (fun h => hsF h.symm)]
      have hcondNew : (walk F.1.edges 0 (codeP tt (((done ++ [p]).getD done.length dfltPat).content))
          == some s) = false := by
        rw [hgetDnew, hwalkP]
        simp
        exact fun h => hsF h.symm
      have hbeq : (some F.2 == some s) = false := by
        simp only [beq_eq_false_iff_ne, ne_eq, Option.some.injEq]
        exact fun h => hsF h.symm
      have hfiltNew : List.filter
          (fun q => walk F.1.edges 0 (codeP tt (((done ++ [p]).getD q dfltPat).content)) == some s)
          [done.length] = [] := by
        simp only [List.filter_singleton, hgetDnew]
        rw [hwalkP, hbeq]
        rfl
      rw [hfiltNew, List.append_nil]
      rcases Nat.lt_or_ge s tb.stateCount with h1 | h1
      · rw [hE.outOld s h1]
        exact houtC s h1
      · rw [hE.outNew s h1]
        symm
        rw [List.filter_eq_nil_iff]
        intro q hq
        rw [List.mem_range] at hq
        have hq2 : done.getD q dfltPat ∈ done := getD_mem_of_lt done q dfltPat hq
        have hiso := hdomC _ hq2 _ (List.prefix_refl _)
        rw [Option.isSome_iff_exists] at hiso
        obtain ⟨t, ht⟩ := hiso
        have htlt : t < tb.stateCount := walk_lt hI hI.scpos ht
        rw [ht]
        simp
        omega

theorem buildTrieGo_OK (tt : Nat → Nat) :
    ∀ (todo done : List Pattern) (tb : TrieB), TrieOK tt done tb →
      TrieOK tt (done ++ todo) (buildTrieGo tt todo done.length tb) := by
  intro todo
  induction todo with
  | nil =>
    intro done tb h
    simpa using h
  | cons p ps ih =>
    intro done tb h
    show TrieOK tt (done ++ p :: ps)
      (buildTrieGo tt ps (done.length + 1) (insertPat tt tb done.length p.content))
    have h2 := insertPat_OK tt h p
    have h3 := ih (done ++ [p]) _ h2
    rw [List.length_append, List.length_singleton] at h3
    rw [List.append_assoc] at h3
    simpa using h3

theorem buildTrie_OK (tt : Nat → Nat) (pats : List Pattern) :
    TrieOK tt pats (buildTrie tt pats) := by
  have hbase : TrieOK tt [] ⟨[], 1, [[]]⟩ := by
    constructor
    · constructor
      · exact Nat.le_refl 1
      · simp
      · intro e he; simp at he
      · intro e he; simp at he
      · rfl
    · intro cs t h
      cases cs with
      | nil => exact Or.inl rfl
      | cons c rest =>
        simp only [walk, trieGet, List.find?_nil] at h
        exact Option.noConfusion h
    · intro p hp; simp at hp
    · intro s hs
      have hs1 : s < 1 := hs
      have hs0 : s = 0 := by omega
      subst hs0
      simp
  have := buildTrieGo_OK tt pats [] ⟨[], 1, [[]]⟩ hbase
  simpa using this

/-!  ## Longest walkable suffix -/

/-- The longest suffix of `w` that the trie can walk from the root. -/
def lsuf (es : List (Nat × Nat × Nat)) : List Nat → List Nat
  | [] => []
  | c :: w => if (walk es 0 (c :: w)).isSome then c :: w else lsuf es w

theorem lsuf_suffix (es : List (Nat × Nat × Nat)) : ∀ w, lsuf es w <:+ w := by
  intro w
  induction w with
  | nil => exact List.suffix_refl []
  | cons c w ih =>
    show (if (walk es 0 (c :: w)).isSome then c :: w else lsuf es w) <:+ c :: w
    split
    · exact List.suffix_refl _
    · exact ih.trans (List.suffix_cons c w)

theorem lsuf_length_le (es : List (Nat × Nat × Nat)) (w : List Nat) :
    (lsuf es w).length ≤ w.length :=
  (lsuf_suffix es w).length_le

theorem lsuf_isSome (es : List (Nat × Nat × Nat)) : ∀ w, (walk es 0 (lsuf es w)).isSome := by
  intro w
  induction w with
  | nil => rfl
  | cons c w ih =>
    show (walk es 0 (if (walk es 0 (c :: w)).isSome then c :: w else lsuf es w)).isSome
    split
    · assumption
    · exact ih

theorem lsuf_longest (es : List (Nat × Nat × Nat)) : ∀ w v, v <:+ w →
    (walk es 0 v).isSome → v <:+ lsuf es w := by
  intro w
  induction w with
  | nil =>
    intro v hv _
    rw [List.suffix_nil] at hv
    subst hv
    exact List.suffix_refl []
  | cons c w ih =>
    intro v hv hsome
    show v <:+ (if (walk es 0 (c :: w)).isSome then c :: w else lsuf es w)
    split
    · exact hv
    · next hnot =>
      rcases List.suffix_cons_iff.1 hv with h1 | h1
      · exfalso
        rw [h1] at hsome
        exact hnot hsome
      · exact ih v h1 hsome

theorem lsuf_of_isSome (es : List (Nat × Nat × Nat)) {w : List Nat}
    (h : (walk es 0 w).isSome) : lsuf es w = w := by
  cases w with
  | nil => rfl
  | cons c v =>
    show (if (walk es 0 (c :: v)).isSome then c :: v else lsuf es v) = c :: v
    rw [if_pos h]

/-- The walkable code lists are prefix-closed. -/
theorem walk_isSome_of_append {es : List (Nat × Nat × Nat)} {u v : List Nat}
    (h : (walk es 0 (u ++ v)).isSome) : (walk es 0 u).isSome := by
  rw [walk_append] at h
  cases hu : walk es 0 u with
  | none => rw [hu] at h; simp at h
  | some t => rfl

theorem suffix_append_right {α : Type} {l1 l2 : List α} (t : List α)
    (h : l1 <:+ l2) : l1 ++ t <:+ l2 ++ t := by
  obtain ⟨pre, hpre⟩ := h
  exact ⟨pre, by rw [← hpre, List.append_assoc]⟩

/-- The Aho-Corasick step identity: the longest walkable suffix after one
more symbol only depends on the longest walkable suffix so far. -/
theorem lsuf_step (es : List (Nat × Nat × Nat)) (w : List Nat) (c : Nat) :
    lsuf es (w ++ [c]) = lsuf es (lsuf es w ++ [c]) := by
  have hsub1 : lsuf es (w ++ [c]) <:+ lsuf es (lsuf es w ++ [c]) := by
    cases hv : lsuf es (w ++ [c]) with
    | nil => exact List.nil_suffix
    | cons x xs =>
      have hvs : lsuf es (w ++ [c]) <:+ w ++ [c] := lsuf_suffix es (w ++ [c])
      have hvsome : (walk es 0 (lsuf es (w ++ [c]))).isSome := lsuf_isSome es (w ++ [c])
      rw [hv] at hvs hvsome
      rcases List.suffix_concat_iff.1 hvs with h1 | ⟨v0, hv0, hsfx⟩
      · exact absurd h1 (by simp)
      · have hv0some : (walk es 0 v0).isSome := by
          rw [hv0] at hvsome
          exact walk_isSome_of_append hvsome
        have hv0L : v0 <:+ lsuf es w := lsuf_longest es w v0 hsfx hv0some
        have : v0 ++ [c] <:+ lsuf es w ++ [c] := suffix_append_right [c] hv0L
        rw [← hv0] at this
        exact lsuf_longest es (lsuf es w ++ [c]) _ this hvsome
  have hsub2 : lsuf es (lsuf es w ++ [c]) <:+ lsuf es (w ++ [c]) := by
    have h1 : lsuf es (lsuf es w ++ [c]) <:+ lsuf es w ++ [c] := lsuf_suffix es _
    have h2 : lsuf es w ++ [c] <:+ w ++ [c] := suffix_append_right [c] (lsuf_suffix es w)
    exact lsuf_longest es (w ++ [c]) _ (h1.trans h2) (lsuf_isSome es _)
  have hlen : (lsuf es (w ++ [c])).length = (lsuf es (lsuf es w ++ [c])).length := by
    have := hsub1.length_le
    have := hsub2.length_le
    omega
  exact hsub1.eq_of_length hlen

/-- A proper suffix is a suffix of the tail. -/
theorem suffix_tail_of_ne {α : Type} {v w : List α} (hv : v <:+ w) (hne : v ≠ w) :
    v <:+ w.tail := by
  have h1 : v.length ≤ w.length := hv.length_le
  have h2 : v.length ≠ w.length := fun h => hne (hv.eq_of_length h)
  have h3 : w.tail <:+ w := List.tail_suffix w
  apply List.suffix_of_suffix_length_le hv h3
  cases w with
  | nil => simp at h1; simp [h1]
  | cons x xs =>
    simp only [List.length_cons, List.tail_cons] at h1 h2 ⊢
    omega

/-- Pattern indices whose code list terminates at state `s` (the trie's own
outputs, before failure merging), in index order. -/
def ownAt (tt : Nat → Nat) (pats : List Pattern) (es : List (Nat × Nat × Nat)) (s : Nat) :
    List Nat :=
  (List.range pats.length).filter
    (fun q => walk es 0 (codeP tt ((pats.getD q dfltPat).content)) == some s)

/-- Fuelled form of the canonical failure-merged output list (`fu` bounds
the length of the walkable-suffix chain). -/
def outFuF (tt : Nat → Nat) (pats : List Pattern) (es : List (Nat × Nat × Nat)) :
    Nat → List Nat → List Nat
  | 0, u => ownAt tt pats es ((walk es 0 u).getD 0)
  | _ + 1, [] => ownAt tt pats es 0
  | fu + 1, c :: w =>
    ownAt tt pats es ((walk es 0 (c :: w)).getD 0) ++
      (if w = [] then [] else outFuF tt pats es fu (lsuf es w))

/-- The canonical failure-merged output list of the state reached by the
walkable code list `u`: its own terminals, then (for states of depth at
least 2; depth-1 states are enqueued without a merge in the source) the
merged outputs of its longest proper walkable suffix. -/
def outFu (tt : Nat → Nat) (pats : List Pattern) (es : List (Nat × Nat × Nat))
    (u : List Nat) : List Nat :=
  outFuF tt pats es u.length u

theorem outFuF_fuel (tt : Nat → Nat) (pats : List Pattern) (es : List (Nat × Nat × Nat)) :
    ∀ n u fu, u.length ≤ n → u.length ≤ fu →
      outFuF tt pats es fu u = outFu tt pats es u := by
  intro n
  induction n with
  | zero =>
    intro u fu hn hfu
    have hu : u = [] := by
      cases u with
      | nil => rfl
      | cons c w => simp at hn
    subst hu
    cases fu with
    | zero => rfl
    | succ fu2 => rfl
  | succ m ih =>
    intro u fu hn hfu
    cases u with
    | nil =>
      cases fu with
      | zero => rfl
      | succ fu2 => rfl
    | cons c w =>
      cases fu with
      | zero => simp at hfu
      | succ fu2 =>
        show ownAt tt pats es ((walk es 0 (c :: w)).getD 0) ++
            (if w = [] then [] else outFuF tt pats es fu2 (lsuf es w)) = outFu tt pats es (c :: w)
        have hR : outFu tt pats es (c :: w) = ownAt tt pats es ((walk es 0 (c :: w)).getD 0) ++
            (if w = [] then [] else outFuF tt pats es w.length (lsuf es w)) := rfl
        rw [hR]
        by_cases hw : w = []
        · rw [if_pos hw, if_pos hw]
        · rw [if_neg hw, if_neg hw]
          have hls := lsuf_length_le es w
          simp only [List.length_cons] at hn hfu
          rw [ih (lsuf es w) fu2 (by omega) (by omega),
            ih (lsuf es w) w.length (by omega) (by omega)]

theorem ownAt_mem (tt : Nat → Nat) (pats : List Pattern) (es : List (Nat × Nat × Nat))
    (s k : Nat) :
    k ∈ ownAt tt pats es s ↔
      k < pats.length ∧ walk es 0 (codeP tt ((pats.getD k dfltPat).content)) = some s := by
  unfold ownAt
  rw [List.mem_filter, List.mem_range]
  simp

theorem ownAt_nodup (tt : Nat → Nat) (pats : List Pattern) (es : List (Nat × Nat × Nat))
    (s : Nat) : (ownAt tt pats es s).Nodup :=
  (List.nodup_range _).filter _

/-- Membership in a state's own-output list means the pattern's code list is
the state's path. -/
theorem ownAt_mem_iff {tb : TrieB} (hI : TInv tb) (tt : Nat → Nat) (pats : List Pattern)
    {u : List Nat} {s : Nat} (hu : walk tb.edges 0 u = some s) (k : Nat) :
    k ∈ ownAt tt pats tb.edges s ↔
      k < pats.length ∧ codeP tt ((pats.getD k dfltPat).content) = u := by
  rw [ownAt_mem]
  constructor
  · rintro ⟨h1, h2⟩
    refine ⟨h1, ?_⟩
    rw [walk_unique hI h2, walk_unique hI hu]
  · rintro ⟨h1, h2⟩
    exact ⟨h1, h2 ▸ hu⟩

theorem outFu_nil_eq (tt : Nat → Nat) (pats : List Pattern) (es : List (Nat × Nat × Nat)) :
    outFu tt pats es [] = ownAt tt pats es 0 := rfl

theorem outFu_cons_eq (tt : Nat → Nat) (pats : List Pattern) (es : List (Nat × Nat × Nat))
    (c : Nat) (w : List Nat) :
    outFu tt pats es (c :: w) =
      ownAt tt pats es ((walk es 0 (c :: w)).getD 0) ++
        (if w = [] then [] else outFu tt pats es (lsuf es w)) := by
  show ownAt tt pats es ((walk es 0 (c :: w)).getD 0) ++
      (if w = [] then [] else outFuF tt pats es w.length (lsuf es w)) = _
  by_cases hw : w = []
  · rw [if_pos hw, if_pos hw]
  · rw [if_neg hw, if_neg hw,
      outFuF_fuel tt pats es w.length (lsuf es w) w.length (lsuf_length_le es w)
        (lsuf_length_le es w)]

theorem outFu_sound_aux {tb : TrieB} (hI : TInv tb) (tt : Nat → Nat) (pats : List Pattern) :
    ∀ n u, u.length ≤ n → (walk tb.edges 0 u).isSome →
      ∀ k, k ∈ outFu tt pats tb.edges u →
        k < pats.length ∧ codeP tt ((pats.getD k dfltPat).content) <:+ u := by
  intro n
  induction n with
  | zero =>
    intro u hlen hsome k hk
    have hu : u = [] := by
      cases u with
      | nil => rfl
      | cons c w => simp at hlen
    subst hu
    rw [outFu_nil_eq] at hk
    rw [ownAt_mem_iff hI tt pats (show walk tb.edges 0 [] = some 0 from rfl) k] at hk
    exact ⟨hk.1, hk.2 ▸ List.suffix_refl _⟩
  | succ m ih =>
    intro u hlen hsome k hk
    cases u with
    | nil =>
      rw [outFu_nil_eq] at hk
      rw [ownAt_mem_iff hI tt pats (show walk tb.edges 0 [] = some 0 from rfl) k] at hk
      exact ⟨hk.1, hk.2 ▸ List.suffix_refl _⟩
    | cons c w =>
      rw [outFu_cons_eq] at hk
      rcases List.mem_append.1 hk with h1 | h1
      · rw [Option.isSome_iff_exists] at hsome
        obtain ⟨s, hs⟩ := hsome
        rw [hs] at h1
        simp only [Option.getD_some] at h1
        rw [ownAt_mem_iff hI tt pats hs k] at h1
        exact ⟨h1.1, h1.2 ▸ List.suffix_refl _⟩
      · by_cases hw : w = []
        · rw [if_pos hw] at h1
          simp at h1
        · rw [if_neg hw] at h1
          have hlen2 : (lsuf tb.edges w).length ≤ m := by
            have := lsuf_length_le tb.edges w
            simp only [List.length_cons] at hlen
            omega
          obtain ⟨hk1, hk2⟩ := ih (lsuf tb.edges w) hlen2 (lsuf_isSome tb.edges w) k h1
          refine ⟨hk1, ?_⟩
          exact (hk2.trans (lsuf_suffix tb.edges w)).trans (List.suffix_cons c w)

theorem outFu_sound {tb : TrieB} (hI : TInv tb) (tt : Nat → Nat) (pats : List Pattern)
    {u : List Nat} (hsome : (walk tb.edges 0 u).isSome) {k : Nat}
    (hk : k ∈ outFu tt pats tb.edges u) :
    k < pats.length ∧ codeP tt ((pats.getD k dfltPat).content) <:+ u :=
  outFu_sound_aux hI tt pats u.length u (Nat.le_refl _) hsome k hk

theorem outFu_complete_aux {tb : TrieB} (hI : TInv tb) (tt : Nat → Nat) (pats : List Pattern) :
    ∀ n u, u.length ≤ n → (walk tb.edges 0 u).isSome →
      ∀ k, k < pats.length →
        codeP tt ((pats.getD k dfltPat).content) ≠ [] →
        codeP tt ((pats.getD k dfltPat).content) <:+ u →
        (walk tb.edges 0 (codeP tt ((pats.getD k dfltPat).content))).isSome →
        k ∈ outFu tt pats tb.edges u := by
  intro n
  induction n with
  | zero =>
    intro u hlen _ k _ hne hsfx _
    have hu : u = [] := by
      cases u with
      | nil => rfl
      | cons c w => simp at hlen
    subst hu
    rw [List.suffix_nil] at hsfx
    exact absurd hsfx hne
  | succ m ih =>
    intro u hlen hsome k hklt hne hsfx hksome
    cases u with
    | nil =>
      rw [List.suffix_nil] at hsfx
      exact absurd hsfx hne
    | cons c w =>
      rw [outFu_cons_eq]
      by_cases heq : codeP tt ((pats.getD k dfltPat).content) = c :: w
      · apply List.mem_append_left
        rw [Option.isSome_iff_exists] at hsome
        obtain ⟨s, hs⟩ := hsome
        rw [hs]
        simp only [Option.getD_some]
        rw [ownAt_mem_iff hI tt pats hs k]
        exact ⟨hklt, heq⟩
      · apply List.mem_append_right
        have hsfx2 : codeP tt ((pats.getD k dfltPat).content) <:+ w := by
          have := suffix_tail_of_ne hsfx heq
          simpa using this
        have hw : w ≠ [] := by
          intro hw
          subst hw
          rw [List.suffix_nil] at hsfx2
          exact hne hsfx2
        rw [if_neg hw]
        have hsfx3 : codeP tt ((pats.getD k dfltPat).content) <:+ lsuf tb.edges w :=
          lsuf_longest tb.edges w _ hsfx2 hksome
        have hlen2 : (lsuf tb.edges w).length ≤ m := by
          have := lsuf_length_le tb.edges w
          simp only [List.length_cons] at hlen
          omega
        exact ih (lsuf tb.edges w) hlen2 (lsuf_isSome tb.edges w) k hklt hne hsfx3 hksome

theorem outFu_complete {tb : TrieB} (hI : TInv tb) (tt : Nat → Nat) (pats : List Pattern)
    {u : List Nat} (hsome : (walk tb.edges 0 u).isSome) {k : Nat}
    (hklt : k < pats.length)
    (hne : codeP tt ((pats.getD k dfltPat).content) ≠ [])
    (hsfx : codeP tt ((pats.getD k dfltPat).content) <:+ u)
    (hksome : (walk tb.edges 0 (codeP tt ((pats.getD k dfltPat).content))).isSome) :
    k ∈ outFu tt pats tb.edges u :=
  outFu_complete_aux hI tt pats u.length u (Nat.le_refl _) hsome k hklt hne hsfx hksome

theorem outFu_nodup_aux {tb : TrieB} (hI : TInv tb) (tt : Nat → Nat) (pats : List Pattern) :
    ∀ n u, u.length ≤ n → (walk tb.edges 0 u).isSome →
      (outFu tt pats tb.edges u).Nodup := by
  intro n
  induction n with
  | zero =>
    intro u hlen _
    have hu : u = [] := by
      cases u with
      | nil => rfl
      | cons c w => simp at hlen
    subst hu
    rw [outFu_nil_eq]
    exact ownAt_nodup tt pats tb.edges 0
  | succ m ih =>
    intro u hlen hsome
    cases u with
    | nil =>
      rw [outFu_nil_eq]
      exact ownAt_nodup tt pats tb.edges 0
    | cons c w =>
      rw [outFu_cons_eq]
      by_cases hw : w = []
      · rw [if_pos hw]
        rw [List.append_nil]
        exact ownAt_nodup tt pats tb.edges _
      · rw [if_neg hw]
        have hlen2 : (lsuf tb.edges w).length ≤ m := by
          have := lsuf_length_le tb.edges w
          simp only [List.length_cons] at hlen
          omega
        apply List.Nodup.append
        · exact ownAt_nodup tt pats tb.edges _
        · exact ih (lsuf tb.edges w) hlen2 (lsuf_isSome tb.edges w)
        · intro k hk1 hk2
          rw [Option.isSome_iff_exists] at hsome
          obtain ⟨s, hs⟩ := hsome
          rw [hs] at hk1
          simp only [Option.getD_some] at hk1
          rw [ownAt_mem_iff hI tt pats hs k] at hk1
          obtain ⟨_, hk2s⟩ := outFu_sound hI tt pats (lsuf_isSome tb.edges w) hk2
          have h1 : (codeP tt ((pats.getD k dfltPat).content)).length ≤ (lsuf tb.edges w).length :=
            hk2s.length_le
          have h2 : (lsuf tb.edges w).length ≤ w.length := lsuf_length_le tb.edges w
          rw [hk1.2] at h1
          simp only [List.length_cons] at h1
          omega

theorem outFu_nodup {tb : TrieB} (hI : TInv tb) (tt : Nat → Nat) (pats : List Pattern)
    {u : List Nat} (hsome : (walk tb.edges 0 u).isSome) :
    (outFu tt pats tb.edges u).Nodup :=
  outFu_nodup_aux hI tt pats u.length u (Nat.le_refl _) hsome

/-!  ## Failure-link BFS -/

/-- The canonical failure state of a state: the state of the longest
walkable proper suffix of its path. -/
def failCanon (es : List (Nat × Nat × Nat)) (s : Nat) : Nat :=
  (walk es 0 (lsuf es (path es s).tail)).getD 0

theorem path_eq_nil_iff {tb : TrieB} (hI : TInv tb) {s : Nat} (hs : s < tb.stateCount) :
    path tb.edges s = [] ↔ s = 0 := by
  constructor
  · intro h
    have hw := (path_spec hI s hs).1
    rw [h] at hw
    simpa [walk] using hw.symm
  · intro h
    subst h
    rfl

/-- The failure-chain walk from the state of a walkable code list `u`
computes the state of the longest walkable suffix of `u ++ [c]`, provided
the failure entries of all states at depth at most `|u|` are canonical. -/
theorem failWalk_math {tb : TrieB} (hI : TInv tb) (c : Nat) :
    ∀ d (failure : List Nat) u fuel, u.length ≤ d → (walk tb.edges 0 u).isSome →
      u.length + 1 ≤ fuel →
      (∀ x, x < tb.stateCount → (path tb.edges x).length ≤ u.length →
        failure.getD x 0 = failCanon tb.edges x) →
      failWalk tb.edges failure c fuel ((walk tb.edges 0 u).getD 0)
        = (walk tb.edges 0 (lsuf tb.edges (u ++ [c]))).getD 0 := by
  intro d
  induction d with
  | zero =>
    intro failure u fuel hd hsome hfuel hfail
    have hu : u = [] := by
      cases u with
      | nil => rfl
      | cons x xs => simp at hd
    subst hu
    cases fuel with
    | zero => simp at hfuel
    | succ fu =>
      show failWalk tb.edges failure c (fu + 1) ((some 0).getD 0) = _
      simp only [Option.getD_some, failWalk]
      cases hg : trieGet tb.edges 0 c with
      | some v =>
        have hwv : walk tb.edges 0 ([] ++ [c]) = some v := by
          simp only [List.nil_append, walk_one]
          exact hg
        have hls : lsuf tb.edges ([] ++ [c]) = [] ++ [c] :=
          lsuf_of_isSome tb.edges (by rw [hwv]; rfl)
        rw [hls, hwv]
        rfl
      | none =>
        simp only [if_pos rfl]
        have hnw : (walk tb.edges 0 ([c])).isSome = false := by
          rw [walk_one, hg]
          rfl
        have hls : lsuf tb.edges ([] ++ [c]) = [] := by
          show (if (walk tb.edges 0 (c :: [])).isSome then c :: [] else lsuf tb.edges []) = []
          rw [hnw]
          simp [lsuf]
        rw [hls]
        rfl
  | succ m ih =>
    intro failure u fuel hd hsome hfuel hfail
    rw [Option.isSome_iff_exists] at hsome
    obtain ⟨g, hg⟩ := hsome
    have hglt : g < tb.stateCount := walk_lt hI hI.scpos hg
    have hupath : u = path tb.edges g := walk_unique hI hg
    cases fuel with
    | zero => simp at hfuel
    | succ fu =>
      rw [hg]
      show failWalk tb.edges failure c (fu + 1) ((some g).getD 0) = _
      simp only [Option.getD_some, failWalk]
      cases hgc : trieGet tb.edges g c with
      | some v =>
        have hwv : walk tb.edges 0 (u ++ [c]) = some v := by
          rw [walk_append, hg]
          simp only [Option.bind]
          rw [walk_one]
          exact hgc
        have hls : lsuf tb.edges (u ++ [c]) = u ++ [c] :=
          lsuf_of_isSome tb.edges (by rw [hwv]; rfl)
        rw [hls, hwv]
        rfl
      | none =>
        have hnotw : (walk tb.edges 0 (u ++ [c])).isSome = false := by
          rw [walk_append, hg]
          simp only [Option.bind]
          rw [walk_one, hgc]
          rfl
        by_cases hg0 : g = 0
        · subst hg0
          rw [if_pos rfl]
          have hu : u = [] := by
            rw [hupath]; rfl
          subst hu
          have hls : lsuf tb.edges ([] ++ [c]) = [] := by
            show (if (walk tb.edges 0 (c :: [])).isSome then c :: [] else lsuf tb.edges []) = []
            rw [show walk tb.edges 0 [c] = trieGet tb.edges 0 c from walk_one tb.edges 0 c]
            rw [show trieGet tb.edges 0 c = none from hgc]
            simp [lsuf]
          rw [hls]
          rfl
        · rw [if_neg hg0]
          have hune : u ≠ [] := by
            intro hu
            rw [hupath] at hu
            exact hg0 ((path_eq_nil_iff hI hglt).1 hu)
          have hfg : failure.getD g 0 = failCanon tb.edges g := by
            apply hfail g hglt
            rw [← hupath]
          set u2 := lsuf tb.edges u.tail with hu2
          have hu2some : (walk tb.edges 0 u2).isSome := lsuf_isSome tb.edges u.tail
          have hfc : failCanon tb.edges g = (walk tb.edges 0 u2).getD 0 := by
            unfold failCanon
            rw [← hupath]
          have hu2len : u2.length ≤ m := by
            have h1 : u2.length ≤ u.tail.length := lsuf_length_le tb.edges u.tail
            have h2 : u.tail.length + 1 = u.length := by
              cases u with
              | nil => exact absurd rfl hune
              | cons x xs => simp
            omega
          have hfuel2 : u2.length + 1 ≤ fu := by
            have h1 : u2.length ≤ u.tail.length := lsuf_length_le tb.edges u.tail
            have h2 : u.tail.length + 1 = u.length := by
              cases u with
              | nil => exact absurd rfl hune
              | cons x2 xs => simp
            omega
          have hIH := ih failure u2 fu hu2len hu2some hfuel2 ?hf2
          case hf2 =>
            intro x hx hdx
            apply hfail x hx
            have h2 : u.tail.length + 1 = u.length := by
              cases u with
              | nil => exact absurd rfl hune
              | cons x2 xs => simp
            have h1 : u2.length ≤ u.tail.length := lsuf_length_le tb.edges u.tail
            omega
          rw [hfg, hfc, hIH]
          have hkey : lsuf tb.edges (u ++ [c]) = lsuf tb.edges (u2 ++ [c]) := by
            have hstep1 : lsuf tb.edges (u ++ [c]) = lsuf tb.edges (u.tail ++ [c]) := by
              cases u with
              | nil => exact absurd rfl hune
              | cons x xs =>
                show (if (walk tb.edges 0 (x :: (xs ++ [c]))).isSome
                    then x :: (xs ++ [c]) else lsuf tb.edges (xs ++ [c])) = _
                have : (walk tb.edges 0 (x :: xs ++ [c])).isSome = false := hnotw
                rw [show (x :: (xs ++ [c])) = (x :: xs) ++ [c] from rfl]
                rw [this]
                simp
            rw [hstep1, hu2]
            exact lsuf_step tb.edges u.tail c
          rw [hkey]

/-- Source state of a state's unique in-edge (0 for the root). -/
def parSrc (es : List (Nat × Nat × Nat)) (t : Nat) : Nat :=
  ((parentE es t).getD (0, 0, 0)).1

theorem parentE_exists {tb : TrieB} (hI : TInv tb) {t : Nat} (h1 : 1 ≤ t)
    (h2 : t < tb.stateCount) : ∃ e ∈ tb.edges, parentE tb.edges t = some e ∧ e.2.2 = t := by
  have hmem : t ∈ tb.edges.map (fun e => e.2.2) := by
    rw [hI.targets, List.mem_range']
    exact ⟨t - 1, by omega, by omega⟩
  obtain ⟨e, he, htgt⟩ := List.mem_map.1 hmem
  exact ⟨e, he, htgt ▸ parentE_of_mem hI he, htgt⟩

theorem depth_child {tb : TrieB} (hI : TInv tb) {e : Nat × Nat × Nat}
    (he : e ∈ tb.edges) :
    (path tb.edges e.2.2).length = (path tb.edges e.1).length + 1 := by
  rw [path_edge hI he]
  simp

/-- The BFS loop invariant: `P` is the list of already-popped states,
`queue` the pending ones.  A state is enqueued exactly when its parent is
the root or already popped; the combined list is duplicate-free and sorted
by depth, queue depths differ by at most one; the failure and output
entries of enqueued states are canonical, others untouched. -/
structure BfsInv (tt : Nat → Nat) (pats : List Pattern) (tb : TrieB)
    (P queue failure : List Nat) (out : List (List Nat)) : Prop where
  nodupPQ : (P ++ queue).Nodup
  memPQ : ∀ t, t ∈ P ++ queue ↔
    (1 ≤ t ∧ t < tb.stateCount ∧ (parSrc tb.edges t = 0 ∨ parSrc tb.edges t ∈ P))
  sorted : (P ++ queue).Pairwise
    (fun a b => (path tb.edges a).length ≤ (path tb.edges b).length)
  spread : ∀ x ∈ queue, ∀ y ∈ queue,
    (path tb.edges x).length ≤ (path tb.edges y).length + 1
  failLen : failure.length = tb.stateCount
  outLen2 : out.length = tb.stateCount
  failRoot : failure.getD 0 0 = 0
  failW : ∀ t ∈ P ++ queue, failure.getD t 0 = failCanon tb.edges t
  outW : ∀ t ∈ P ++ queue, out.getD t [] = outFu tt pats tb.edges (path tb.edges t)
  outU : ∀ t, t < tb.stateCount → t ∉ P ++ queue → out.getD t [] = tb.out.getD t []

/-- When `r` is at the head of the queue, every nonroot state at depth at
most `depth r` has been enqueued already. -/
theorem shallow_mem {tt : Nat → Nat} {pats : List Pattern} {tb : TrieB}
    {P rest failure : List Nat} {out : List (List Nat)} {r : Nat}
    (hI : TInv tb) (inv : BfsInv tt pats tb P (r :: rest) failure out) :
    ∀ d x, 1 ≤ x → x < tb.stateCount → (path tb.edges x).length ≤ d →
      (path tb.edges x).length ≤ (path tb.edges r).length → x ∈ P ++ (r :: rest) := by
  intro d
  induction d with
  | zero =>
    intro x h1 h2 hd _
    exfalso
    have hne : path tb.edges x ≠ [] := by
      intro h
      have := (path_eq_nil_iff hI h2).1 h
      omega
    cases hp : path tb.edges x with
    | nil => exact hne hp
    | cons a b => rw [hp] at hd; simp at hd
  | succ m ih =>
    intro x h1 h2 hd hdr
    obtain ⟨e, he, hpe, htgt⟩ := parentE_exists hI h1 h2
    have hdepth : (path tb.edges x).length = (path tb.edges e.1).length + 1 := by
      rw [← htgt]
      exact depth_child hI he
    have hsrc : parSrc tb.edges x = e.1 := by
      unfold parSrc
      rw [hpe]
      rfl
    by_cases h0 : e.1 = 0
    · rw [(inv.memPQ x)]
      exact ⟨h1, h2, Or.inl (hsrc ▸ h0)⟩
    · have hp1 : 1 ≤ e.1 := by omega
      have hp2 : e.1 < tb.stateCount := TInv_src_lt hI he
      have hpd : (path tb.edges e.1).length ≤ m := by omega
      have hpdr : (path tb.edges e.1).length ≤ (path tb.edges r).length := by omega
      have hpmem : e.1 ∈ P ++ (r :: rest) := ih e.1 hp1 hp2 hpd hpdr
      have hpP : e.1 ∈ P := by
        rcases List.mem_append.1 hpmem with hh | hh
        · exact hh
        · exfalso
          rcases List.mem_cons.1 hh with hh2 | hh2
          · subst hh2
            omega
          · have hpair := inv.sorted
            have : (path tb.edges r).length ≤ (path tb.edges e.1).length := by
              have hrel := List.pairwise_append.1 hpair
              have h3 := hrel.2.1
              rw [List.pairwise_cons] at h3
              exact h3.1 e.1 hh2
            omega
      rw [(inv.memPQ x)]
      exact ⟨h1, h2, Or.inr (hsrc ▸ hpP)⟩

theorem failCanon_root (es : List (Nat × Nat × Nat)) : failCanon es 0 = 0 := rfl

theorem walk_getD_roundtrip {es : List (Nat × Nat × Nat)} {w : List Nat}
    (h : (walk es 0 w).isSome) : walk es 0 w = some ((walk es 0 w).getD 0) := by
  rw [Option.isSome_iff_exists] at h
  obtain ⟨t, ht⟩ := h
  rw [ht]
  rfl

/-- Correctness of the failure computation for one child edge `(r, c, t)`,
assuming canonical failure entries at `r` and at every strictly shallower
state. -/
theorem bfsChild {tb : TrieB} (hI : TInv tb)
    {r t c : Nat} (hr1 : 1 ≤ r) (hrn : r < tb.stateCount)
    (he : (r, c, t) ∈ tb.edges)
    {f1 : List Nat}
    (hfr : f1.getD r 0 = failCanon tb.edges r)
    (hfsh : ∀ x, x < tb.stateCount → (path tb.edges x).length < (path tb.edges r).length →
      f1.getD x 0 = failCanon tb.edges x) :
    failWalk tb.edges f1 c tb.stateCount (f1.getD r 0) = failCanon tb.edges t
    ∧ path tb.edges t = path tb.edges r ++ [c]
    ∧ path tb.edges (failCanon tb.edges t) = lsuf tb.edges (path tb.edges t).tail
    ∧ failCanon tb.edges t < tb.stateCount
    ∧ (path tb.edges (failCanon tb.edges t)).length < (path tb.edges t).length := by
  have hpt : path tb.edges t = path tb.edges r ++ [c] := path_edge hI he
  have hrne : path tb.edges r ≠ [] := by
    intro h
    have := (path_eq_nil_iff hI hrn).1 h
    omega
  have hdr : (path tb.edges r).length ≤ r := (path_spec hI r hrn).2
  set u2 := lsuf tb.edges (path tb.edges r).tail with hu2def
  have hu2some : (walk tb.edges 0 u2).isSome := lsuf_isSome tb.edges _
  have hu2len : u2.length + 1 ≤ (path tb.edges r).length := by
    have h1 : u2.length ≤ (path tb.edges r).tail.length := lsuf_length_le tb.edges _
    have h2 : (path tb.edges r).tail.length + 1 = (path tb.edges r).length := by
      cases hp : path tb.edges r with
      | nil => exact absurd hp hrne
      | cons a b => simp
    omega
  have hfrval : f1.getD r 0 = (walk tb.edges 0 u2).getD 0 := hfr
  have hmath := failWalk_math hI c u2.length f1 u2 tb.stateCount (Nat.le_refl _)
    hu2some (by omega) ?hsh
  case hsh =>
    intro x hx hdx
    exact hfsh x hx (by omega)
  have htailt : (path tb.edges t).tail = (path tb.edges r).tail ++ [c] := by
    rw [hpt]
    cases hp : path tb.edges r with
    | nil => exact absurd hp hrne
    | cons a b => simp
  have hcanon : failCanon tb.edges t = (walk tb.edges 0 (lsuf tb.edges (u2 ++ [c]))).getD 0 := by
    unfold failCanon
    rw [htailt, hu2def]
    rw [← lsuf_step tb.edges (path tb.edges r).tail c]
  have hmain : failWalk tb.edges f1 c tb.stateCount (f1.getD r 0) = failCanon tb.edges t := by
    rw [hfrval, hmath, hcanon]
  have hfcsome : (walk tb.edges 0 (lsuf tb.edges (path tb.edges t).tail)).isSome :=
    lsuf_isSome tb.edges _
  have hfcwalk : walk tb.edges 0 (lsuf tb.edges (path tb.edges t).tail)
      = some (failCanon tb.edges t) := walk_getD_roundtrip hfcsome
  have hpfc : path tb.edges (failCanon tb.edges t) = lsuf tb.edges (path tb.edges t).tail :=
    (walk_unique hI hfcwalk).symm
  have hfclt : failCanon tb.edges t < tb.stateCount := walk_lt hI hI.scpos hfcwalk
  refine ⟨hmain, hpt, hpfc, hfclt, ?_⟩
  rw [hpfc]
  have h1 : (lsuf tb.edges (path tb.edges t).tail).length ≤ (path tb.edges t).tail.length :=
    lsuf_length_le tb.edges _
  have h2 : (path tb.edges t).tail.length + 1 = (path tb.edges t).length := by
    rw [htailt, hpt]
    simp
    have h3 : 1 ≤ (path tb.edges r).length := by
      cases hp : path tb.edges r with
      | nil => exact absurd hp hrne
      | cons a b => simp
    omega
  omega

theorem out_trie_ownAt {tt : Nat → Nat} {pats : List Pattern} {tb : TrieB}
    (hOK : TrieOK tt pats tb) {s : Nat} (hs : s < tb.stateCount) :
    tb.out.getD s [] = ownAt tt pats tb.edges s :=
  hOK.outC s hs

/-- The merged output list of a child state is the canonical one. -/
theorem bfsChildOut {tb : TrieB} (hI : TInv tb) (tt : Nat → Nat) (pats : List Pattern)
    {r t c : Nat} (hr1 : 1 ≤ r) (hrn : r < tb.stateCount)
    (he : (r, c, t) ∈ tb.edges) :
    ownAt tt pats tb.edges t ++ outFu tt pats tb.edges (path tb.edges (failCanon tb.edges t))
      = outFu tt pats tb.edges (path tb.edges t) := by
  have hpt : path tb.edges t = path tb.edges r ++ [c] := path_edge hI he
  have hrne : path tb.edges r ≠ [] := by
    intro h
    have := (path_eq_nil_iff hI hrn).1 h
    omega
  have htn : t < tb.stateCount := (TInv_target_lt hI he).2
  have hwt : walk tb.edges 0 (path tb.edges t) = some t := (path_spec hI t htn).1
  have hfcsome : (walk tb.edges 0 (lsuf tb.edges (path tb.edges t).tail)).isSome :=
    lsuf_isSome tb.edges _
  have hfcwalk : walk tb.edges 0 (lsuf tb.edges (path tb.edges t).tail)
      = some (failCanon tb.edges t) := walk_getD_roundtrip hfcsome
  have hpfc : path tb.edges (failCanon tb.edges t) = lsuf tb.edges (path tb.edges t).tail :=
    (walk_unique hI hfcwalk).symm
  cases hp : path tb.edges r with
  | nil => exact absurd hp hrne
  | cons d w0 =>
    have hpt2 : path tb.edges t = d :: (w0 ++ [c]) := by
      rw [hpt, hp]
      rfl
    rw [hpt2]
    rw [outFu_cons_eq]
    have hwne : w0 ++ [c] ≠ [] := by simp
    rw [if_neg hwne]
    have hstate : (walk tb.edges 0 (d :: (w0 ++ [c]))).getD 0 = t := by
      rw [← hpt2, hwt]
      rfl
    rw [hstate]
    congr 1
    rw [hpfc, hpt2]
    rfl

/-- Net effect of the child-processing fold of one BFS pop. -/
theorem bfsFold_net (tt : Nat → Nat) (pats : List Pattern) {tb : TrieB}
    (hI : TInv tb) (hOK : TrieOK tt pats tb)
    {P rest failure0 : List Nat} {out0 : List (List Nat)} {r : Nat}
    (inv : BfsInv tt pats tb P (r :: rest) failure0 out0) :
    ∀ (ces2 done2 : List (Nat × Nat × Nat)) (q1 f1 : List Nat) (o1 : List (List Nat)),
      (∀ e ∈ done2 ++ ces2, e ∈ tb.edges ∧ e.1 = r) →
      (((done2 ++ ces2).map (fun e => e.2.2)).Nodup) →
      (∀ x ∈ (done2 ++ ces2).map (fun e => e.2.2), x ∉ P ++ (r :: rest)) →
      f1.length = tb.stateCount →
      o1.length = tb.stateCount →
      (∀ x, x ∉ done2.map (fun e => e.2.2) → f1.getD x 0 = failure0.getD x 0) →
      (∀ x ∈ done2.map (fun e => e.2.2), f1.getD x 0 = failCanon tb.edges x) →
      (∀ x, x ∉ done2.map (fun e => e.2.2) → o1.getD x [] = out0.getD x []) →
      (∀ x ∈ done2.map (fun e => e.2.2),
        o1.getD x [] = outFu tt pats tb.edges (path tb.edges x)) →
      (ces2.foldl (bfsStep tb.edges tb.stateCount) (q1, f1, o1)).1
          = q1 ++ ces2.map (fun e => e.2.2)
      ∧ (ces2.foldl (bfsStep tb.edges tb.stateCount) (q1, f1, o1)).2.1.length = tb.stateCount
      ∧ (ces2.foldl (bfsStep tb.edges tb.stateCount) (q1, f1, o1)).2.2.length = tb.stateCount
      ∧ (∀ x, x ∉ (done2 ++ ces2).map (fun e => e.2.2) →
          (ces2.foldl (bfsStep tb.edges tb.stateCount) (q1, f1, o1)).2.1.getD x 0
            = failure0.getD x 0)
      ∧ (∀ x ∈ (done2 ++ ces2).map (fun e => e.2.2),
          (ces2.foldl (bfsStep tb.edges tb.stateCount) (q1, f1, o1)).2.1.getD x 0
            = failCanon tb.edges x)
      ∧ (∀ x, x ∉ (done2 ++ ces2).map (fun e => e.2.2) →
          (ces2.foldl (bfsStep tb.edges tb.stateCount) (q1, f1, o1)).2.2.getD x []
            = out0.getD x [])
      ∧ (∀ x ∈ (done2 ++ ces2).map (fun e => e.2.2),
          (ces2.foldl (bfsStep tb.edges tb.stateCount) (q1, f1, o1)).2.2.getD x []
            = outFu tt pats tb.edges (path tb.edges x)) := by
  intro ces2
  induction ces2 with
  | nil =>
    intro done2 q1 f1 o1 hall hnd hfresh hflen holen hfoff hfon hooff hoon
    simp only [List.foldl_nil, List.map_nil, List.append_nil]
    exact ⟨by simp, hflen, holen, hfoff, hfon, hooff, hoon⟩
  | cons e ces2 ih =>
    intro done2 q1 f1 o1 hall hnd hfresh hflen holen hfoff hfon hooff hoon
    have hrP : r ∈ P ++ (r :: rest) := by
      apply List.mem_append_right
      exact List.mem_cons_self r rest
    obtain ⟨hr1, hrn, _⟩ := (inv.memPQ r).1 hrP
    have hee : e ∈ tb.edges ∧ e.1 = r := by
      apply hall
      apply List.mem_append_right
      exact List.mem_cons_self e ces2
    have hemem : (r, e.2.1, e.2.2) ∈ tb.edges := by
      have h2 : e = (r, e.2.1, e.2.2) := by
        obtain ⟨e1, e2, e3⟩ := e
        simp only at hee ⊢
        rw [hee.2]
      rw [← h2]
      exact hee.1
    set t := e.2.2 with htdef
    set c := e.2.1 with hcdef
    have htedge : t ∈ (done2 ++ e :: ces2).map (fun e => e.2.2) := by
      apply List.mem_map_of_mem
      apply List.mem_append_right
      exact List.mem_cons_self e ces2
    have htfresh : t ∉ P ++ (r :: rest) := hfresh t htedge
    have htnotdone : t ∉ done2.map (fun e => e.2.2) ∧ t ∉ ces2.map (fun e => e.2.2) := by
      rw [List.map_append, List.map_cons] at hnd
      obtain ⟨h1, h2, h3⟩ := List.nodup_append.1 hnd
      rw [List.nodup_cons] at h2
      exact ⟨fun hmem => h3 hmem (List.mem_cons_self _ _), h2.1⟩
    have htn : t < tb.stateCount := (TInv_target_lt hI hemem).2
    have ht1 : 1 ≤ t := (TInv_target_lt hI hemem).1
    have hdeptht : (path tb.edges t).length = (path tb.edges r).length + 1 :=
      depth_child hI hemem
    have hrnottgt : r ∉ done2.map (fun e => e.2.2) := by
      intro hmem
      apply hfresh r
      · rw [List.map_append]
        exact List.mem_append_left _ hmem
      · exact hrP
    have h0nottgt : ∀ x ∈ done2.map (fun e2 => e2.2.2), 1 ≤ x := by
      intro x hx
      obtain ⟨e2, he2, he2t⟩ := List.mem_map.1 hx
      have he2e := (hall e2 (List.mem_append_left _ he2)).1
      exact he2t ▸ (TInv_target_lt hI he2e).1
    have hfr : f1.getD r 0 = failCanon tb.edges r := by
      rw [hfoff r hrnottgt]
      exact inv.failW r hrP
    have hfsh : ∀ x, x < tb.stateCount →
        (path tb.edges x).length < (path tb.edges r).length →
        f1.getD x 0 = failCanon tb.edges x := by
      intro x hx hdx
      by_cases hx0 : x = 0
      · subst hx0
        have h0d : (0 : Nat) ∉ done2.map (fun e2 => e2.2.2) := by
          intro hmem
          have := h0nottgt 0 hmem
          omega
        rw [hfoff 0 h0d, inv.failRoot, failCanon_root]
      · have hx1 : 1 ≤ x := by omega
        have hxmem : x ∈ P ++ (r :: rest) :=
          shallow_mem hI inv (path tb.edges x).length x hx1 hx (Nat.le_refl _) (by omega)
        have hxnd : x ∉ done2.map (fun e2 => e2.2.2) := by
          intro hmem
          apply hfresh x
          · rw [List.map_append]
            exact List.mem_append_left _ hmem
          · exact hxmem
        rw [hfoff x hxnd]
        exact inv.failW x hxmem
    obtain ⟨hflc, hpt, hpfc, hfclt, hfcd⟩ := bfsChild hI hr1 hrn hemem hfr hfsh
    have hstep : bfsStep tb.edges tb.stateCount (q1, f1, o1) e
        = (q1 ++ [t], f1.set t (failWalk tb.edges f1 c tb.stateCount (f1.getD r 0)),
            o1.set t (o1.getD t [] ++ o1.getD (failWalk tb.edges f1 c tb.stateCount (f1.getD r 0)) [])) := by
      unfold bfsStep
      simp only
      rw [hee.2]
    have hoval : o1.getD t [] ++ o1.getD (failWalk tb.edges f1 c tb.stateCount (f1.getD r 0)) []
        = outFu tt pats tb.edges (path tb.edges t) := by
      rw [hflc]
      have ho1 : o1.getD t [] = ownAt tt pats tb.edges t := by
        rw [hooff t htnotdone.1, inv.outU t htn htfresh]
        exact out_trie_ownAt hOK htn
      have ho2 : o1.getD (failCanon tb.edges t) []
          = outFu tt pats tb.edges (path tb.edges (failCanon tb.edges t)) := by
        by_cases hfc0 : failCanon tb.edges t = 0
        · rw [hfc0]
          have h0d : (0 : Nat) ∉ done2.map (fun e2 => e2.2.2) := by
            intro hmem
            have := h0nottgt 0 hmem
            omega
          have h0pq : (0 : Nat) ∉ P ++ (r :: rest) := by
            intro hmem
            have := ((inv.memPQ 0).1 hmem).1
            omega
          rw [hooff 0 h0d, inv.outU 0 hI.scpos h0pq]
          rw [out_trie_ownAt hOK hI.scpos]
          have : path tb.edges 0 = [] := rfl
          rw [this, outFu_nil_eq]
        · have hfc1 : 1 ≤ failCanon tb.edges t := by omega
          have hfcdr : (path tb.edges (failCanon tb.edges t)).length
              ≤ (path tb.edges r).length := by omega
          have hfcmem : failCanon tb.edges t ∈ P ++ (r :: rest) :=
            shallow_mem hI inv _ _ hfc1 hfclt (Nat.le_refl _) hfcdr
          have hfcnd : failCanon tb.edges t ∉ done2.map (fun e2 => e2.2.2) := by
            intro hmem
            apply hfresh _ (by rw [List.map_append]; exact List.mem_append_left _ hmem) hfcmem
          rw [hooff _ hfcnd]
          exact inv.outW _ hfcmem
      rw [ho1, ho2]
      exact bfsChildOut hI tt pats hr1 hrn hemem
    rw [List.foldl_cons, hstep]
    have hIH := ih (done2 ++ [e]) (q1 ++ [t])
      (f1.set t (failWalk tb.edges f1 c tb.stateCount (f1.getD r 0)))
      (o1.set t (o1.getD t [] ++ o1.getD (failWalk tb.edges f1 c tb.stateCount (f1.getD r 0)) []))
      ?ha ?hb ?hc ?hd ?he2 ?hf ?hg ?hh ?hi
    case ha =>
      intro e2 he2
      apply hall
      rw [List.append_assoc] at he2
      simpa using he2
    case hb =>
      have : (done2 ++ [e]) ++ ces2 = done2 ++ e :: ces2 := by simp
      rw [this]
      exact hnd
    case hc =>
      intro x hx
      apply hfresh x
      have : (done2 ++ [e]) ++ ces2 = done2 ++ e :: ces2 := by simp
      rw [this] at hx
      exact hx
    case hd => rw [List.length_set]; exact hflen
    case he2 => rw [List.length_set]; exact holen
    case hf =>
      intro x hx
      rw [List.map_append] at hx
      have hx1 : x ∉ done2.map (fun e2 => e2.2.2) := fun h => hx (List.mem_append_left _ h)
      have hx2 : x ≠ t := by
        intro h
        apply hx
        apply List.mem_append_right
        simp [h]
      rw [getD_set_ne _ _ _ (fun h => hx2 h.symm)]
      exact hfoff x hx1
    case hg =>
      intro x hx
      rw [List.map_append] at hx
      rcases List.mem_append.1 hx with hx1 | hx1
      · have hx2 : x ≠ t := by
          intro h
          subst h
          exact htnotdone.1 hx1
        rw [getD_set_ne _ _ _ (fun h => hx2 h.symm)]
        exact hfon x hx1
      · have hx2 : x = t := by simpa using hx1
        subst hx2
        rw [getD_set_eq _ _ _ _ (by rw [hflen]; exact htn), hflc]
    case hh =>
      intro x hx
      rw [List.map_append] at hx
      have hx1 : x ∉ done2.map (fun e2 => e2.2.2) := fun h => hx (List.mem_append_left _ h)
      have hx2 : x ≠ t := by
        intro h
        apply hx
        apply List.mem_append_right
        simp [h]
      rw [getD_set_ne _ _ _ (fun h => hx2 h.symm)]
      exact hooff x hx1
    case hi =>
      intro x hx
      rw [List.map_append] at hx
      rcases List.mem_append.1 hx with hx1 | hx1
      · have hx2 : x ≠ t := by
          intro h
          subst h
          exact htnotdone.1 hx1
        rw [getD_set_ne _ _ _ (fun h => hx2 h.symm)]
        exact hoon x hx1
      · have hx2 : x = t := by simpa using hx1
        subst hx2
        rw [getD_set_eq _ _ _ _ (by rw [holen]; exact htn), hoval]
    obtain ⟨g1, g2, g3, g4, g5, g6, g7⟩ := hIH
    have hassoc : (done2 ++ [e]) ++ ces2 = done2 ++ e :: ces2 := by simp
    rw [hassoc] at g4 g5 g6 g7
    refine ⟨?_, g2, g3, g4, g5, g6, g7⟩
    rw [g1]
    simp

theorem childEdges_mem (es : List (Nat × Nat × Nat)) (r : Nat) (e : Nat × Nat × Nat) :
    e ∈ childEdges es r ↔ e ∈ es ∧ e.1 = r := by
  unfold childEdges
  rw [List.mem_filter]
  simp

theorem pairwise_le_of_const {l : List Nat} {f : Nat → Nat} {cst : Nat}
    (h : ∀ x ∈ l, f x = cst) : l.Pairwise (fun a b => f a ≤ f b) := by
  induction l with
  | nil => exact List.Pairwise.nil
  | cons x xs ih =>
    constructor
    · intro y hy
      rw [h x (List.mem_cons_self x xs), h y (List.mem_cons_of_mem x hy)]
    · exact ih (fun y hy => h y (List.mem_cons_of_mem x hy))

/-- One BFS pop preserves the invariant, with the popped state appended. -/
theorem bfsPop (tt : Nat → Nat) (pats : List Pattern) {tb : TrieB}
    (hI : TInv tb) (hOK : TrieOK tt pats tb)
    {P rest failure0 : List Nat} {out0 : List (List Nat)} {r : Nat}
    (inv : BfsInv tt pats tb P (r :: rest) failure0 out0) :
    BfsInv tt pats tb (P ++ [r])
      ((childEdges tb.edges r).foldl (bfsStep tb.edges tb.stateCount) (rest, failure0, out0)).1
      ((childEdges tb.edges r).foldl (bfsStep tb.edges tb.stateCount) (rest, failure0, out0)).2.1
      ((childEdges tb.edges r).foldl (bfsStep tb.edges tb.stateCount) (rest, failure0, out0)).2.2 := by
  have hrP : r ∈ P ++ (r :: rest) := by
    apply List.mem_append_right
    exact List.mem_cons_self r rest
  obtain ⟨hr1, hrn, _⟩ := (inv.memPQ r).1 hrP
  set ces := childEdges tb.edges r with hces
  set newT := ces.map (fun e => e.2.2) with hnewT
  have hall : ∀ e ∈ ([] : List (Nat × Nat × Nat)) ++ ces, e ∈ tb.edges ∧ e.1 = r := by
    intro e he
    rw [List.nil_append] at he
    exact (childEdges_mem tb.edges r e).1 he
  have hndT : (([] : List (Nat × Nat × Nat)) ++ ces).map (fun e => e.2.2) |>.Nodup := by
    rw [List.nil_append]
    apply List.Nodup.sublist _ (targets_nodup hI)
    exact List.Sublist.map _ (List.filter_sublist tb.edges)
  have hsrcT : ∀ x ∈ newT, parSrc tb.edges x = r ∧ 1 ≤ x ∧ x < tb.stateCount ∧
      (path tb.edges x).length = (path tb.edges r).length + 1 := by
    intro x hx
    obtain ⟨e, he, het⟩ := List.mem_map.1 hx
    obtain ⟨hee, her⟩ := (childEdges_mem tb.edges r e).1 he
    have hpe : parentE tb.edges x = some e := het ▸ parentE_of_mem hI hee
    refine ⟨?_, het ▸ (TInv_target_lt hI hee).1, het ▸ (TInv_target_lt hI hee).2, ?_⟩
    · unfold parSrc
      rw [hpe]
      exact her
    · rw [← het, depth_child hI hee, her]
  have hrnotP : r ∉ P := by
    intro hmem
    have := List.disjoint_of_nodup_append inv.nodupPQ
    exact this hmem (List.mem_cons_self r rest)
  have hfresh : ∀ x ∈ (([] : List (Nat × Nat × Nat)) ++ ces).map (fun e => e.2.2),
      x ∉ P ++ (r :: rest) := by
    rw [List.nil_append]
    intro x hx hmem
    obtain ⟨hpsrc, hx1, hxn, _⟩ := hsrcT x hx
    obtain ⟨_, _, hor⟩ := (inv.memPQ x).1 hmem
    rcases hor with h0 | hP
    · omega
    · rw [hpsrc] at hP
      exact hrnotP hP
  have hnet := bfsFold_net tt pats hI hOK inv ces [] rest failure0 out0 hall hndT hfresh
    inv.failLen inv.outLen2 (fun x _ => rfl) (by intro x hx; simp at hx)
    (fun x _ => rfl) (by intro x hx; simp at hx)
  obtain ⟨g1, g2, g3, g4, g5, g6, g7⟩ := hnet
  simp only [List.nil_append] at g4 g5 g6 g7
  set st := ces.foldl (bfsStep tb.edges tb.stateCount) (rest, failure0, out0) with hst
  have hmemT : ∀ x, x ∈ newT ↔
      (1 ≤ x ∧ x < tb.stateCount ∧ parSrc tb.edges x = r) := by
    intro x
    constructor
    · intro hx
      obtain ⟨h1, h2, h3, _⟩ := hsrcT x hx
      exact ⟨h2, h3, h1⟩
    · rintro ⟨h1, h2, h3⟩
      obtain ⟨e, hee, hpe, het⟩ := parentE_exists hI h1 h2
      have her : e.1 = r := by
        unfold parSrc at h3
        rw [hpe] at h3
        exact h3
      have : e ∈ ces := (childEdges_mem tb.edges r e).2 ⟨hee, her⟩
      rw [hnewT]
      rw [← het]
      exact List.mem_map_of_mem _ this
  have hT0 : ∀ x ∈ newT, (1 : Nat) ≤ x := fun x hx => (hsrcT x hx).2.1
  have hPle : ∀ a ∈ P, (path tb.edges a).length ≤ (path tb.edges r).length := by
    intro a ha
    have := (List.pairwise_append.1 inv.sorted).2.2
    exact this a ha r (List.mem_cons_self r rest)
  have hrle : ∀ y ∈ rest, (path tb.edges r).length ≤ (path tb.edges y).length := by
    intro y hy
    have h2 := (List.pairwise_append.1 inv.sorted).2.1
    rw [List.pairwise_cons] at h2
    exact h2.1 y hy
  have hEQ : (P ++ [r]) ++ st.1 = (P ++ (r :: rest)) ++ newT := by
    rw [g1]
    simp
  constructor
  · rw [hEQ]
    rw [List.nodup_append]
    refine ⟨inv.nodupPQ, ?_, ?_⟩
    · rw [hnewT]
      rw [List.nil_append] at hndT
      exact hndT
    · intro a ha hb
      exact hfresh a (by rw [List.nil_append]; exact hb) ha
  · intro t
    rw [show (P ++ [r]) ++ st.1 = (P ++ (r :: rest)) ++ newT from hEQ]
    constructor
    · intro ht
      rcases List.mem_append.1 ht with h1 | h1
      · obtain ⟨ha, hb, hor⟩ := (inv.memPQ t).1 h1
        refine ⟨ha, hb, ?_⟩
        rcases hor with h2 | h2
        · exact Or.inl h2
        · exact Or.inr (List.mem_append_left _ h2)
      · obtain ⟨ha, hb, hc⟩ := (hmemT t).1 h1
        refine ⟨ha, hb, Or.inr ?_⟩
        rw [hc]
        exact List.mem_append_right _ (List.mem_singleton.2 rfl)
    · rintro ⟨h1, h2, hor⟩
      rcases hor with h3 | h3
      · exact List.mem_append_left _ ((inv.memPQ t).2 ⟨h1, h2, Or.inl h3⟩)
      · rcases List.mem_append.1 h3 with h4 | h4
        · exact List.mem_append_left _ ((inv.memPQ t).2 ⟨h1, h2, Or.inr h4⟩)
        · have h5 : parSrc tb.edges t = r := by
            rw [List.mem_singleton] at h4
            exact h4
          exact List.mem_append_right _ ((hmemT t).2 ⟨h1, h2, h5⟩)
  · rw [hEQ]
    rw [List.pairwise_append]
    refine ⟨inv.sorted, ?_, ?_⟩
    · exact pairwise_le_of_const (fun x hx => (hsrcT x hx).2.2.2)
    · intro a ha b hb
      have hbd : (path tb.edges b).length = (path tb.edges r).length + 1 :=
        (hsrcT b hb).2.2.2
      rw [hbd]
      rcases List.mem_append.1 ha with h1 | h1
      · have := hPle a h1
        omega
      · rcases List.mem_cons.1 h1 with h2 | h2
        · subst h2
          omega
        · have := inv.spread a (List.mem_cons_of_mem r h2) r (List.mem_cons_self r rest)
          omega
  · rw [g1]
    intro x hx y hy
    rcases List.mem_append.1 hx with hx1 | hx1 <;> rcases List.mem_append.1 hy with hy1 | hy1
    · exact inv.spread x (List.mem_cons_of_mem r hx1) y (List.mem_cons_of_mem r hy1)
    · have hyd : (path tb.edges y).length = (path tb.edges r).length + 1 :=
        (hsrcT y hy1).2.2.2
      have := inv.spread x (List.mem_cons_of_mem r hx1) r (List.mem_cons_self r rest)
      omega
    · have hxd : (path tb.edges x).length = (path tb.edges r).length + 1 :=
        (hsrcT x hx1).2.2.2
      have := hrle y hy1
      omega
    · have hxd : (path tb.edges x).length = (path tb.edges r).length + 1 :=
        (hsrcT x hx1).2.2.2
      have hyd : (path tb.edges y).length = (path tb.edges r).length + 1 :=
        (hsrcT y hy1).2.2.2
      omega
  · exact g2
  · exact g3
  · have h0 : (0 : Nat) ∉ ces.map (fun e => e.2.2) := by
      intro hmem
      have := hT0 0 hmem
      omega
    rw [g4 0 h0]
    exact inv.failRoot
  · intro t ht
    rw [show (P ++ [r]) ++ st.1 = (P ++ (r :: rest)) ++ newT from hEQ] at ht
    rcases List.mem_append.1 ht with h1 | h1
    · have hnt : t ∉ ces.map (fun e => e.2.2) := fun hmem => hfresh t
        (by rw [List.nil_append]; exact hmem) h1
      rw [g4 t hnt]
      exact inv.failW t h1
    · exact g5 t h1
  · intro t ht
    rw [show (P ++ [r]) ++ st.1 = (P ++ (r :: rest)) ++ newT from hEQ] at ht
    rcases List.mem_append.1 ht with h1 | h1
    · have hnt : t ∉ ces.map (fun e => e.2.2) := fun hmem => hfresh t
        (by rw [List.nil_append]; exact hmem) h1
      rw [g6 t hnt]
      exact inv.outW t h1
    · exact g7 t h1
  · intro t htn ht
    rw [show (P ++ [r]) ++ st.1 = (P ++ (r :: rest)) ++ newT from hEQ] at ht
    have h1 : t ∉ P ++ (r :: rest) := fun h => ht (List.mem_append_left _ h)
    have h2 : t ∉ ces.map (fun e => e.2.2) := fun h => ht (List.mem_append_right _ h)
    rw [g6 t h2]
    exact inv.outU t htn h1

theorem getD_replicate_zero : ∀ (n i : Nat), (List.replicate n (0 : Nat)).getD i 0 = 0 := by
  intro n
  induction n with
  | zero => intro i; simp
  | succ m ih =>
    intro i
    cases i with
    | zero => rfl
    | succ j => exact ih j

/-- The initial BFS configuration satisfies the invariant. -/
theorem bfsInit (tt : Nat → Nat) (pats : List Pattern) {tb : TrieB}
    (hI : TInv tb) (hOK : TrieOK tt pats tb) :
    BfsInv tt pats tb [] ((childEdges tb.edges 0).map (fun e => e.2.2))
      (List.replicate tb.stateCount 0) tb.out := by
  set q0 := (childEdges tb.edges 0).map (fun e => e.2.2) with hq0
  have hq0fact : ∀ x ∈ q0, 1 ≤ x ∧ x < tb.stateCount ∧ parSrc tb.edges x = 0 ∧
      path tb.edges x = [((parentE tb.edges x).getD (0,0,0)).2.1] := by
    intro x hx
    obtain ⟨e, he, het⟩ := List.mem_map.1 hx
    obtain ⟨hee, he0⟩ := (childEdges_mem tb.edges 0 e).1 he
    have hpe : parentE tb.edges x = some e := het ▸ parentE_of_mem hI hee
    refine ⟨het ▸ (TInv_target_lt hI hee).1, het ▸ (TInv_target_lt hI hee).2, ?_, ?_⟩
    · unfold parSrc
      rw [hpe]
      exact he0
    · have := path_edge hI hee
      rw [het] at this
      rw [this, he0, hpe]
      rfl
  have hmemT : ∀ x, x ∈ q0 ↔ (1 ≤ x ∧ x < tb.stateCount ∧ parSrc tb.edges x = 0) := by
    intro x
    constructor
    · intro hx
      obtain ⟨h1, h2, h3, _⟩ := hq0fact x hx
      exact ⟨h1, h2, h3⟩
    · rintro ⟨h1, h2, h3⟩
      obtain ⟨e, hee, hpe, het⟩ := parentE_exists hI h1 h2
      have he0 : e.1 = 0 := by
        unfold parSrc at h3
        rw [hpe] at h3
        exact h3
      rw [hq0, ← het]
      exact List.mem_map_of_mem _ ((childEdges_mem tb.edges 0 e).2 ⟨hee, he0⟩)
  have hdep1 : ∀ x ∈ q0, (path tb.edges x).length = 1 := by
    intro x hx
    rw [(hq0fact x hx).2.2.2]
    rfl
  constructor
  · rw [List.nil_append]
    apply List.Nodup.sublist _ (targets_nodup hI)
    exact List.Sublist.map _ (List.filter_sublist tb.edges)
  · intro t
    rw [List.nil_append]
    rw [hmemT t]
    constructor
    · rintro ⟨h1, h2, h3⟩
      exact ⟨h1, h2, Or.inl h3⟩
    · rintro ⟨h1, h2, h3 | h3⟩
      · exact ⟨h1, h2, h3⟩
      · simp at h3
  · rw [List.nil_append]
    exact pairwise_le_of_const hdep1
  · intro x hx y hy
    rw [hdep1 x hx, hdep1 y hy]
    omega
  · exact List.length_replicate _ _
  · exact hI.outLen
  · exact getD_replicate_zero _ _
  · intro t ht
    rw [List.nil_append] at ht
    rw [getD_replicate_zero]
    obtain ⟨_, _, _, hp⟩ := hq0fact t ht
    unfold failCanon
    rw [hp]
    rfl
  · intro t ht
    rw [List.nil_append] at ht
    obtain ⟨h1, h2, h3, hp⟩ := hq0fact t ht
    rw [hp, outFu_cons_eq]
    rw [if_pos rfl, List.append_nil]
    have hwt : walk tb.edges 0 (path tb.edges t) = some t := (path_spec hI t h2).1
    rw [hp] at hwt
    rw [hwt]
    simp only [Option.getD_some]
    exact out_trie_ownAt hOK h2
  · intro t h2 _
    rfl

theorem nodup_length_lt {P : List Nat} (h : P.Nodup) {n : Nat} (hn : 1 ≤ n)
    (hmem : ∀ x ∈ P, 1 ≤ x ∧ x < n) : P.length < n := by
  have h1 : P.length = P.toFinset.card := (List.toFinset_card_of_nodup h).symm
  have h2 : P.toFinset ⊆ Finset.Ico 1 n := by
    intro x hx
    rw [List.mem_toFinset] at hx
    rw [Finset.mem_Ico]
    exact hmem x hx
  have h3 : P.toFinset.card ≤ (Finset.Ico 1 n).card := Finset.card_le_card h2
  rw [Nat.card_Ico] at h3
  omega

theorem final_all_in {tt : Nat → Nat} {pats : List Pattern} {tb : TrieB}
    {P failure : List Nat} {out : List (List Nat)} (hI : TInv tb)
    (inv : BfsInv tt pats tb P [] failure out) :
    ∀ t, 1 ≤ t → t < tb.stateCount → t ∈ P := by
  intro t
  induction t using Nat.strong_induction_on with
  | _ t ih =>
    intro h1 h2
    obtain ⟨e, hee, hpe, het⟩ := parentE_exists hI h1 h2
    have hsrc : parSrc tb.edges t = e.1 := by
      unfold parSrc
      rw [hpe]
      rfl
    by_cases h0 : e.1 = 0
    · have := (inv.memPQ t).2 ⟨h1, h2, Or.inl (by rw [hsrc, h0])⟩
      simpa using this
    · have hp1 : 1 ≤ e.1 := by omega
      have hplt : e.1 < t := het ▸ hI.srcLt e hee
      have hpn : e.1 < tb.stateCount := TInv_src_lt hI hee
      have hpP : e.1 ∈ P := ih e.1 hplt hp1 hpn
      have := (inv.memPQ t).2 ⟨h1, h2, Or.inr (hsrc ▸ hpP)⟩
      simpa using this

/-- The fuelled BFS loop, run from an invariant configuration with enough
fuel, produces the canonical failure links and merged outputs. -/
theorem bfsLoop_spec (tt : Nat → Nat) (pats : List Pattern) {tb : TrieB}
    (hI : TInv tb) (hOK : TrieOK tt pats tb) :
    ∀ (fuel : Nat) (P queue failure : List Nat) (out : List (List Nat)),
      BfsInv tt pats tb P queue failure out →
      tb.stateCount ≤ fuel + P.length →
      (∀ t, t < tb.stateCount →
        (bfsLoop tb.edges tb.stateCount fuel queue failure out).1.getD t 0
          = failCanon tb.edges t)
      ∧ (∀ t, t < tb.stateCount →
        (bfsLoop tb.edges tb.stateCount fuel queue failure out).2.getD t []
          = outFu tt pats tb.edges (path tb.edges t)) := by
  intro fuel
  induction fuel with
  | zero =>
    intro P queue failure out inv hcount
    exfalso
    have hnodupP : P.Nodup := (List.nodup_append.1 inv.nodupPQ).1
    have hmemP : ∀ x ∈ P, 1 ≤ x ∧ x < tb.stateCount := by
      intro x hx
      have := (inv.memPQ x).1 (List.mem_append_left _ hx)
      exact ⟨this.1, this.2.1⟩
    have := nodup_length_lt hnodupP hI.scpos hmemP
    omega
  | succ fu ih =>
    intro P queue failure out inv hcount
    cases queue with
    | nil =>
      have hres : bfsLoop tb.edges tb.stateCount (fu + 1) [] failure out = (failure, out) := rfl
      rw [hres]
      constructor
      · intro t ht
        by_cases ht0 : t = 0
        · subst ht0
          rw [inv.failRoot, failCanon_root]
        · have htP : t ∈ P := final_all_in hI inv t (by omega) ht
          exact inv.failW t (List.mem_append_left _ htP)
      · intro t ht
        by_cases ht0 : t = 0
        · subst ht0
          have h0 : (0 : Nat) ∉ P ++ [] := by
            intro hmem
            have := ((inv.memPQ 0).1 hmem).1
            omega
          rw [inv.outU 0 ht h0]
          rw [out_trie_ownAt hOK ht]
          have hp0 : path tb.edges 0 = [] := rfl
          rw [hp0, outFu_nil_eq]
        · have htP : t ∈ P := final_all_in hI inv t (by omega) ht
          exact inv.outW t (List.mem_append_left _ htP)
    | cons r rest =>
      have hres : bfsLoop tb.edges tb.stateCount (fu + 1) (r :: rest) failure out
          = bfsLoop tb.edges tb.stateCount fu
            ((childEdges tb.edges r).foldl (bfsStep tb.edges tb.stateCount)
              (rest, failure, out)).1
            ((childEdges tb.edges r).foldl (bfsStep tb.edges tb.stateCount)
              (rest, failure, out)).2.1
            ((childEdges tb.edges r).foldl (bfsStep tb.edges tb.stateCount)
              (rest, failure, out)).2.2 := rfl
      rw [hres]
      have hstep := bfsPop tt pats hI hOK inv
      apply ih _ _ _ _ hstep
      rw [List.length_append, List.length_singleton]
      omega

/-!  ## The compiled machine -/

theorem flatten_rows : ∀ (rows : List (List Nat)) (A : Nat),
    (∀ row ∈ rows, row.length = A) →
    rows.flatten.length = rows.length * A
    ∧ (∀ s c, s < rows.length → c < A →
        rows.flatten.getD (s * A + c) 0 = (rows.getD s []).getD c 0) := by
  intro rows
  induction rows with
  | nil =>
    intro A _
    constructor
    · simp
    · intro s c hs _
      simp at hs
  | cons row rest ih =>
    intro A hlen
    have hrow : row.length = A := hlen row (List.mem_cons_self _ _)
    obtain ⟨ih1, ih2⟩ := ih A (fun r hr => hlen r (List.mem_cons_of_mem _ hr))
    constructor
    · rw [List.flatten_cons, List.length_append, ih1, hrow, List.length_cons]
      ring
    · intro s c hs hc
      rw [List.flatten_cons]
      cases s with
      | zero =>
        rw [List.getD_append _ _ _ _ (by omega)]
        show row.getD (0 * A + c) 0 = row.getD c 0
        rw [Nat.zero_mul, Nat.zero_add]
      | succ s2 =>
        have hidx : row.length ≤ (s2 + 1) * A + c := by
          rw [hrow]
          have : A ≤ (s2 + 1) * A := by
            have := Nat.le_mul_of_pos_left A (show 0 < s2 + 1 by omega)
            omega
          omega
        rw [List.getD_append_right _ _ _ _ hidx]
        have harith : (s2 + 1) * A + c - row.length = s2 * A + c := by
          rw [hrow]
          have : (s2 + 1) * A = s2 * A + A := by ring
          omega
        rw [harith]
        have hs2 : s2 < rest.length := by
          rw [List.length_cons] at hs
          omega
        rw [ih2 s2 c hs2 hc]
        rfl

theorem getD_map_range {A : Type} (f : Nat → A) (d : A) (n s : Nat) (hs : s < n) :
    ((List.range n).map f).getD s d = f s := by
  rw [List.getD_eq_getElem?_getD, List.getElem?_map]
  rw [List.getElem?_range hs]
  rfl

theorem failWalk_lt {tb : TrieB} (hI : TInv tb) (failure : List Nat) (c : Nat) :
    ∀ fuel st, failWalk tb.edges failure c fuel st < tb.stateCount := by
  intro fuel
  induction fuel with
  | zero => intro st; exact hI.scpos
  | succ fu ih =>
    intro st
    show (match trieGet tb.edges st c with
      | some v => v
      | none => if st = 0 then 0 else failWalk tb.edges failure c fu (failure.getD st 0))
        < tb.stateCount
    cases hg : trieGet tb.edges st c with
    | some v => exact (TInv_target_lt hI (trieGet_mem hg)).2
    | none =>
      by_cases h0 : st = 0
      · rw [if_pos h0]
        exact hI.scpos
      · rw [if_neg h0]
        exact ih _

theorem bfsFold_lengths (es : List (Nat × Nat × Nat)) (n : Nat) :
    ∀ (ces : List (Nat × Nat × Nat)) (st : List Nat × List Nat × List (List Nat)),
      (ces.foldl (bfsStep es n) st).2.1.length = st.2.1.length
      ∧ (ces.foldl (bfsStep es n) st).2.2.length = st.2.2.length := by
  intro ces
  induction ces with
  | nil => intro st; exact ⟨rfl, rfl⟩
  | cons e rest ih =>
    intro st
    rw [List.foldl_cons]
    obtain ⟨h1, h2⟩ := ih (bfsStep es n st e)
    constructor
    · rw [h1]
      show (st.2.1.set e.2.2 _).length = st.2.1.length
      exact List.length_set _ _ _
    · rw [h2]
      show (st.2.2.set e.2.2 _).length = st.2.2.length
      exact List.length_set _ _ _

theorem bfsLoop_lengths (es : List (Nat × Nat × Nat)) (n : Nat) :
    ∀ (fuel : Nat) (q f : List Nat) (o : List (List Nat)),
      (bfsLoop es n fuel q f o).1.length = f.length
      ∧ (bfsLoop es n fuel q f o).2.length = o.length := by
  intro fuel
  induction fuel with
  | zero => intro q f o; exact ⟨rfl, rfl⟩
  | succ fu ih =>
    intro q f o
    cases q with
    | nil => exact ⟨rfl, rfl⟩
    | cons r rest =>
      have hres : bfsLoop es n (fu + 1) (r :: rest) f o
          = bfsLoop es n fu ((childEdges es r).foldl (bfsStep es n) (rest, f, o)).1
            ((childEdges es r).foldl (bfsStep es n) (rest, f, o)).2.1
            ((childEdges es r).foldl (bfsStep es n) (rest, f, o)).2.2 := rfl
      rw [hres]
      obtain ⟨h1, h2⟩ := ih ((childEdges es r).foldl (bfsStep es n) (rest, f, o)).1
        ((childEdges es r).foldl (bfsStep es n) (rest, f, o)).2.1
        ((childEdges es r).foldl (bfsStep es n) (rest, f, o)).2.2
      obtain ⟨h3, h4⟩ := bfsFold_lengths es n (childEdges es r) (rest, f, o)
      exact ⟨by rw [h1]; exact h3, by rw [h2]; exact h4⟩

/-- All facts needed downstream about a machine produced by
`buildStateMachine`, relative to the trie of its pattern list. -/
structure SMOK (ac : ACKS) (tb : TrieB) : Prop where
  hI : TInv tb
  hOK : TrieOK ac.translateTable ac.patterns tb
  hsc : ac.stateCount = tb.stateCount
  htlen : ac.stateTable.length = tb.stateCount * ac.alphabetSize
  htmem : ∀ x ∈ ac.stateTable, x < tb.stateCount
  hdelta : ∀ s c, s < tb.stateCount → c < ac.alphabetSize →
    ac.stateTable.getD (s * ac.alphabetSize + c) 0
      = (walk tb.edges 0 (lsuf tb.edges (path tb.edges s ++ [c]))).getD 0
  holen : ac.outputTable.length = tb.stateCount
  hout : ∀ s, s < tb.stateCount →
    ac.outputTable.getD s [] = outFu ac.translateTable ac.patterns tb.edges (path tb.edges s)

theorem buildSM_fields (ac0 : ACKS) :
    (buildStateMachine ac0).patterns = ac0.patterns
    ∧ (buildStateMachine ac0).translateTable = ac0.translateTable
    ∧ (buildStateMachine ac0).alphabetSize = ac0.alphabetSize
    ∧ (buildStateMachine ac0).maxID = ac0.maxID
    ∧ (buildStateMachine ac0).size = ac0.size
    ∧ (buildStateMachine ac0).hasSingleMatch = ac0.hasSingleMatch :=
  ⟨rfl, rfl, rfl, rfl, rfl, rfl⟩

theorem buildSM_SMOK (ac0 : ACKS) :
    SMOK (buildStateMachine ac0) (buildTrie ac0.translateTable ac0.patterns) := by
  set tt := ac0.translateTable with htt
  set pats := ac0.patterns with hpats
  set tb := buildTrie tt pats with htb
  have hOK : TrieOK tt pats tb := buildTrie_OK tt pats
  have hI : TInv tb := hOK.inv
  set n := tb.stateCount with hn
  set queue0 := (childEdges tb.edges 0).map (fun e => e.2.2) with hq0
  set fo := bfsLoop tb.edges n n queue0 (List.replicate n 0) tb.out with hfo
  have hspec := bfsLoop_spec tt pats hI hOK n [] queue0 (List.replicate n 0) tb.out
    (bfsInit tt pats hI hOK) (by simp)
  obtain ⟨hfail, hout⟩ := hspec
  have hflen : fo.1.length = n := by
    rw [hfo]
    rw [(bfsLoop_lengths tb.edges n n queue0 (List.replicate n 0) tb.out).1]
    exact List.length_replicate _ _
  have hrows : ∀ row ∈ (List.range n).map (fun s =>
      (List.range ac0.alphabetSize).map (fun c => failWalk tb.edges fo.1 c n s)),
      row.length = ac0.alphabetSize := by
    intro row hrow
    obtain ⟨s, _, hseq⟩ := List.mem_map.1 hrow
    rw [← hseq]
    simp
  obtain ⟨hlen2, hget2⟩ := flatten_rows _ ac0.alphabetSize hrows
  have hM : buildStateMachine ac0 = { ac0 with
      stateCount := n
      outputTable := fo.2
      stateTable := ((List.range n).map (fun s =>
        (List.range ac0.alphabetSize).map (fun c => failWalk tb.edges fo.1 c n s))).flatten } := rfl
  constructor
  · exact hI
  · exact hOK
  · rw [hM]
  · rw [hM]
    show (((List.range n).map (fun s => (List.range ac0.alphabetSize).map
      (fun c => failWalk tb.edges fo.1 c n s))).flatten).length = n * ac0.alphabetSize
    rw [hlen2]
    simp
  · rw [hM]
    intro x hx
    obtain ⟨row, hrow, hxrow⟩ := List.mem_flatten.1 hx
    obtain ⟨s, _, hseq⟩ := List.mem_map.1 hrow
    rw [← hseq] at hxrow
    obtain ⟨c, _, hceq⟩ := List.mem_map.1 hxrow
    rw [← hceq]
    exact failWalk_lt hI fo.1 c n s
  · intro s c hs hc
    rw [hM]
    show (((List.range n).map (fun s => (List.range ac0.alphabetSize).map
        (fun c => failWalk tb.edges fo.1 c n s))).flatten).getD (s * ac0.alphabetSize + c) 0 = _
    rw [hget2 s c (by simpa using hs) hc]
    rw [getD_map_range _ _ n s hs, getD_map_range _ _ ac0.alphabetSize c hc]
    have hps : walk tb.edges 0 (path tb.edges s) = some s := (path_spec hI s hs).1
    have hdlen : (path tb.edges s).length ≤ s := (path_spec hI s hs).2
    have hmath := failWalk_math hI c (path tb.edges s).length fo.1 (path tb.edges s) n
      (Nat.le_refl _) (by rw [hps]; rfl) (by omega) ?hf
    case hf =>
      intro x hx _
      exact hfail x hx
    rw [hps] at hmath
    simp only [Option.getD_some] at hmath
    exact hmath
  · rw [hM]
    show fo.2.length = n
    rw [hfo]
    rw [(bfsLoop_lengths tb.edges n n queue0 (List.replicate n 0) tb.out).2]
    exact hI.outLen
  · intro s hs
    rw [hM]
    exact hout s hs

/-!  ## Search-time state characterization -/

/-- The DFA state corresponding to a consumed code sequence: the state of
its longest walkable suffix. -/
def reachC (tb : TrieB) (cs : List Nat) : Nat :=
  (walk tb.edges 0 (lsuf tb.edges cs)).getD 0

theorem reachC_lt {tb : TrieB} (hI : TInv tb) (cs : List Nat) :
    reachC tb cs < tb.stateCount := by
  unfold reachC
  have h := lsuf_isSome tb.edges cs
  rw [walk_getD_roundtrip h]
  simp only [Option.getD_some]
  exact walk_lt hI hI.scpos (walk_getD_roundtrip h)

theorem path_reachC {tb : TrieB} (hI : TInv tb) (cs : List Nat) :
    path tb.edges (reachC tb cs) = lsuf tb.edges cs := by
  have h := lsuf_isSome tb.edges cs
  exact (walk_unique hI (walk_getD_roundtrip h)).symm

theorem reachC_nil (tb : TrieB) : reachC tb [] = 0 := rfl

/-- The facts about a machine that the search simulation uses.  They hold
for a built automaton and remain stable under post-build registration. -/
structure SimOK (ac : ACKS) (tb : TrieB) : Prop where
  hI : TInv tb
  htlen : ac.stateTable.length = tb.stateCount * ac.alphabetSize
  hdelta : ∀ s c, s < tb.stateCount → c < ac.alphabetSize →
    ac.stateTable.getD (s * ac.alphabetSize + c) 0
      = (walk tb.edges 0 (lsuf tb.edges (path tb.edges s ++ [c]))).getD 0
  htc : ∀ b, ac.translateTable b < ac.alphabetSize
  hsm : (∃ p ∈ ac.patterns, (p.flags &&& SingleMatch) ≠ 0) → ac.hasSingleMatch = true
  hid : ∀ p ∈ ac.patterns, p.id ≤ ac.maxID
  houtD : ∀ s, ∀ k ∈ ac.outputTable.getD s [],
    k < ac.patterns.length
    ∧ (ac.patterns.getD k dfltPat).strlen ≤ (path tb.edges s).length

/-- One guarded transition of the search loop, from the correct state. -/
theorem stepState {ac : ACKS} {tb : TrieB} (hS : SimOK ac tb)
    (htc : ∀ b, ac.translateTable b < ac.alphabetSize)
    (cs : List Nat) (b : Nat) :
    ¬(ac.stateTable.length ≤ reachC tb cs * ac.alphabetSize + ac.translateTable b)
    ∧ (if ac.stateTable.length ≤ reachC tb cs * ac.alphabetSize + ac.translateTable b then 0
        else ac.stateTable.getD (reachC tb cs * ac.alphabetSize + ac.translateTable b) 0)
      = reachC tb (cs ++ [ac.translateTable b]) := by
  have hcur : reachC tb cs < tb.stateCount := reachC_lt hS.hI cs
  have htcb : ac.translateTable b < ac.alphabetSize := htc b
  have hA : 1 ≤ ac.alphabetSize := by omega
  have hidx : reachC tb cs * ac.alphabetSize + ac.translateTable b
      < tb.stateCount * ac.alphabetSize := by
    have h1 : reachC tb cs * ac.alphabetSize + ac.alphabetSize
        ≤ tb.stateCount * ac.alphabetSize := by
      have : reachC tb cs + 1 ≤ tb.stateCount := hcur
      calc reachC tb cs * ac.alphabetSize + ac.alphabetSize
          = (reachC tb cs + 1) * ac.alphabetSize := by ring
        _ ≤ tb.stateCount * ac.alphabetSize := Nat.mul_le_mul_right _ this
    omega
  have hguard : ¬(ac.stateTable.length ≤ reachC tb cs * ac.alphabetSize + ac.translateTable b) := by
    rw [hS.htlen]
    omega
  refine ⟨hguard, ?_⟩
  rw [if_neg hguard]
  rw [hS.hdelta (reachC tb cs) (ac.translateTable b) hcur htcb]
  rw [path_reachC hS.hI cs]
  rw [← lsuf_step tb.edges cs (ac.translateTable b)]
  rfl

/-- The state loop of the search follows `reachC` over translated codes. -/
theorem runState_spec {ac : ACKS} {tb : TrieB} (hS : SimOK ac tb)
    (htc : ∀ b, ac.translateTable b < ac.alphabetSize) :
    ∀ (rem : List Nat) (cs : List Nat),
      runState ac rem (reachC tb cs) = reachC tb (cs ++ rem.map ac.translateTable) := by
  intro rem
  induction rem with
  | nil => intro cs; simp [runState]
  | cons b rem2 ih =>
    intro cs
    show runState ac rem2 (if ac.stateTable.length ≤ _ then 0 else _) = _
    rw [(stepState hS htc cs b).2]
    rw [ih (cs ++ [ac.translateTable b])]
    simp

theorem stateAt_spec {ac : ACKS} {tb : TrieB} (hS : SimOK ac tb)
    (htc : ∀ b, ac.translateTable b < ac.alphabetSize) (text : List Nat) (i : Nat) :
    stateAt ac text i = reachC tb ((text.take i).map ac.translateTable) := by
  unfold stateAt
  have h0 : (0 : Nat) = reachC tb [] := rfl
  rw [h0, runState_spec hS htc (text.take i) []]
  rw [List.nil_append]

/-- Membership in the live output set is exactly a walkable-code-suffix
condition on the consumed codes. -/
theorem mem_outFu_lsuf_iff {tb : TrieB} (hI : TInv tb) (tt : Nat → Nat)
    (pats : List Pattern) (cs : List Nat) (k : Nat) :
    (k ∈ outFu tt pats tb.edges (lsuf tb.edges cs) →
      k < pats.length ∧ codeP tt ((pats.getD k dfltPat).content) <:+ cs)
    ∧ (k < pats.length →
        codeP tt ((pats.getD k dfltPat).content) ≠ [] →
        codeP tt ((pats.getD k dfltPat).content) <:+ cs →
        (walk tb.edges 0 (codeP tt ((pats.getD k dfltPat).content))).isSome →
        k ∈ outFu tt pats tb.edges (lsuf tb.edges cs)) := by
  constructor
  · intro hk
    obtain ⟨h1, h2⟩ := outFu_sound hI tt pats (lsuf_isSome tb.edges cs) hk
    exact ⟨h1, h2.trans (lsuf_suffix tb.edges cs)⟩
  · intro h1 h2 h3 h4
    exact outFu_complete hI tt pats (lsuf_isSome tb.edges cs) h1 h2
      (lsuf_longest tb.edges cs _ h3 h4) h4

/-!  ## Byte-level bridges -/

theorem suffix_iff_eq_drop {α : Type} {v w : List α} (h : v.length ≤ w.length) :
    v <:+ w ↔ w.drop (w.length - v.length) = v := by
  constructor
  · rintro ⟨pre, hpre⟩
    rw [← hpre]
    have h2 : (pre ++ v).length - v.length = pre.length := by simp
    rw [h2, List.drop_left]
  · intro h2
    rw [← h2]
    exact List.drop_suffix _ _

theorem map_eq_map_of {f g : Nat → Nat} :
    ∀ (p q : List Nat), p.map f = q.map f →
      (∀ a ∈ p, ∀ b ∈ q, f a = f b → g a = g b) → p.map g = q.map g := by
  intro p
  induction p with
  | nil =>
    intro q h _
    cases q with
    | nil => rfl
    | cons b bs => simp at h
  | cons a as ih =>
    intro q h hfg
    cases q with
    | nil => simp at h
    | cons b bs =>
      simp only [List.map_cons, List.cons.injEq] at h ⊢
      refine ⟨hfg a (List.mem_cons_self _ _) b (List.mem_cons_self _ _) h.1, ?_⟩
      exact ih bs h.2 (fun x hx y hy => hfg x (List.mem_cons_of_mem _ hx)
        y (List.mem_cons_of_mem _ hy))

theorem map_suffix_transport {f g : Nat → Nat} {p t : List Nat}
    (hfg : ∀ a ∈ p, ∀ b ∈ t, f a = f b → g a = g b) :
    p.map f <:+ t.map f → p.map g <:+ t.map g := by
  intro h
  have hlen : p.length ≤ t.length := by
    have := h.length_le
    simpa using this
  have hdrop := (suffix_iff_eq_drop (by simpa using h.length_le)).1 h
  rw [List.length_map, List.length_map, ← List.map_drop] at hdrop
  have h2 : p.map g = (t.drop (t.length - p.length)).map g :=
    map_eq_map_of p (t.drop (t.length - p.length)) hdrop.symm
      (fun a ha b hb hab => hfg a ha b ((List.drop_subset _ _) hb) hab)
  rw [h2]
  exact (List.drop_suffix _ _).map g

theorem ttF_depends_toLower (pats : List Pattern) {a b : Nat}
    (h : toLower a = toLower b) : ttF pats a = ttF pats b := by
  unfold ttF
  rw [h]

/-- For pattern bytes that actually carry a symbol, the compressed codes
match as suffixes exactly when the case-folded bytes do. -/
theorem suffix_codes_iff_fold (pats : List Pattern) {content t : List Nat}
    (hused : ∀ a ∈ content, 0 < ttF pats a) :
    (content.map (ttF pats) <:+ t.map (ttF pats))
      ↔ (content.map toLower <:+ t.map toLower) := by
  constructor
  · apply map_suffix_transport
    intro a ha b _ hab
    exact ttF_inj pats (hused a ha) hab
  · apply map_suffix_transport
    intro a _ b _ hab
    exact ttF_depends_toLower pats hab

/-- `memcmp` against the tail window is exactly an exact occurrence ending
at `i`. -/
theorem memcmp_endsAt {content text : List Nat} {i : Nat} (hi : i < text.length)
    (hlen : content.length ≤ i + 1) :
    (memcmp content (text.drop (i + 1 - content.length)) content.length = true)
      ↔ content <:+ text.take (i + 1) := by
  unfold memcmp
  have hdl : (text.drop (i + 1 - content.length)).length
      = text.length - (i + 1 - content.length) := by simp
  have hcond : ((text.drop (i + 1 - content.length)).length < content.length
      ∨ content.length < content.length) → False := by
    intro hcontra
    rcases hcontra with h | h
    · rw [hdl] at h
      omega
    · omega
  rw [if_neg (by simpa using hcond)]
  have htake : content.take content.length = content := List.take_length ..
  rw [htake]
  have htlen : (text.take (i + 1)).length = i + 1 := by
    rw [List.length_take]
    omega
  have hkey : (text.drop (i + 1 - content.length)).take content.length
      = (text.take (i + 1)).drop (i + 1 - content.length) := by
    rw [List.drop_take]
    have : i + 1 - (i + 1 - content.length) = content.length := by omega
    rw [this]
  constructor
  · intro h
    rw [beq_iff_eq] at h
    rw [suffix_iff_eq_drop (by omega)]
    rw [htlen]
    have : i + 1 - content.length = (i + 1) - content.length := rfl
    rw [← hkey, ← h]
  · intro h
    rw [beq_iff_eq]
    rw [suffix_iff_eq_drop (by omega), htlen] at h
    rw [hkey, h]

/-!  ## Registration-level facts -/

theorem addAll_gen : ∀ (ps : List Pattern) (ac : ACKS),
    (ps.foldl (fun a p => (AddPattern a p).1) ac).patterns
      = ac.patterns ++ ps.map (fun p => { p with strlen := p.content.length })
    ∧ ac.maxID ≤ (ps.foldl (fun a p => (AddPattern a p).1) ac).maxID
    ∧ (∀ p ∈ ps.map (fun p => { p with strlen := p.content.length }),
        p.id ≤ (ps.foldl (fun a p => (AddPattern a p).1) ac).maxID)
    ∧ ((ps.foldl (fun a p => (AddPattern a p).1) ac).hasSingleMatch
        = (ac.hasSingleMatch || ps.any (fun p => decide ((p.flags &&& SingleMatch) ≠ 0)))) := by
  intro ps
  induction ps with
  | nil =>
    intro ac
    refine ⟨by simp, Nat.le_refl _, by simp, by simp⟩
  | cons p ps ih =>
    intro ac
    rw [List.foldl_cons]
    obtain ⟨ih1, ih2, ih3, ih4⟩ := ih (AddPattern ac p).1
    have hpat : (AddPattern ac p).1.patterns
        = ac.patterns ++ [{ p with strlen := p.content.length }] := rfl
    have hmax : (AddPattern ac p).1.maxID
        = if ac.maxID < p.id then p.id else ac.maxID := rfl
    have hsm : (AddPattern ac p).1.hasSingleMatch
        = (ac.hasSingleMatch || decide ((p.flags &&& SingleMatch) ≠ 0)) := rfl
    refine ⟨?_, ?_, ?_, ?_⟩
    · rw [ih1, hpat]
      simp
    · refine Nat.le_trans ?_ ih2
      rw [hmax]
      split <;> omega
    · intro q hq
      rw [List.map_cons] at hq
      rcases List.mem_cons.1 hq with h1 | h1
      · subst h1
        refine Nat.le_trans ?_ ih2
        rw [hmax]
        simp only
        split <;> omega
      · exact ih3 q h1
    · rw [ih4, hsm]
      simp [Bool.or_assoc]

theorem addAll_patterns (ps : List Pattern) :
    (addAll ps).patterns = ps.map (fun p => { p with strlen := p.content.length }) := by
  have := (addAll_gen ps NewACKS).1
  simpa [addAll, NewACKS] using this

theorem addAll_maxID (ps : List Pattern) :
    ∀ p ∈ (addAll ps).patterns, p.id ≤ (addAll ps).maxID := by
  rw [addAll_patterns]
  exact (addAll_gen ps NewACKS).2.2.1

theorem addAll_hasSM (ps : List Pattern) :
    (∃ p ∈ (addAll ps).patterns, (p.flags &&& SingleMatch) ≠ 0) →
      (addAll ps).hasSingleMatch = true := by
  intro ⟨p, hp, hflag⟩
  have h4 := (addAll_gen ps NewACKS).2.2.2
  show (addAll ps).hasSingleMatch = true
  rw [show (addAll ps).hasSingleMatch
    = (NewACKS.hasSingleMatch || ps.any (fun p => decide ((p.flags &&& SingleMatch) ≠ 0)))
    from h4]
  rw [addAll_patterns] at hp
  obtain ⟨q, hq, hqe⟩ := List.mem_map.1 hp
  have hqf : (q.flags &&& SingleMatch) ≠ 0 := by
    rw [← hqe] at hflag
    exact hflag
  have : ps.any (fun p => decide ((p.flags &&& SingleMatch) ≠ 0)) = true := by
    rw [List.any_eq_true]
    exact ⟨q, hq, by simpa using hqf⟩
  rw [this]
  simp

theorem addAll_strlen (ps : List Pattern) :
    ∀ p ∈ (addAll ps).patterns, p.strlen = p.content.length := by
  rw [addAll_patterns]
  intro p hp
  obtain ⟨q, _, hqe⟩ := List.mem_map.1 hp
  rw [← hqe]

/-- Everything the search-level proofs need about a built automaton. -/
structure GoodAC (ac : ACKS) (tb : TrieB) : Prop where
  sm : SMOK ac tb
  htc : ∀ b, ac.translateTable b < ac.alphabetSize
  htt : ∀ b, ac.translateTable b = ttF ac.patterns b
  hid : ∀ p ∈ ac.patterns, p.id ≤ ac.maxID
  hsm : (∃ p ∈ ac.patterns, (p.flags &&& SingleMatch) ≠ 0) → ac.hasSingleMatch = true
  hstrlen : ∀ p ∈ ac.patterns, p.strlen = p.content.length

/-- The automaton built from any registration sequence is good (relative to
its trie). -/
theorem builtFrom_good (ps : List Pattern) :
    GoodAC (builtFrom ps)
      (buildTrie (initTranslateTable (addAll ps)).translateTable
        (initTranslateTable (addAll ps)).patterns) := by
  set ac1 := initTranslateTable (addAll ps) with hac1
  have hb : builtFrom ps = buildStateMachine ac1 := rfl
  have hfields := buildSM_fields ac1
  have hpat2 : ac1.patterns = (addAll ps).patterns := initTT_patterns (addAll ps)
  constructor
  · rw [hb]
    exact buildSM_SMOK ac1
  · intro b
    show (buildStateMachine ac1).translateTable b < (buildStateMachine ac1).alphabetSize
    rw [hfields.2.1, hfields.2.2.1]
    rw [initTT_translate (addAll ps) b, initTT_alphabet (addAll ps)]
    exact ttF_lt_alphabet (addAll ps).patterns b
  · intro b
    show (buildStateMachine ac1).translateTable b = ttF (buildStateMachine ac1).patterns b
    rw [hfields.2.1, hfields.1]
    rw [initTT_translate (addAll ps) b, hpat2]
  · intro p hp
    rw [hb, hfields.1, hpat2] at hp
    show p.id ≤ (buildStateMachine ac1).maxID
    rw [hfields.2.2.2.1]
    exact addAll_maxID ps p hp
  · intro hex
    rw [hb, hfields.1] at hex
    rw [hpat2] at hex
    show (buildStateMachine ac1).hasSingleMatch = true
    rw [hfields.2.2.2.2.2]
    exact addAll_hasSM ps hex
  · intro p hp
    rw [hb, hfields.1, hpat2] at hp
    exact addAll_strlen ps p hp

/-- A good automaton satisfies the slim simulation bundle. -/
theorem GoodAC.toSim {ac : ACKS} {tb : TrieB} (G : GoodAC ac tb) : SimOK ac tb := by
  refine ⟨G.sm.hI, G.sm.htlen, G.sm.hdelta, G.htc, G.hsm, G.hid, ?_⟩
  intro s k hk
  by_cases hs : s < tb.stateCount
  · rw [G.sm.hout s hs] at hk
    have hws : (walk tb.edges 0 (path tb.edges s)).isSome := by
      rw [(path_spec G.sm.hI s hs).1]
      rfl
    obtain ⟨h1, h2⟩ := outFu_sound G.sm.hI ac.translateTable ac.patterns hws hk
    refine ⟨h1, ?_⟩
    have hlen := h2.length_le
    have hcl : (codeP ac.translateTable ((ac.patterns.getD k dfltPat).content)).length
        = (ac.patterns.getD k dfltPat).content.length := by
      simp [codeP]
    have hsl := G.hstrlen _ (getD_mem_of_lt ac.patterns k dfltPat h1)
    omega
  · have hlen : ac.outputTable.length ≤ s := by
      rw [G.sm.holen]
      omega
    rw [List.getD_eq_default _ _ hlen] at hk
    exact absurd hk (List.not_mem_nil k)

theorem land_shift_ne_zero_iff (x k : Nat) :
    ((x &&& (1 <<< k)) ≠ 0) ↔ Nat.testBit x k = true := by
  rw [Nat.one_shiftLeft]
  constructor
  · intro h
    by_contra hb
    apply h
    apply Nat.eq_of_testBit_eq
    intro i
    rw [Nat.testBit_and, Nat.testBit_two_pow]
    by_cases hik : k = i
    · subst hik
      rw [Bool.not_eq_true] at hb
      rw [hb]
      simp
    · simp [hik]
  · intro h h0
    have := congrArg (fun y => Nat.testBit y k) h0
    simp only [Nat.testBit_and, Nat.testBit_two_pow] at this
    rw [h] at this
    simp at this

/-!  ## Dedup-structure coupling and search simulation -/

/-- Both dedup structures represent the same set of recorded ids. -/
def ddRel (ac : ACKS) (us : Bool) (dd : List Nat × List Nat) (m : List Nat) : Prop :=
  (∀ x ∈ m, x ≤ ac.maxID)
  ∧ (us = true → dd.1.length = ac.maxID / 64 + 1
      ∧ ∀ j : Nat, Nat.testBit (dd.1.getD (j / 64) 0) (j % 64) = true ↔ j ∈ m)
  ∧ (us = false → ∀ j : Nat, j ∈ dd.2 ↔ j ∈ m)

/-- Coupling invariant (trivial when no ReportOnce pattern exists, as the
dedup state is then never consulted). -/
def Rel (ac : ACKS) (us : Bool) (dd : List Nat × List Nat) (m : List Nat) : Prop :=
  ac.hasSingleMatch = true → ddRel ac us dd m

theorem div_mod_eq_iff {j id : Nat} : (j / 64 = id / 64 ∧ j % 64 = id % 64) ↔ j = id := by
  constructor
  · rintro ⟨h1, h2⟩
    have hj := Nat.div_add_mod j 64
    have hid := Nat.div_add_mod id 64
    omega
  · rintro rfl
    exact ⟨rfl, rfl⟩

theorem dedupStep_sim {ac : ACKS} {us : Bool} {dd : List Nat × List Nat} {m : List Nat}
    (pat : Pattern) (hrel : Rel ac us dd m)
    (hflagSM : (pat.flags &&& SingleMatch) ≠ 0 →
      ac.hasSingleMatch = true ∧ pat.id ≤ ac.maxID) :
    ((pat.flags &&& SingleMatch) ≠ 0 ∧ pat.id ∈ m → dedupStep us pat dd = none)
    ∧ (∀ hns : ¬((pat.flags &&& SingleMatch) ≠ 0 ∧ pat.id ∈ m),
        ∃ dd2, dedupStep us pat dd = some dd2 ∧
          Rel ac us dd2 (if (pat.flags &&& SingleMatch) ≠ 0 then m ++ [pat.id] else m)) := by
  by_cases hflag : (pat.flags &&& SingleMatch) ≠ 0
  · obtain ⟨hsm, hidm⟩ := hflagSM hflag
    obtain ⟨hbound, hbits, hmap⟩ := hrel hsm
    cases us with
    | true =>
      obtain ⟨hlen, hbit⟩ := hbits rfl
      have hbitid : ((dd.1.getD (pat.id / 64) 0 &&& (1 <<< (pat.id % 64))) ≠ 0)
          ↔ pat.id ∈ m := by
        rw [land_shift_ne_zero_iff]
        exact hbit pat.id
      constructor
      · rintro ⟨_, hmem⟩
        unfold dedupStep
        rw [if_pos hflag, if_pos rfl, if_pos (hbitid.2 hmem)]
      · intro hns
        have hmem : pat.id ∉ m := by
          intro h
          exact hns ⟨hflag, h⟩
        have hbf : ¬((dd.1.getD (pat.id / 64) 0 &&& (1 <<< (pat.id % 64))) ≠ 0) := by
          intro h
          exact hmem (hbitid.1 h)
        refine ⟨(dd.1.set (pat.id / 64) ((dd.1.getD (pat.id / 64) 0) ||| (1 <<< (pat.id % 64))),
          dd.2), ?_, ?_⟩
        · unfold dedupStep
          rw [if_pos hflag, if_pos rfl, if_neg hbf]
        · rw [if_pos hflag]
          intro _
          refine ⟨?_, ?_, ?_⟩
          · intro x hx
            rcases List.mem_append.1 hx with h1 | h1
            · exact hbound x h1
            · rw [List.mem_singleton] at h1
              subst h1
              exact hidm
          · intro _
            constructor
            · show (dd.1.set _ _).length = _
              rw [List.length_set]
              exact hlen
            · intro j
              have hidxlt : pat.id / 64 < dd.1.length := by
                rw [hlen]
                have hdd : pat.id / 64 ≤ ac.maxID / 64 := Nat.div_le_div_right hidm
                omega
              by_cases hj : j / 64 = pat.id / 64
              · have hbitj : Nat.testBit (dd.1.getD (pat.id / 64) 0) (j % 64) = true ↔ j ∈ m := by
                  rw [← hj]
                  exact hbit j
                rw [hj]
                show Nat.testBit ((dd.1.set (pat.id / 64) _).getD (pat.id / 64) 0) (j % 64)
                    = true ↔ _
                rw [getD_set_eq _ _ _ _ hidxlt]
                rw [Nat.testBit_or, Nat.one_shiftLeft, Nat.testBit_two_pow]
                rw [List.mem_append, List.mem_singleton]
                constructor
                · intro h
                  rcases Bool.or_eq_true_iff.1 h with h1 | h1
                  · exact Or.inl (hbitj.1 h1)
                  · right
                    rw [decide_eq_true_eq] at h1
                    exact (div_mod_eq_iff.1 ⟨hj, h1.symm⟩)
                · intro h
                  rcases h with h1 | h1
                  · rw [Bool.or_eq_true_iff]
                    exact Or.inl (hbitj.2 h1)
                  · subst h1
                    rw [Bool.or_eq_true_iff]
                    right
                    simp
              · show Nat.testBit ((dd.1.set (pat.id / 64) _).getD (j / 64) 0) (j % 64)
                    = true ↔ _
                rw [getD_set_ne _ _ _ (fun h => hj h.symm)]
                rw [List.mem_append, List.mem_singleton]
                have hjne : j ≠ pat.id := by
                  intro h
                  subst h
                  exact hj rfl
                rw [hbit j]
                constructor
                · exact Or.inl
                · intro h
                  rcases h with h1 | h1
                  · exact h1
                  · exact absurd h1 hjne
          · intro h
            exact absurd h (by simp)
    | false =>
      have hmapf := hmap rfl
      constructor
      · rintro ⟨_, hmem⟩
        unfold dedupStep
        rw [if_pos hflag, if_neg (by simp)]
        rw [if_pos ((hmapf pat.id).2 hmem)]
      · intro hns
        have hmem : pat.id ∉ m := fun h => hns ⟨hflag, h⟩
        have hmem2 : pat.id ∉ dd.2 := fun h => hmem ((hmapf pat.id).1 h)
        refine ⟨(dd.1, dd.2 ++ [pat.id]), ?_, ?_⟩
        · unfold dedupStep
          rw [if_pos hflag, if_neg (by simp), if_neg hmem2]
        · rw [if_pos hflag]
          intro _
          refine ⟨?_, ?_, ?_⟩
          · intro x hx
            rcases List.mem_append.1 hx with h1 | h1
            · exact hbound x h1
            · rw [List.mem_singleton] at h1
              subst h1
              exact hidm
          · intro h
            exact absurd h (by simp)
          · intro _
            intro j
            show j ∈ dd.2 ++ [pat.id] ↔ j ∈ m ++ [pat.id]
            rw [List.mem_append, List.mem_append, hmapf j]
  · constructor
    · rintro ⟨h, _⟩
      exact absurd h hflag
    · intro _
      refine ⟨dd, ?_, ?_⟩
      · unfold dedupStep
        rw [if_neg hflag]
      · rw [if_neg hflag]
        exact hrel

theorem procIds_sim {ac : ACKS} {tb : TrieB} (S : SimOK ac tb)
    (us : Bool) (text : List Nat) (i : Nat) :
    ∀ (ids : List Nat) (dd : List Nat × List Nat) (m : List Nat) (acc : List (Nat × Nat)),
      (∀ k ∈ ids, k < ac.patterns.length ∧ (ac.patterns.getD k dfltPat).strlen ≤ i + 1) →
      Rel ac us dd m →
      ∃ dd2, procIdsC ac us text i ids dd acc
          = some (dd2, acc ++ (specProc ac.patterns text i ids m).2)
        ∧ Rel ac us dd2 (specProc ac.patterns text i ids m).1 := by
  intro ids
  induction ids with
  | nil =>
    intro dd m acc _ hrel
    exact ⟨dd, by simp [procIdsC, specProc], hrel⟩
  | cons k ids ih =>
    intro dd m acc hids hrel
    have hk := hids k (List.mem_cons_self k ids)
    have hrest : ∀ q ∈ ids, q < ac.patterns.length
        ∧ (ac.patterns.getD q dfltPat).strlen ≤ i + 1 :=
      fun q hq => hids q (List.mem_cons_of_mem k hq)
    have hpatmem : ac.patterns.getD k dfltPat ∈ ac.patterns :=
      getD_mem_of_lt ac.patterns k dfltPat hk.1
    have hflagSM : ((ac.patterns.getD k dfltPat).flags &&& SingleMatch) ≠ 0 →
        ac.hasSingleMatch = true ∧ (ac.patterns.getD k dfltPat).id ≤ ac.maxID :=
      fun hf => ⟨S.hsm ⟨_, hpatmem, hf⟩, S.hid _ hpatmem⟩
    have hds := dedupStep_sim (ac.patterns.getD k dfltPat) hrel hflagSM
    by_cases hskip : ((ac.patterns.getD k dfltPat).flags &&& SingleMatch) ≠ 0
        ∧ (ac.patterns.getD k dfltPat).id ∈ m
    · simp only [procIdsC, specProc]
      rw [hds.1 hskip, if_pos hskip]
      exact ih dd m acc hrest hrel
    · obtain ⟨dd2, hd2, hrel2⟩ := hds.2 hskip
      simp only [procIdsC, specProc]
      simp only [hd2]
      rw [if_neg hskip]
      by_cases hcl : ((ac.patterns.getD k dfltPat).flags &&& Caseless) ≠ 0
      · rw [if_pos hcl, if_pos hcl]
        obtain ⟨ddF, hF, hrelF⟩ := ih dd2 _ (acc ++ [(i + 1, k)]) hrest hrel2
        refine ⟨ddF, ?_, hrelF⟩
        rw [hF]
        simp
      · rw [if_neg hcl, if_neg hcl]
        have hnp : ¬ (i + 1 < (ac.patterns.getD k dfltPat).strlen) := by omega
        rw [if_neg hnp]
        by_cases hm : memcmp (ac.patterns.getD k dfltPat).content
            (text.drop (i + 1 - (ac.patterns.getD k dfltPat).strlen))
            (ac.patterns.getD k dfltPat).strlen = true
        · rw [if_pos hm, if_pos hm]
          obtain ⟨ddF, hF, hrelF⟩ := ih dd2 _ (acc ++ [(i + 1, k)]) hrest hrel2
          refine ⟨ddF, ?_, hrelF⟩
          rw [hF]
          simp
        · rw [if_neg hm, if_neg hm]
          obtain ⟨ddF, hF, hrelF⟩ := ih dd2 _ acc hrest hrel2
          refine ⟨ddF, ?_, hrelF⟩
          rw [hF]
          simp

theorem searchLoop_sim {ac : ACKS} {tb : TrieB} (S : SimOK ac tb)
    (us : Bool) (text : List Nat) :
    ∀ (rem : List Nat) (i cur : Nat) (dd : List Nat × List Nat) (m : List Nat)
      (acc : List (Nat × Nat)),
      rem = text.drop i → i ≤ text.length →
      cur = reachC tb ((text.take i).map ac.translateTable) →
      Rel ac us dd m →
      searchLoopC ac us text rem i cur dd acc
        = some (acc ++ specLoop ac text rem i cur m) := by
  intro rem
  induction rem with
  | nil =>
    intro i cur dd m acc _ _ _ _
    simp [searchLoopC, specLoop]
  | cons b rem2 ih =>
    intro i cur dd m acc hrem hi hcur hrel
    subst hcur
    have hlt : i < text.length := by
      by_contra hcon
      have hnil : text.drop i = [] := List.drop_eq_nil_of_le (by omega)
      rw [hnil] at hrem
      exact List.noConfusion hrem
    have hdg := List.drop_eq_getElem_cons hlt
    rw [hdg] at hrem
    have hb : b = text[i] := (List.cons.injEq _ _ _ _ ▸ hrem).1
    have hrem2 : rem2 = text.drop (i + 1) := (List.cons.injEq _ _ _ _ ▸ hrem).2
    have hcs2 : ((text.take i).map ac.translateTable) ++ [ac.translateTable b]
        = (text.take (i + 1)).map ac.translateTable := by
      rw [List.take_succ, List.map_append]
      have hget : text[i]? = some text[i] := List.getElem?_eq_getElem hlt
      rw [hget, hb]
      rfl
    have hstep := stepState S S.htc ((text.take i).map ac.translateTable) b
    have hidsOK : ∀ k ∈ ac.outputTable.getD
        (reachC tb ((text.take (i + 1)).map ac.translateTable)) [],
        k < ac.patterns.length ∧ (ac.patterns.getD k dfltPat).strlen ≤ i + 1 := by
      intro k hk
      obtain ⟨h1, h2⟩ := S.houtD _ k hk
      refine ⟨h1, ?_⟩
      have hp1 : (path tb.edges
            (reachC tb ((text.take (i + 1)).map ac.translateTable))).length
          = (lsuf tb.edges ((text.take (i + 1)).map ac.translateTable)).length := by
        rw [path_reachC S.hI]
      have hl1 : (lsuf tb.edges ((text.take (i + 1)).map ac.translateTable)).length
          ≤ ((text.take (i + 1)).map ac.translateTable).length := lsuf_length_le _ _
      have hl4 : ((text.take (i + 1)).map ac.translateTable).length ≤ i + 1 := by
        simp
      omega
    obtain ⟨dd2, hp, hrel2⟩ := procIds_sim S us text i
      (ac.outputTable.getD (reachC tb ((text.take (i + 1)).map ac.translateTable)) [])
      dd m acc hidsOK hrel
    simp only [searchLoopC, specLoop]
    rw [hstep.2, hcs2]
    simp only [hp]
    rw [ih (i + 1) (reachC tb ((text.take (i + 1)).map ac.translateTable)) dd2
      (specProc ac.patterns text i
        (ac.outputTable.getD (reachC tb ((text.take (i + 1)).map ac.translateTable)) []) m).1
      (acc ++ (specProc ac.patterns text i
        (ac.outputTable.getD (reachC tb ((text.take (i + 1)).map ac.translateTable)) []) m).2)
      hrem2 (by omega) rfl hrel2]
    simp

/-- `searchPatterns`' collected trace equals the abstract trace, for either
dedup structure. -/
theorem search_sim {ac : ACKS} {tb : TrieB} (S : SimOK ac tb)
    (us : Bool) (text : List Nat) :
    searchCallsWith ac us text = some (specEvents ac text) := by
  unfold searchCallsWith specEvents
  have hrel0 : Rel ac us
      (if ac.hasSingleMatch then
        if us then (List.replicate (ac.maxID / 64 + 1) 0, []) else ([], [])
      else ([], [])) [] := by
    intro hsm
    rw [hsm]
    refine ⟨by simp, ?_, ?_⟩
    · intro husl
      rw [if_pos rfl, husl, if_pos rfl]
      constructor
      · simp
      · intro j
        show Nat.testBit ((List.replicate (ac.maxID / 64 + 1) 0).getD (j / 64) 0) (j % 64)
            = true ↔ _
        rw [getD_replicate_zero]
        simp
    · intro husl
      rw [if_pos rfl, husl]
      simp
  have h0 : (0 : Nat) = reachC tb ((text.take 0).map ac.translateTable) := by
    rw [List.take_zero, List.map_nil, reachC_nil]
  have hmain := searchLoop_sim S us text text 0 0
    (if ac.hasSingleMatch then
      if us then (List.replicate (ac.maxID / 64 + 1) 0, []) else ([], [])
    else ([], [])) [] [] (by rw [List.drop_zero]) (by omega) h0 hrel0
  rw [List.nil_append] at hmain
  exact hmain

theorem procIdsC_acc (ac : ACKS) (us : Bool) (text : List Nat) (i : Nat) :
    ∀ (ids : List Nat) (dd : List Nat × List Nat) (acc : List (Nat × Nat)),
      procIdsC ac us text i ids dd acc
        = (procIdsC ac us text i ids dd []).map (fun r => (r.1, acc ++ r.2)) := by
  intro ids
  induction ids with
  | nil =>
    intro dd acc
    simp [procIdsC]
  | cons k ids ih =>
    intro dd acc
    simp only [procIdsC]
    rcases hdd : dedupStep us (ac.patterns.getD k dfltPat) dd with _ | dd2
    · simp only [hdd]
      exact ih dd acc
    · simp only [hdd]
      by_cases hcl : ((ac.patterns.getD k dfltPat).flags &&& Caseless) ≠ 0
      · rw [if_pos hcl, if_pos hcl]
        rw [ih dd2 (acc ++ [(i + 1, k)]), ih dd2 ([] ++ [(i + 1, k)])]
        cases hres : procIdsC ac us text i ids dd2 [] <;> simp
      · rw [if_neg hcl, if_neg hcl]
        by_cases hnp : i + 1 < (ac.patterns.getD k dfltPat).strlen
        · rw [if_pos hnp, if_pos hnp]
          rfl
        · rw [if_neg hnp, if_neg hnp]
          by_cases hm : memcmp (ac.patterns.getD k dfltPat).content
              (text.drop (i + 1 - (ac.patterns.getD k dfltPat).strlen))
              (ac.patterns.getD k dfltPat).strlen = true
          · rw [if_pos hm, if_pos hm]
            rw [ih dd2 (acc ++ [(i + 1, k)]), ih dd2 ([] ++ [(i + 1, k)])]
            cases hres : procIdsC ac us text i ids dd2 [] <;> simp
          · rw [if_neg hm, if_neg hm]
            exact ih dd2 acc

theorem searchLoopC_acc (ac : ACKS) (us : Bool) (text : List Nat) :
    ∀ (rem : List Nat) (i cur : Nat) (dd : List Nat × List Nat) (acc : List (Nat × Nat)),
      searchLoopC ac us text rem i cur dd acc
        = (searchLoopC ac us text rem i cur dd []).map (fun evs => acc ++ evs) := by
  intro rem
  induction rem with
  | nil =>
    intro i cur dd acc
    simp [searchLoopC]
  | cons b rem2 ih =>
    intro i cur dd acc
    simp only [searchLoopC]
    rw [procIdsC_acc ac us text i _ dd acc]
    rcases hres : procIdsC ac us text i
        (ac.outputTable.getD
          (if ac.stateTable.length ≤ cur * ac.alphabetSize + ac.translateTable b then 0
            else ac.stateTable.getD (cur * ac.alphabetSize + ac.translateTable b) 0) [])
        dd [] with _ | r
    · rfl
    · simp only [Option.map_some']
      rw [ih (i + 1) _ r.1 (acc ++ r.2), ih (i + 1) _ r.1 r.2]
      cases hres2 : searchLoopC ac us text rem2 (i + 1)
          (if ac.stateTable.length ≤ cur * ac.alphabetSize + ac.translateTable b then 0
            else ac.stateTable.getD (cur * ac.alphabetSize + ac.translateTable b) 0) r.1 []
        <;> simp

theorem runMatched_append {σ E : Type} (matched : σ → Nat → Pattern → σ × Option E) :
    ∀ (xs ys : List (Nat × Pattern)) (s : σ),
      runMatched matched s (xs ++ ys)
        = (match runMatched matched s xs with
            | (s2, some e) => (s2, some e)
            | (s2, none) => runMatched matched s2 ys) := by
  intro xs
  induction xs with
  | nil =>
    intro ys s
    simp [runMatched]
  | cons x xs ih =>
    intro ys s
    rw [List.cons_append]
    show (match matched s x.1 x.2 with
      | (s2, none) => runMatched matched s2 (xs ++ ys)
      | (s2, some e) => (s2, some e)) = _
    rcases hm : matched s x.1 x.2 with ⟨s2, _ | e⟩
    · simp only [runMatched, hm]
      exact ih ys s2
    · simp only [runMatched, hm]

theorem procIds_ME {σ E : Type} (ac : ACKS) (us : Bool) (text : List Nat) (i : Nat)
    (matched : σ → Nat → Pattern → σ × Option E) :
    ∀ (ids : List Nat) (dd dd2 : List Nat × List Nat) (s : σ) (evs : List (Nat × Nat)),
      procIdsC ac us text i ids dd [] = some (dd2, evs) →
      ∃ ddM : List Nat × List Nat,
        procIdsM ac us text i matched ids dd s
          = some (ddM, runMatched matched s
              (evs.map (fun e => (e.1, ac.patterns.getD e.2 dfltPat))))
        ∧ ((runMatched matched s
            (evs.map (fun e => (e.1, ac.patterns.getD e.2 dfltPat)))).2 = none → ddM = dd2) := by
  intro ids
  induction ids with
  | nil =>
    intro dd dd2 s evs hC
    simp only [procIdsC, Option.some.injEq, Prod.mk.injEq] at hC
    refine ⟨dd, ?_, ?_⟩
    · rw [← hC.2, List.map_nil]
      rfl
    · intro _
      exact hC.1
  | cons k ids ih =>
    intro dd dd2 s evs hC
    simp only [procIdsC] at hC
    rcases hdd : dedupStep us (ac.patterns.getD k dfltPat) dd with _ | ddA
    all_goals simp only [hdd] at hC
    · simp only [procIdsM, hdd]
      exact ih dd dd2 s evs hC
    · simp only [procIdsM, hdd]
      by_cases hcl : ((ac.patterns.getD k dfltPat).flags &&& Caseless) ≠ 0
      · rw [if_pos hcl] at hC ⊢
        rw [procIdsC_acc ac us text i ids ddA] at hC
        rcases hin : procIdsC ac us text i ids ddA [] with _ | r
        all_goals rw [hin] at hC
        · exact Option.noConfusion hC
        · simp only [Option.map_some', Option.some.injEq, Prod.mk.injEq] at hC
          obtain ⟨hdd2, hevs⟩ := hC
          rw [← hevs, List.nil_append, List.singleton_append, List.map_cons]
          rcases hm : matched s (i + 1) (ac.patterns.getD k dfltPat) with ⟨s2, e2⟩
          have hrm : runMatched matched s
              ((i + 1, ac.patterns.getD k dfltPat)
                :: r.2.map (fun e => (e.1, ac.patterns.getD e.2 dfltPat)))
              = (match (s2, e2) with
                  | (s2, none) => runMatched matched s2
                      (r.2.map (fun e => (e.1, ac.patterns.getD e.2 dfltPat)))
                  | (s2, some e) => (s2, some e)) := by
            rw [← hm]
            rfl
          cases e2 with
          | none =>
            obtain ⟨ddM, hM, himp⟩ := ih ddA r.1 s2 r.2 hin
            refine ⟨ddM, ?_, ?_⟩
            · rw [hrm]
              exact hM
            · intro hnone
              rw [hrm] at hnone
              rw [himp hnone, hdd2]
          | some e =>
            refine ⟨ddA, ?_, ?_⟩
            · rw [hrm]
            · intro hnone
              rw [hrm] at hnone
              exact Option.noConfusion hnone
      · rw [if_neg hcl] at hC ⊢
        by_cases hnp : i + 1 < (ac.patterns.getD k dfltPat).strlen
        · rw [if_pos hnp] at hC
          exact Option.noConfusion hC
        · rw [if_neg hnp] at hC ⊢
          by_cases hmc : memcmp (ac.patterns.getD k dfltPat).content
              (text.drop (i + 1 - (ac.patterns.getD k dfltPat).strlen))
              (ac.patterns.getD k dfltPat).strlen = true
          · rw [if_pos hmc] at hC ⊢
            rw [procIdsC_acc ac us text i ids ddA] at hC
            rcases hin : procIdsC ac us text i ids ddA [] with _ | r
            all_goals rw [hin] at hC
            · exact Option.noConfusion hC
            · simp only [Option.map_some', Option.some.injEq, Prod.mk.injEq] at hC
              obtain ⟨hdd2, hevs⟩ := hC
              rw [← hevs, List.nil_append, List.singleton_append, List.map_cons]
              rcases hm : matched s (i + 1) (ac.patterns.getD k dfltPat) with ⟨s2, e2⟩
              have hrm : runMatched matched s
                  ((i + 1, ac.patterns.getD k dfltPat)
                    :: r.2.map (fun e => (e.1, ac.patterns.getD e.2 dfltPat)))
                  = (match (s2, e2) with
                      | (s2, none) => runMatched matched s2
                          (r.2.map (fun e => (e.1, ac.patterns.getD e.2 dfltPat)))
                      | (s2, some e) => (s2, some e)) := by
                rw [← hm]
                rfl
              cases e2 with
              | none =>
                obtain ⟨ddM, hM, himp⟩ := ih ddA r.1 s2 r.2 hin
                refine ⟨ddM, ?_, ?_⟩
                · rw [hrm]
                  exact hM
                · intro hnone
                  rw [hrm] at hnone
                  rw [himp hnone, hdd2]
              | some e =>
                refine ⟨ddA, ?_, ?_⟩
                · rw [hrm]
                · intro hnone
                  rw [hrm] at hnone
                  exact Option.noConfusion hnone
          · rw [if_neg hmc] at hC ⊢
            exact ih ddA dd2 s evs hC

theorem searchLoop_ME {σ E : Type} (ac : ACKS) (us : Bool) (text : List Nat)
    (matched : σ → Nat → Pattern → σ × Option E) :
    ∀ (rem : List Nat) (i cur : Nat) (dd : List Nat × List Nat) (s : σ)
      (evs : List (Nat × Nat)),
      searchLoopC ac us text rem i cur dd [] = some evs →
      searchLoopM ac us text matched rem i cur dd s
        = some (runMatched matched s
            (evs.map (fun e => (e.1, ac.patterns.getD e.2 dfltPat)))) := by
  intro rem
  induction rem with
  | nil =>
    intro i cur dd s evs hC
    simp only [searchLoopC, Option.some.injEq] at hC
    rw [← hC]
    rfl
  | cons b rem2 ih =>
    intro i cur dd s evs hC
    simp only [searchLoopC] at hC
    simp only [searchLoopM]
    rcases hres : procIdsC ac us text i
        (ac.outputTable.getD
          (if ac.stateTable.length ≤ cur * ac.alphabetSize + ac.translateTable b then 0
            else ac.stateTable.getD (cur * ac.alphabetSize + ac.translateTable b) 0) [])
        dd [] with _ | r
    all_goals simp only [hres] at hC
    · exact Option.noConfusion hC
    · rw [searchLoopC_acc ac us text rem2 (i + 1) _ r.1 r.2] at hC
      rcases hin : searchLoopC ac us text rem2 (i + 1)
          (if ac.stateTable.length ≤ cur * ac.alphabetSize + ac.translateTable b then 0
            else ac.stateTable.getD (cur * ac.alphabetSize + ac.translateTable b) 0)
          r.1 [] with _ | evs2
      all_goals rw [hin] at hC
      · exact Option.noConfusion hC
      · simp only [Option.map_some', Option.some.injEq] at hC
        obtain ⟨ddM, hM, himp⟩ := procIds_ME ac us text i matched
          (ac.outputTable.getD
            (if ac.stateTable.length ≤ cur * ac.alphabetSize + ac.translateTable b then 0
              else ac.stateTable.getD (cur * ac.alphabetSize + ac.translateTable b) 0) [])
          dd r.1 s r.2 (by rw [hres])
        rw [← hC, List.map_append, runMatched_append]
        rcases hrm : runMatched matched s
            (r.2.map (fun e => (e.1, ac.patterns.getD e.2 dfltPat))) with ⟨s2, err⟩
        rw [hrm] at hM
        simp only [hM]
        rw [hrm]
        cases err with
        | some e =>
          rfl
        | none =>
          have hddM : ddM = r.1 := himp (by rw [hrm])
          rw [hddM]
          exact ih (i + 1) _ r.1 s2 evs2 hin

/-- `searchPatterns` factors through the collected invocation trace. -/
theorem searchPatterns_runs {σ E : Type} (ac : ACKS) (text : List Nat)
    (matched : σ → Nat → Pattern → σ × Option E) (s0 : σ) (evs : List (Nat × Nat))
    (hC : searchCalls ac text = some evs) :
    searchPatterns ac text matched s0
      = some (runMatched matched s0
          (evs.map (fun e => (e.1, ac.patterns.getD e.2 dfltPat)))) := by
  unfold searchCalls searchCallsWith at hC
  unfold searchPatterns
  exact searchLoop_ME ac (decide (ac.maxID ≤ 16 * 1024 * 1024)) text matched text 0 0 _ s0 evs hC

theorem guardHit_false {ac : ACKS} {tb : TrieB} (S : SimOK ac tb) (text : List Nat) :
    ∀ (rem : List Nat) (i cur : Nat),
      rem = text.drop i → i ≤ text.length →
      cur = reachC tb ((text.take i).map ac.translateTable) →
      guardHit ac rem cur = false := by
  intro rem
  induction rem with
  | nil =>
    intro i cur _ _ _
    rfl
  | cons b rem2 ih =>
    intro i cur hrem hi hcur
    subst hcur
    have hlt : i < text.length := by
      by_contra hcon
      have hnil : text.drop i = [] := List.drop_eq_nil_of_le (by omega)
      rw [hnil] at hrem
      exact List.noConfusion hrem
    have hdg := List.drop_eq_getElem_cons hlt
    rw [hdg] at hrem
    have hb : b = text[i] := (List.cons.injEq _ _ _ _ ▸ hrem).1
    have hrem2 : rem2 = text.drop (i + 1) := (List.cons.injEq _ _ _ _ ▸ hrem).2
    have hcs2 : ((text.take i).map ac.translateTable) ++ [ac.translateTable b]
        = (text.take (i + 1)).map ac.translateTable := by
      rw [List.take_succ, List.map_append]
      have hget : text[i]? = some text[i] := List.getElem?_eq_getElem hlt
      rw [hget, hb]
      rfl
    have hstep := stepState S S.htc ((text.take i).map ac.translateTable) b
    have hnext : ac.stateTable.getD
          (reachC tb ((text.take i).map ac.translateTable) * ac.alphabetSize
            + ac.translateTable b) 0
        = reachC tb ((text.take (i + 1)).map ac.translateTable) := by
      rw [← hcs2, ← hstep.2, if_neg hstep.1]
    simp only [guardHit]
    rw [if_neg hstep.1, hnext]
    exact ih (i + 1) _ hrem2 (by omega) rfl

/-!  ## Per-position characterization of reported patterns -/

/-- The re-verification test applied to pattern `k` at end position `i`
(the `fire` branch of the reporting loop). -/
def fireB (ps : List Pattern) (text : List Nat) (i k : Nat) : Bool :=
  if ((ps.getD k dfltPat).flags &&& Caseless) ≠ 0 then true
  else memcmp (ps.getD k dfltPat).content
    (text.drop (i + 1 - (ps.getD k dfltPat).strlen)) (ps.getD k dfltPat).strlen

theorem codeP_eq_map_ttF {ac : ACKS} (htt : ∀ b, ac.translateTable b = ttF ac.patterns b)
    (content : List Nat) :
    codeP ac.translateTable content = content.map (ttF ac.patterns) := by
  unfold codeP
  apply List.map_congr_left
  intro a _
  rw [htt, ttF_toLower]

theorem map_tt_eq_map_ttF {ac : ACKS} (htt : ∀ b, ac.translateTable b = ttF ac.patterns b)
    (l : List Nat) :
    l.map ac.translateTable = l.map (ttF ac.patterns) :=
  List.map_congr_left (fun a _ => htt a)

/-- Pattern `k` is in the live output set after byte `i` and passes the
re-verification exactly when its accepted occurrence notion holds at `i`. -/
theorem memFire_iff {ac : ACKS} {tb : TrieB} (G : GoodAC ac tb)
    {k : Nat} (hk : k < ac.patterns.length)
    (hwf : wfBytes (ac.patterns.getD k dfltPat))
    (hne : (ac.patterns.getD k dfltPat).content ≠ [])
    {text : List Nat} {i : Nat} (hi : i < text.length) :
    (k ∈ ac.outputTable.getD
        (reachC tb ((text.take (i + 1)).map ac.translateTable)) []
      ∧ fireB ac.patterns text i k = true)
    ↔ acceptedEnd (ac.patterns.getD k dfltPat) text i := by
  have hmem : ac.patterns.getD k dfltPat ∈ ac.patterns :=
    getD_mem_of_lt ac.patterns k dfltPat hk
  have hused : ∀ a ∈ (ac.patterns.getD k dfltPat).content, 0 < ttF ac.patterns a :=
    fun a ha => ttF_pos_of_mem hmem ha (hwf a ha)
  have hrl : reachC tb ((text.take (i + 1)).map ac.translateTable) < tb.stateCount :=
    reachC_lt G.sm.hI _
  have houteq : ac.outputTable.getD
      (reachC tb ((text.take (i + 1)).map ac.translateTable)) []
      = outFu ac.translateTable ac.patterns tb.edges
          (lsuf tb.edges ((text.take (i + 1)).map ac.translateTable)) := by
    rw [G.sm.hout _ hrl, path_reachC G.sm.hI]
  have hcs2len : ((text.take (i + 1)).map ac.translateTable).length = i + 1 := by
    rw [List.length_map, List.length_take]
    omega
  have key1 : k ∈ ac.outputTable.getD
      (reachC tb ((text.take (i + 1)).map ac.translateTable)) []
      ↔ codeP ac.translateTable ((ac.patterns.getD k dfltPat).content)
          <:+ (text.take (i + 1)).map ac.translateTable := by
    constructor
    · intro hin
      rw [houteq] at hin
      exact ((mem_outFu_lsuf_iff G.sm.hI ac.translateTable ac.patterns
        ((text.take (i + 1)).map ac.translateTable) k).1 hin).2
    · intro hsfx
      have hkw : (walk tb.edges 0
          (codeP ac.translateTable ((ac.patterns.getD k dfltPat).content))).isSome :=
        G.sm.hOK.domC _ hmem _ (List.prefix_refl _)
      have hne2 : codeP ac.translateTable ((ac.patterns.getD k dfltPat).content) ≠ [] := by
        unfold codeP
        simpa using hne
      rw [houteq]
      exact (mem_outFu_lsuf_iff G.sm.hI ac.translateTable ac.patterns
        ((text.take (i + 1)).map ac.translateTable) k).2 hk hne2 hsfx hkw
  have key2 : (codeP ac.translateTable ((ac.patterns.getD k dfltPat).content)
        <:+ (text.take (i + 1)).map ac.translateTable)
      ↔ ((ac.patterns.getD k dfltPat).content.map toLower
          <:+ (text.take (i + 1)).map toLower) := by
    rw [codeP_eq_map_ttF G.htt, map_tt_eq_map_ttF G.htt]
    exact suffix_codes_iff_fold ac.patterns hused
  have hstrl : (ac.patterns.getD k dfltPat).strlen
      = (ac.patterns.getD k dfltPat).content.length := G.hstrlen _ hmem
  unfold acceptedEnd fireB
  by_cases hcl : ((ac.patterns.getD k dfltPat).flags &&& Caseless) ≠ 0
  · rw [if_pos hcl, if_pos hcl]
    constructor
    · intro h
      exact ⟨hi, key2.1 (key1.1 h.1)⟩
    · intro h
      exact ⟨key1.2 (key2.2 h.2), rfl⟩
  · rw [if_neg hcl, if_neg hcl]
    constructor
    · rintro ⟨hin, hfi⟩
      have hsfx := key1.1 hin
      have hlen : (ac.patterns.getD k dfltPat).content.length ≤ i + 1 := by
        have h1 := hsfx.length_le
        unfold codeP at h1
        rw [List.length_map, hcs2len] at h1
        exact h1
      rw [hstrl] at hfi
      exact ⟨hi, (memcmp_endsAt hi hlen).1 hfi⟩
    · rintro ⟨_, hsfx⟩
      have hlen : (ac.patterns.getD k dfltPat).content.length ≤ i + 1 := by
        have h1 := hsfx.length_le
        rw [List.length_take] at h1
        omega
      refine ⟨?_, ?_⟩
      · refine key1.2 (key2.2 ?_)
        exact hsfx.map toLower
      · rw [hstrl]
        exact (memcmp_endsAt hi hlen).2 hsfx

/-- One output-set pass produces exactly one event for a non-ReportOnce
pattern `k` when `k` is live and fires, and none otherwise. -/
theorem specProc_filter (ps : List Pattern) (text : List Nat) (i k : Nat)
    (hksm : ((ps.getD k dfltPat).flags &&& SingleMatch) = 0) :
    ∀ (ids m : List Nat), ids.Nodup →
      ((specProc ps text i ids m).2).filter (fun e => e.2 == k)
        = if k ∈ ids ∧ fireB ps text i k = true then [(i + 1, k)] else [] := by
  intro ids
  induction ids with
  | nil =>
    intro m _
    simp [specProc]
  | cons q ids ih =>
    intro m hnd
    have hndt : ids.Nodup := hnd.of_cons
    have hqni : q ∉ ids := by
      rw [List.nodup_cons] at hnd
      exact hnd.1
    simp only [specProc]
    by_cases hskip : ((ps.getD q dfltPat).flags &&& SingleMatch) ≠ 0
        ∧ (ps.getD q dfltPat).id ∈ m
    · rw [if_pos hskip]
      have hqk : q ≠ k := by
        intro h
        subst h
        exact hskip.1 hksm
      rw [ih m hndt]
      by_cases hin : k ∈ ids ∧ fireB ps text i k = true
      · rw [if_pos hin, if_pos ⟨List.mem_cons_of_mem q hin.1, hin.2⟩]
      · rw [if_neg hin, if_neg ?_]
        intro hcon
        rcases List.mem_cons.1 hcon.1 with h | h
        · exact hqk h.symm
        · exact hin ⟨h, hcon.2⟩
    · rw [if_neg hskip]
      rw [List.filter_append]
      rw [ih _ hndt]
      by_cases hqk : q = k
      · subst hqk
        by_cases hf : fireB ps text i q = true
        · have hfi : (if ((ps.getD q dfltPat).flags &&& Caseless) ≠ 0 then true
              else memcmp (ps.getD q dfltPat).content
                (text.drop (i + 1 - (ps.getD q dfltPat).strlen))
                (ps.getD q dfltPat).strlen) = true := hf
          rw [hfi, if_pos rfl]
          rw [if_neg (fun hcon => hqni hcon.1)]
          rw [if_pos ⟨List.mem_cons_self q ids, hf⟩]
          simp
        · have hfi : (if ((ps.getD q dfltPat).flags &&& Caseless) ≠ 0 then true
              else memcmp (ps.getD q dfltPat).content
                (text.drop (i + 1 - (ps.getD q dfltPat).strlen))
                (ps.getD q dfltPat).strlen) = false := by
            rw [← Bool.not_eq_true]
            exact hf
          rw [hfi]
          rw [if_neg (fun hcon => Bool.false_ne_true hcon)]
          rw [if_neg (fun hcon => hf hcon.2), if_neg (fun hcon => hf hcon.2)]
          simp
      · have hhead : (List.filter (fun e => e.2 == k)
            (if (if ((ps.getD q dfltPat).flags &&& Caseless) ≠ 0 then true
              else memcmp (ps.getD q dfltPat).content
                (text.drop (i + 1 - (ps.getD q dfltPat).strlen))
                (ps.getD q dfltPat).strlen) = true then [(i + 1, q)] else [])) = [] := by
          by_cases hfq : (if ((ps.getD q dfltPat).flags &&& Caseless) ≠ 0 then true
              else memcmp (ps.getD q dfltPat).content
                (text.drop (i + 1 - (ps.getD q dfltPat).strlen))
                (ps.getD q dfltPat).strlen) = true
          · rw [if_pos hfq]
            have : ((i + 1, q).2 == k) = false := by
              simp [hqk]
            simp [List.filter, this]
          · rw [if_neg hfq]
            rfl
        rw [hhead, List.nil_append]
        by_cases hin : k ∈ ids ∧ fireB ps text i k = true
        · rw [if_pos hin, if_pos ⟨List.mem_cons_of_mem q hin.1, hin.2⟩]
        · rw [if_neg hin, if_neg ?_]
          intro hcon
          rcases List.mem_cons.1 hcon.1 with h | h
          · exact hqk h.symm
          · exact hin ⟨h, hcon.2⟩

/-- Loop-level event characterization for a non-ReportOnce pattern `k`:
exactly one event per accepted end position. -/
theorem specLoop_filter {ac : ACKS} {tb : TrieB} (G : GoodAC ac tb)
    {k : Nat} (hk : k < ac.patterns.length)
    (hksm : ((ac.patterns.getD k dfltPat).flags &&& SingleMatch) = 0)
    (hwf : wfBytes (ac.patterns.getD k dfltPat))
    (hne : (ac.patterns.getD k dfltPat).content ≠ [])
    (text : List Nat) :
    ∀ (rem : List Nat) (i cur : Nat) (m : List Nat),
      rem = text.drop i → i ≤ text.length →
      cur = reachC tb ((text.take i).map ac.translateTable) →
      (specLoop ac text rem i cur m).filter (fun e => e.2 == k)
        = ((List.range' i rem.length).filter
            (fun j => decide (acceptedEnd (ac.patterns.getD k dfltPat) text j))).map
            (fun j => (j + 1, k)) := by
  intro rem
  induction rem with
  | nil =>
    intro i cur m _ _ _
    simp [specLoop]
  | cons b rem2 ih =>
    intro i cur m hrem hi hcur
    subst hcur
    have hlt : i < text.length := by
      by_contra hcon
      have hnil : text.drop i = [] := List.drop_eq_nil_of_le (by omega)
      rw [hnil] at hrem
      exact List.noConfusion hrem
    have hdg := List.drop_eq_getElem_cons hlt
    rw [hdg] at hrem
    have hb : b = text[i] := (List.cons.injEq _ _ _ _ ▸ hrem).1
    have hrem2 : rem2 = text.drop (i + 1) := (List.cons.injEq _ _ _ _ ▸ hrem).2
    have hcs2 : ((text.take i).map ac.translateTable) ++ [ac.translateTable b]
        = (text.take (i + 1)).map ac.translateTable := by
      rw [List.take_succ, List.map_append]
      have hget : text[i]? = some text[i] := List.getElem?_eq_getElem hlt
      rw [hget, hb]
      rfl
    have hstep := stepState G.toSim G.toSim.htc ((text.take i).map ac.translateTable) b
    have hndout : (ac.outputTable.getD
        (reachC tb ((text.take (i + 1)).map ac.translateTable)) []).Nodup := by
      have hrl : reachC tb ((text.take (i + 1)).map ac.translateTable) < tb.stateCount :=
        reachC_lt G.sm.hI _
      rw [G.sm.hout _ hrl, path_reachC G.sm.hI]
      exact outFu_nodup G.sm.hI ac.translateTable ac.patterns (lsuf_isSome _ _)
    simp only [specLoop]
    rw [hstep.2, hcs2]
    rw [List.filter_append]
    rw [specProc_filter ac.patterns text i k hksm _ m hndout]
    rw [ih (i + 1) _ _ hrem2 (by omega) rfl]
    have hrng : List.range' i (b :: rem2).length = i :: List.range' (i + 1) rem2.length := by
      rw [List.length_cons]
      exact List.range'_succ i rem2.length 1
    rw [hrng, List.filter_cons]
    by_cases hae : acceptedEnd (ac.patterns.getD k dfltPat) text i
    · have hmf := (memFire_iff G hk hwf hne hlt).2 hae
      rw [if_pos hmf]
      rw [if_pos (by simpa using hae)]
      simp
    · have hmf : ¬(k ∈ ac.outputTable.getD
          (reachC tb ((text.take (i + 1)).map ac.translateTable)) []
          ∧ fireB ac.patterns text i k = true) := by
        intro hcon
        exact hae ((memFire_iff G hk hwf hne hlt).1 hcon)
      rw [if_neg hmf]
      rw [if_neg (by simpa using hae)]
      simp

/-- Event characterization on the abstract trace. -/
theorem specEvents_filter {ac : ACKS} {tb : TrieB} (G : GoodAC ac tb)
    {k : Nat} (hk : k < ac.patterns.length)
    (hksm : ((ac.patterns.getD k dfltPat).flags &&& SingleMatch) = 0)
    (hwf : wfBytes (ac.patterns.getD k dfltPat))
    (hne : (ac.patterns.getD k dfltPat).content ≠ [])
    (text : List Nat) :
    (specEvents ac text).filter (fun e => e.2 == k)
      = ((List.range text.length).filter
          (fun j => decide (acceptedEnd (ac.patterns.getD k dfltPat) text j))).map
          (fun j => (j + 1, k)) := by
  unfold specEvents
  have h0 : (0 : Nat) = reachC tb ((text.take 0).map ac.translateTable) := by
    rw [List.take_zero, List.map_nil, reachC_nil]
  rw [specLoop_filter G hk hksm hwf hne text text 0 0 [] (by rw [List.drop_zero])
    (by omega) h0]
  rw [List.range_eq_range']

/-- Every event of one output-set pass reports a live, firing pattern at
the current position. -/
theorem specProc_sound (ps : List Pattern) (text : List Nat) (i : Nat) :
    ∀ (ids m : List Nat), ∀ e ∈ (specProc ps text i ids m).2,
      e.1 = i + 1 ∧ e.2 ∈ ids ∧ fireB ps text i e.2 = true := by
  intro ids
  induction ids with
  | nil =>
    intro m e he
    simp [specProc] at he
  | cons q ids ih =>
    intro m e he
    simp only [specProc] at he
    by_cases hskip : ((ps.getD q dfltPat).flags &&& SingleMatch) ≠ 0
        ∧ (ps.getD q dfltPat).id ∈ m
    · rw [if_pos hskip] at he
      obtain ⟨h1, h2, h3⟩ := ih m e he
      exact ⟨h1, List.mem_cons_of_mem q h2, h3⟩
    · rw [if_neg hskip] at he
      rcases List.mem_append.1 he with h1 | h1
      · by_cases hf : (if ((ps.getD q dfltPat).flags &&& Caseless) ≠ 0 then true
            else memcmp (ps.getD q dfltPat).content
              (text.drop (i + 1 - (ps.getD q dfltPat).strlen))
              (ps.getD q dfltPat).strlen) = true
        · rw [if_pos hf] at h1
          rw [List.mem_singleton] at h1
          subst h1
          exact ⟨rfl, List.mem_cons_self q ids, hf⟩
        · rw [if_neg hf] at h1
          exact absurd h1 (List.not_mem_nil e)
      · obtain ⟨h1, h2, h3⟩ := ih _ e h1
        exact ⟨h1, List.mem_cons_of_mem q h2, h3⟩

/-- Every event of the abstract trace reports a live, firing pattern at
some position of the text. -/
theorem specLoop_sound {ac : ACKS} {tb : TrieB} (S : SimOK ac tb) (text : List Nat) :
    ∀ (rem : List Nat) (i cur : Nat) (m : List Nat),
      rem = text.drop i → i ≤ text.length →
      cur = reachC tb ((text.take i).map ac.translateTable) →
      ∀ e ∈ specLoop ac text rem i cur m,
        ∃ j, e.1 = j + 1 ∧ i ≤ j ∧ j < text.length ∧ e.2 < ac.patterns.length
          ∧ e.2 ∈ ac.outputTable.getD
              (reachC tb ((text.take (j + 1)).map ac.translateTable)) []
          ∧ fireB ac.patterns text j e.2 = true := by
  intro rem
  induction rem with
  | nil =>
    intro i cur m _ _ _ e he
    simp [specLoop] at he
  | cons b rem2 ih =>
    intro i cur m hrem hi hcur e he
    subst hcur
    have hlt : i < text.length := by
      by_contra hcon
      have hnil : text.drop i = [] := List.drop_eq_nil_of_le (by omega)
      rw [hnil] at hrem
      exact List.noConfusion hrem
    have hdg := List.drop_eq_getElem_cons hlt
    rw [hdg] at hrem
    have hb : b = text[i] := (List.cons.injEq _ _ _ _ ▸ hrem).1
    have hrem2 : rem2 = text.drop (i + 1) := (List.cons.injEq _ _ _ _ ▸ hrem).2
    have hcs2 : ((text.take i).map ac.translateTable) ++ [ac.translateTable b]
        = (text.take (i + 1)).map ac.translateTable := by
      rw [List.take_succ, List.map_append]
      have hget : text[i]? = some text[i] := List.getElem?_eq_getElem hlt
      rw [hget, hb]
      rfl
    have hstep := stepState S S.htc ((text.take i).map ac.translateTable) b
    simp only [specLoop] at he
    rw [hstep.2, hcs2] at he
    rcases List.mem_append.1 he with h1 | h1
    · obtain ⟨hp1, hp2, hp3⟩ := specProc_sound ac.patterns text i _ m e h1
      refine ⟨i, hp1, Nat.le_refl i, hlt, (S.houtD _ e.2 hp2).1, hp2, hp3⟩
    · obtain ⟨j, hj⟩ := ih (i + 1) _ _ hrem2 (by omega) rfl e h1
      exact ⟨j, hj.1, by omega, hj.2.2.1, hj.2.2.2.1, hj.2.2.2.2⟩

/-- Trace-level soundness: every event ends an accepted occurrence. -/
theorem specEvents_sound {ac : ACKS} {tb : TrieB} (G : GoodAC ac tb)
    (hall : ∀ p ∈ ac.patterns, wfBytes p ∧ p.content ≠ []) (text : List Nat) :
    ∀ e ∈ specEvents ac text,
      ∃ j, e.1 = j + 1 ∧ j < text.length ∧ e.2 < ac.patterns.length
        ∧ acceptedEnd (ac.patterns.getD e.2 dfltPat) text j := by
  intro e he
  have h0 : (0 : Nat) = reachC tb ((text.take 0).map ac.translateTable) := by
    rw [List.take_zero, List.map_nil, reachC_nil]
  obtain ⟨j, h1, _, h3, h4, h5, h6⟩ := specLoop_sound G.toSim text text 0 0 []
    (by rw [List.drop_zero]) (by omega) h0 e he
  have hpm : ac.patterns.getD e.2 dfltPat ∈ ac.patterns :=
    getD_mem_of_lt ac.patterns e.2 dfltPat h4
  exact ⟨j, h1, h3, h4,
    (memFire_iff G h4 (hall _ hpm).1 (hall _ hpm).2 h3).1 ⟨h5, h6⟩⟩

/-- Dedup predicate: the event reports a ReportOnce pattern with external
id `x`. -/
def smIdP (ps : List Pattern) (x : Nat) (e : Nat × Nat) : Bool :=
  decide ((((ps.getD e.2 dfltPat).flags &&& SingleMatch) ≠ 0)
    ∧ (ps.getD e.2 dfltPat).id = x)

theorem specProc_sm (ps : List Pattern) (text : List Nat) (i x : Nat) :
    ∀ (ids m : List Nat),
      ((specProc ps text i ids m).2.countP (smIdP ps x)
        ≤ if x ∈ m then 0 else 1)
      ∧ ((x ∈ m ∨ 1 ≤ (specProc ps text i ids m).2.countP (smIdP ps x))
        → x ∈ (specProc ps text i ids m).1) := by
  intro ids
  induction ids with
  | nil =>
    intro m
    have h0 : (specProc ps text i [] m).2.countP (smIdP ps x) = 0 := by
      simp [specProc]
    constructor
    · rw [h0]
      split <;> omega
    · intro h
      rcases h with h | h
      · exact h
      · rw [h0] at h
        exact absurd h (by omega)
  | cons q ids ih =>
    intro m
    simp only [specProc]
    by_cases hskip : ((ps.getD q dfltPat).flags &&& SingleMatch) ≠ 0
        ∧ (ps.getD q dfltPat).id ∈ m
    · rw [if_pos hskip]
      exact ih m
    · rw [if_neg hskip]
      by_cases hsx : ((ps.getD q dfltPat).flags &&& SingleMatch) ≠ 0
          ∧ (ps.getD q dfltPat).id = x
      · have hxm : x ∉ m := by
          intro hcon
          exact hskip ⟨hsx.1, hsx.2 ▸ hcon⟩
        have hm2 : x ∈ (if ((ps.getD q dfltPat).flags &&& SingleMatch) ≠ 0
            then m ++ [(ps.getD q dfltPat).id] else m) := by
          rw [if_pos hsx.1, List.mem_append, List.mem_singleton]
          exact Or.inr hsx.2.symm
        have hrec := ih (if ((ps.getD q dfltPat).flags &&& SingleMatch) ≠ 0
            then m ++ [(ps.getD q dfltPat).id] else m)
        have hr0 : (specProc ps text i ids
            (if ((ps.getD q dfltPat).flags &&& SingleMatch) ≠ 0
              then m ++ [(ps.getD q dfltPat).id] else m)).2.countP (smIdP ps x) = 0 := by
          have := hrec.1
          rw [if_pos hm2] at this
          omega
        constructor
        · rw [List.countP_append, hr0, if_neg hxm]
          by_cases hf : (if ((ps.getD q dfltPat).flags &&& Caseless) ≠ 0 then true
              else memcmp (ps.getD q dfltPat).content
                (text.drop (i + 1 - (ps.getD q dfltPat).strlen))
                (ps.getD q dfltPat).strlen) = true
          · rw [if_pos hf]
            show (List.countP _ [(i + 1, q)] : Nat) + 0 ≤ 1
            rw [List.countP_cons, List.countP_nil]
            split <;> omega
          · rw [if_neg hf]
            show (List.countP _ [] : Nat) + 0 ≤ 1
            rw [List.countP_nil]
            omega
        · intro _
          exact hrec.2 (Or.inl hm2)
      · have hhead0 : ∀ l : List (Nat × Nat),
            l = [(i + 1, q)] ∨ l = [] → l.countP (smIdP ps x) = 0 := by
          intro l hl
          rcases hl with hl | hl
          · subst hl
            rw [List.countP_cons, List.countP_nil]
            have : smIdP ps x (i + 1, q) = false := by
              unfold smIdP
              simpa using hsx
            rw [this]
            rfl
          · subst hl
            rfl
        have hmm2 : (x ∈ (if ((ps.getD q dfltPat).flags &&& SingleMatch) ≠ 0
            then m ++ [(ps.getD q dfltPat).id] else m)) ↔ x ∈ m := by
          by_cases hq : ((ps.getD q dfltPat).flags &&& SingleMatch) ≠ 0
          · rw [if_pos hq, List.mem_append, List.mem_singleton]
            constructor
            · intro h
              rcases h with h | h
              · exact h
              · exact absurd ⟨hq, h.symm⟩ hsx
            · exact Or.inl
          · rw [if_neg hq]
        have hrec := ih (if ((ps.getD q dfltPat).flags &&& SingleMatch) ≠ 0
            then m ++ [(ps.getD q dfltPat).id] else m)
        constructor
        · rw [List.countP_append]
          have hh : (if (if ((ps.getD q dfltPat).flags &&& Caseless) ≠ 0 then true
              else memcmp (ps.getD q dfltPat).content
                (text.drop (i + 1 - (ps.getD q dfltPat).strlen))
                (ps.getD q dfltPat).strlen) = true
              then [(i + 1, q)] else ([] : List (Nat × Nat))).countP (smIdP ps x) = 0 := by
            apply hhead0
            by_cases hf : (if ((ps.getD q dfltPat).flags &&& Caseless) ≠ 0 then true
                else memcmp (ps.getD q dfltPat).content
                  (text.drop (i + 1 - (ps.getD q dfltPat).strlen))
                  (ps.getD q dfltPat).strlen) = true
            · rw [if_pos hf]
              exact Or.inl rfl
            · rw [if_neg hf]
              exact Or.inr rfl
          rw [hh]
          have := hrec.1
          by_cases hxm : x ∈ m
          · rw [if_pos ((hmm2).2 hxm)] at this
            rw [if_pos hxm]
            omega
          · rw [if_neg (fun hcon => hxm (hmm2.1 hcon))] at this
            rw [if_neg hxm]
            omega
        · intro h
          apply hrec.2
          rcases h with h | h
          · exact Or.inl (hmm2.2 h)
          · rw [List.countP_append] at h
            have hh : (if (if ((ps.getD q dfltPat).flags &&& Caseless) ≠ 0 then true
                else memcmp (ps.getD q dfltPat).content
                  (text.drop (i + 1 - (ps.getD q dfltPat).strlen))
                  (ps.getD q dfltPat).strlen) = true
                then [(i + 1, q)] else ([] : List (Nat × Nat))).countP (smIdP ps x) = 0 := by
              apply hhead0
              by_cases hf : (if ((ps.getD q dfltPat).flags &&& Caseless) ≠ 0 then true
                  else memcmp (ps.getD q dfltPat).content
                    (text.drop (i + 1 - (ps.getD q dfltPat).strlen))
                    (ps.getD q dfltPat).strlen) = true
              · rw [if_pos hf]
                exact Or.inl rfl
              · rw [if_neg hf]
                exact Or.inr rfl
            rw [hh] at h
            exact Or.inr (by omega)

theorem specLoop_sm (ac : ACKS) (text : List Nat) (x : Nat) :
    ∀ (rem : List Nat) (i cur : Nat) (m : List Nat),
      (specLoop ac text rem i cur m).countP (smIdP ac.patterns x)
        ≤ if x ∈ m then 0 else 1 := by
  intro rem
  induction rem with
  | nil =>
    intro i cur m
    show (List.countP _ [] : Nat) ≤ _
    rw [List.countP_nil]
    split <;> omega
  | cons b rem2 ih =>
    intro i cur m
    simp only [specLoop]
    rw [List.countP_append]
    have hA := (specProc_sm ac.patterns text i x (ac.outputTable.getD
      (if ac.stateTable.length ≤ cur * ac.alphabetSize + ac.translateTable b then 0
        else ac.stateTable.getD (cur * ac.alphabetSize + ac.translateTable b) 0) []) m).1
    have hB := (specProc_sm ac.patterns text i x (ac.outputTable.getD
      (if ac.stateTable.length ≤ cur * ac.alphabetSize + ac.translateTable b then 0
        else ac.stateTable.getD (cur * ac.alphabetSize + ac.translateTable b) 0) []) m).2
    have hrec := ih (i + 1)
      (if ac.stateTable.length ≤ cur * ac.alphabetSize + ac.translateTable b then 0
        else ac.stateTable.getD (cur * ac.alphabetSize + ac.translateTable b) 0)
      (specProc ac.patterns text i (ac.outputTable.getD
        (if ac.stateTable.length ≤ cur * ac.alphabetSize + ac.translateTable b then 0
          else ac.stateTable.getD (cur * ac.alphabetSize + ac.translateTable b) 0) []) m).1
    by_cases hxm : x ∈ m
    · rw [if_pos hxm] at hA ⊢
      rw [if_pos (hB (Or.inl hxm))] at hrec
      omega
    · rw [if_neg hxm] at hA ⊢
      by_cases hc1 : 1 ≤ (specProc ac.patterns text i (ac.outputTable.getD
          (if ac.stateTable.length ≤ cur * ac.alphabetSize + ac.translateTable b then 0
            else ac.stateTable.getD (cur * ac.alphabetSize + ac.translateTable b) 0) [])
          m).2.countP (smIdP ac.patterns x)
      · rw [if_pos (hB (Or.inr hc1))] at hrec
        omega
      · by_cases hx2 : x ∈ (specProc ac.patterns text i (ac.outputTable.getD
            (if ac.stateTable.length ≤ cur * ac.alphabetSize + ac.translateTable b then 0
              else ac.stateTable.getD (cur * ac.alphabetSize + ac.translateTable b) 0) [])
            m).1
        · rw [if_pos hx2] at hrec
          omega
        · rw [if_neg hx2] at hrec
          omega

/-- The abstract trace holds at most one ReportOnce event per external id. -/
theorem specEvents_sm (ac : ACKS) (text : List Nat) (x : Nat) :
    (specEvents ac text).countP (smIdP ac.patterns x) ≤ 1 := by
  have h := specLoop_sm ac text x text 0 0 []
  rw [if_neg (List.not_mem_nil x)] at h
  exact h

/-- The concrete invocation trace is the abstract one. -/
theorem searchEvents_eq_spec {ac : ACKS} {tb : TrieB} (S : SimOK ac tb) (text : List Nat) :
    searchEvents ac text = specEvents ac text := by
  unfold searchEvents
  have h : searchCalls ac text = some (specEvents ac text) := search_sim S _ text
  rw [h]
  rfl

theorem getD_map_of_lt {α β : Type} (f : α → β) (l : List α) (k : Nat) (d : α) (d2 : β)
    (h : k < l.length) :
    (l.map f).getD k d2 = f (l.getD k d) := by
  rw [List.getD_eq_getElem?_getD, List.getD_eq_getElem?_getD, List.getElem?_map]
  rw [List.getElem?_eq_getElem h]
  rfl

theorem builtFrom_patterns (ps : List Pattern) :
    (builtFrom ps).patterns = ps.map (fun p => { p with strlen := p.content.length }) := by
  show (buildStateMachine (initTranslateTable (addAll ps))).patterns = _
  rw [(buildSM_fields (initTranslateTable (addAll ps))).1]
  rw [initTT_patterns (addAll ps)]
  exact addAll_patterns ps

theorem builtFrom_getD (ps : List Pattern) (k : Nat) (hk : k < ps.length) :
    (builtFrom ps).patterns.getD k dfltPat
      = { ps.getD k dfltPat with strlen := (ps.getD k dfltPat).content.length } := by
  rw [builtFrom_patterns]
  exact getD_map_of_lt _ ps k dfltPat dfltPat hk

theorem builtFrom_length (ps : List Pattern) :
    (builtFrom ps).patterns.length = ps.length := by
  rw [builtFrom_patterns, List.length_map]

theorem runMatched_accum : ∀ (L : List (Nat × Pattern)) (acc : List Nat),
    runMatched (E := Unit) (fun ms _pos ps => (ms ++ [ps.id], none)) acc L
      = (acc ++ L.map (fun q => q.2.id), none) := by
  intro L
  induction L with
  | nil =>
    intro acc
    simp [runMatched]
  | cons a L ih =>
    intro acc
    rcases a with ⟨pos, p⟩
    show runMatched _ (acc ++ [p.id]) L = _
    rw [ih]
    simp

/-- `Search` returns the external ids of the abstract trace, in order. -/
theorem SearchGo_eq {ac : ACKS} {tb : TrieB} (S : SimOK ac tb) (text : List Nat) :
    SearchGo ac text
      = some ((specEvents ac text).map (fun e => (ac.patterns.getD e.2 dfltPat).id)) := by
  unfold SearchGo
  rw [searchPatterns_runs ac text _ [] (specEvents ac text) (search_sim S _ text)]
  rw [runMatched_accum]
  simp [List.map_map]

/-- `Scan` runs the caller handler over the abstract trace with `from = 0`
and `to` the event position, stopping at the first error. -/
theorem ScanGo_eq {σ E : Type} {ac : ACKS} {tb : TrieB} (S : SimOK ac tb)
    (text : List Nat) (m : σ → Nat → Nat → Nat → σ × Option E) (s0 : σ) :
    ScanGo ac text m s0
      = some (runMatched (fun s pos ps => m s ps.id 0 pos) s0
          ((specEvents ac text).map (fun e => (e.1, ac.patterns.getD e.2 dfltPat)))) := by
  unfold ScanGo
  exact searchPatterns_runs ac text _ s0 _ (search_sim S _ text)

/-!  ## Post-build registration is inert -/

/-- `AddPattern` always reports success. -/
theorem AddPattern_nil (ac : ACKS) (p : Pattern) : (AddPattern ac p).2 = none := rfl

/-- The simulation bundle survives a post-build `AddPattern`. -/
theorem SimOK_addPattern {ac : ACKS} {tb : TrieB} (S : SimOK ac tb) (p : Pattern) :
    SimOK (AddPattern ac p).1 tb := by
  have hpat : (AddPattern ac p).1.patterns
      = ac.patterns ++ [{ p with strlen := p.content.length }] := rfl
  have hmax : (AddPattern ac p).1.maxID
      = if ac.maxID < p.id then p.id else ac.maxID := rfl
  have hhs : (AddPattern ac p).1.hasSingleMatch
      = (ac.hasSingleMatch || decide ((p.flags &&& SingleMatch) ≠ 0)) := rfl
  refine ⟨S.hI, S.htlen, S.hdelta, S.htc, ?_, ?_, ?_⟩
  · rintro ⟨q, hq, hfl⟩
    rw [hpat] at hq
    rw [hhs]
    rcases List.mem_append.1 hq with h | h
    · rw [S.hsm ⟨q, h, hfl⟩]
      rfl
    · rw [List.mem_singleton] at h
      subst h
      simp only [Bool.or_eq_true, decide_eq_true_eq]
      exact Or.inr hfl
  · intro q hq
    rw [hpat] at hq
    rw [hmax]
    rcases List.mem_append.1 hq with h | h
    · have := S.hid q h
      split <;> omega
    · rw [List.mem_singleton] at h
      subst h
      show p.id ≤ _
      split <;> omega
  · intro s k hk
    obtain ⟨h1, h2⟩ := S.houtD s k hk
    rw [hpat]
    constructor
    · rw [List.length_append]
      omega
    · rw [List.getD_append _ _ _ _ h1]
      exact h2

theorem specProc_congr (ps ps2 : List Pattern) (text : List Nat) (i : Nat) :
    ∀ (ids m : List Nat),
      (∀ k ∈ ids, ps2.getD k dfltPat = ps.getD k dfltPat) →
      specProc ps2 text i ids m = specProc ps text i ids m := by
  intro ids
  induction ids with
  | nil =>
    intro m _
    rfl
  | cons q ids ih =>
    intro m hg
    have hq := hg q (List.mem_cons_self q ids)
    have hrest : ∀ k ∈ ids, ps2.getD k dfltPat = ps.getD k dfltPat :=
      fun k hk => hg k (List.mem_cons_of_mem q hk)
    simp only [specProc]
    rw [hq]
    rw [ih m hrest]
    rw [ih (if ((ps.getD q dfltPat).flags &&& SingleMatch) ≠ 0
      then m ++ [(ps.getD q dfltPat).id] else m) hrest]

theorem specLoop_congr (ac ac2 : ACKS)
    (htt : ac2.translateTable = ac.translateTable)
    (hA : ac2.alphabetSize = ac.alphabetSize)
    (hst : ac2.stateTable = ac.stateTable)
    (hot : ac2.outputTable = ac.outputTable)
    (hg : ∀ s : Nat, ∀ k ∈ ac.outputTable.getD s [],
      ac2.patterns.getD k dfltPat = ac.patterns.getD k dfltPat)
    (text : List Nat) :
    ∀ (rem : List Nat) (i cur : Nat) (m : List Nat),
      specLoop ac2 text rem i cur m = specLoop ac text rem i cur m := by
  intro rem
  induction rem with
  | nil =>
    intro i cur m
    rfl
  | cons b rem2 ih =>
    intro i cur m
    simp only [specLoop]
    rw [htt, hA, hst, hot]
    rw [specProc_congr ac.patterns ac2.patterns text i _ m
      (fun k hk => hg _ k hk)]
    rw [ih (i + 1) _ _]

/-- The abstract trace ignores patterns registered after `Build`. -/
theorem specEvents_addPattern {ac : ACKS} {tb : TrieB} (S : SimOK ac tb) (p : Pattern)
    (text : List Nat) :
    specEvents (AddPattern ac p).1 text = specEvents ac text := by
  unfold specEvents
  have hpat : (AddPattern ac p).1.patterns
      = ac.patterns ++ [{ p with strlen := p.content.length }] := rfl
  exact specLoop_congr ac (AddPattern ac p).1 rfl rfl rfl rfl
    (fun s k hk => by
      rw [hpat]
      exact List.getD_append _ _ _ _ (S.houtD s k hk).1) text text 0 0 []

/-- Every abstract-trace event reports a registered pattern index. -/
theorem specEvents_idlt {ac : ACKS} {tb : TrieB} (S : SimOK ac tb) (text : List Nat) :
    ∀ e ∈ specEvents ac text, e.1 ≤ text.length ∧ e.2 < ac.patterns.length := by
  intro e he
  have h0 : (0 : Nat) = reachC tb ((text.take 0).map ac.translateTable) := by
    rw [List.take_zero, List.map_nil, reachC_nil]
  obtain ⟨j, h1, _, h3, h4, _⟩ := specLoop_sound S text text 0 0 []
    (by rw [List.drop_zero]) (by omega) h0 e he
  exact ⟨by omega, h4⟩

/-!  ## The claims -/

/-- C1: for an automaton built from patterns that all carry an empty flag
set, the search trace restricted to pattern `k` is exactly one event
`(i + 1, k)` per position `i` at which the pattern's byte sequence occurs
case-sensitively, and `Search` returns the reported patterns' external ids
in trace order. -/
theorem C1_flagfree_exact_events (ps : List Pattern) (text : List Nat) (k : Nat)
    (hflags : ∀ p ∈ ps, p.flags = 0)
    (hwf : ∀ p ∈ ps, wfBytes p)
    (hk : k < ps.length)
    (hne : (ps.getD k dfltPat).content ≠ []) :
    (searchEvents (builtFrom ps) text).filter (fun e => e.2 == k)
      = ((List.range text.length).filter
          (fun j => decide (endsAt ((ps.getD k dfltPat).content) text j))).map
          (fun j => (j + 1, k))
    ∧ SearchGo (builtFrom ps) text
      = some ((specEvents (builtFrom ps) text).map
          (fun e => ((builtFrom ps).patterns.getD e.2 dfltPat).id)) := by
  have G := builtFrom_good ps
  have hk2 : k < (builtFrom ps).patterns.length := by
    rw [builtFrom_length]
    exact hk
  have hgd := builtFrom_getD ps k hk
  have hcontent : ((builtFrom ps).patterns.getD k dfltPat).content
      = (ps.getD k dfltPat).content := by
    rw [hgd]
  have hflagk : ((builtFrom ps).patterns.getD k dfltPat).flags = 0 := by
    rw [hgd]
    show (ps.getD k dfltPat).flags = 0
    exact hflags _ (getD_mem_of_lt ps k dfltPat hk)
  have hksm : (((builtFrom ps).patterns.getD k dfltPat).flags &&& SingleMatch) = 0 := by
    rw [hflagk]
    decide
  have hwfk : wfBytes ((builtFrom ps).patterns.getD k dfltPat) := by
    intro b hb
    rw [hcontent] at hb
    exact hwf _ (getD_mem_of_lt ps k dfltPat hk) b hb
  have hnek : ((builtFrom ps).patterns.getD k dfltPat).content ≠ [] := by
    rw [hcontent]
    exact hne
  have hEv : searchEvents (builtFrom ps) text = specEvents (builtFrom ps) text :=
    searchEvents_eq_spec G.toSim text
  constructor
  · rw [hEv, specEvents_filter G hk2 hksm hwfk hnek text]
    apply congrArg (List.map _)
    apply List.filter_congr
    intro j _
    have hae : acceptedEnd ((builtFrom ps).patterns.getD k dfltPat) text j
        = endsAt ((ps.getD k dfltPat).content) text j := by
      unfold acceptedEnd
      rw [if_neg (by rw [hflagk]; simp), hcontent]
    exact decide_eq_decide.2 (iff_of_eq hae)
  · exact SearchGo_eq G.toSim text

/-- C2 (amended: the pattern additionally does not carry the ReportOnce
flag): a Caseless pattern is reported exactly once at every position where
some ASCII-case variant of its byte sequence ends in the text. -/
theorem C2_caseless_events (ps : List Pattern) (text : List Nat) (k : Nat)
    (hwf : ∀ p ∈ ps, wfBytes p)
    (hk : k < ps.length)
    (hne : (ps.getD k dfltPat).content ≠ [])
    (hcl : ((ps.getD k dfltPat).flags &&& Caseless) ≠ 0)
    (hsm : ((ps.getD k dfltPat).flags &&& SingleMatch) = 0) :
    (searchEvents (builtFrom ps) text).filter (fun e => e.2 == k)
      = ((List.range text.length).filter
          (fun j => decide (foldEndsAt ((ps.getD k dfltPat).content) text j))).map
          (fun j => (j + 1, k)) := by
  have G := builtFrom_good ps
  have hk2 : k < (builtFrom ps).patterns.length := by
    rw [builtFrom_length]
    exact hk
  have hgd := builtFrom_getD ps k hk
  have hcontent : ((builtFrom ps).patterns.getD k dfltPat).content
      = (ps.getD k dfltPat).content := by
    rw [hgd]
  have hflagk : ((builtFrom ps).patterns.getD k dfltPat).flags
      = (ps.getD k dfltPat).flags := by
    rw [hgd]
  have hksm : (((builtFrom ps).patterns.getD k dfltPat).flags &&& SingleMatch) = 0 := by
    rw [hflagk]
    exact hsm
  have hwfk : wfBytes ((builtFrom ps).patterns.getD k dfltPat) := by
    intro b hb
    rw [hcontent] at hb
    exact hwf _ (getD_mem_of_lt ps k dfltPat hk) b hb
  have hnek : ((builtFrom ps).patterns.getD k dfltPat).content ≠ [] := by
    rw [hcontent]
    exact hne
  have hEv : searchEvents (builtFrom ps) text = specEvents (builtFrom ps) text :=
    searchEvents_eq_spec G.toSim text
  rw [hEv, specEvents_filter G hk2 hksm hwfk hnek text]
  apply congrArg (List.map _)
  apply List.filter_congr
  intro j _
  have hae : acceptedEnd ((builtFrom ps).patterns.getD k dfltPat) text j
      = foldEndsAt ((ps.getD k dfltPat).content) text j := by
    unfold acceptedEnd
    rw [if_pos (by rw [hflagk]; exact hcl), hcontent]
  exact decide_eq_decide.2 (iff_of_eq hae)

/-- C2 as frozen is false for a pattern that also carries ReportOnce:
pattern "a" with flags Caseless|ReportOnce against text "aa" has case
variants ending at indices 0 and 1, but the single search call produces
exactly one match event, not one per position. -/
theorem C2_counterexample :
    foldEndsAt [97] [97, 97] 0 ∧ foldEndsAt [97] [97, 97] 1
      ∧ searchEvents (builtFrom [⟨[97], 5, 3, 0⟩]) [97, 97] = [(1, 0)] := by
  refine ⟨by decide, by decide, by decide⟩

/-- C3: a ReportOnce pattern produces at most one event for its external
id per search call, and no event at all when it has no accepted occurrence
in the text. -/
theorem C3_reportonce_dedup (ps : List Pattern) (text : List Nat) (k : Nat)
    (hk : k < ps.length)
    (hsmk : ((ps.getD k dfltPat).flags &&& SingleMatch) ≠ 0)
    (hwfk : wfBytes (ps.getD k dfltPat))
    (hnek : (ps.getD k dfltPat).content ≠ []) :
    (searchEvents (builtFrom ps) text).countP
        (smIdP (builtFrom ps).patterns ((ps.getD k dfltPat).id)) ≤ 1
    ∧ ((∀ j, j < text.length → ¬ acceptedEnd (ps.getD k dfltPat) text j) →
        (searchEvents (builtFrom ps) text).filter (fun e => e.2 == k) = []) := by
  have G := builtFrom_good ps
  have hEv : searchEvents (builtFrom ps) text = specEvents (builtFrom ps) text :=
    searchEvents_eq_spec G.toSim text
  have hk2 : k < (builtFrom ps).patterns.length := by
    rw [builtFrom_length]
    exact hk
  have hgd := builtFrom_getD ps k hk
  have hcontent : ((builtFrom ps).patterns.getD k dfltPat).content
      = (ps.getD k dfltPat).content := by
    rw [hgd]
  have hwfk2 : wfBytes ((builtFrom ps).patterns.getD k dfltPat) := by
    intro b hb
    rw [hcontent] at hb
    exact hwfk b hb
  have hnek2 : ((builtFrom ps).patterns.getD k dfltPat).content ≠ [] := by
    rw [hcontent]
    exact hnek
  constructor
  · rw [hEv]
    exact specEvents_sm (builtFrom ps) text _
  · intro habs
    rw [hEv]
    rw [List.filter_eq_nil]
    intro e he hbeq
    have hek : e.2 = k := by
      simpa using hbeq
    obtain ⟨j, h1, _, h3, h4, h5, h6⟩ := specLoop_sound G.toSim text text 0 0 []
      (by rw [List.drop_zero]) (by omega)
      (by rw [List.take_zero, List.map_nil, reachC_nil]) e he
    rw [hek] at h5 h6
    have hacc := (memFire_iff G hk2 hwfk2 hnek2 h3).1 ⟨h5, h6⟩
    rw [hgd] at hacc
    exact habs j h3 hacc

/-- C4: `Scan` runs the caller's handler over the invocation trace with
`from = 0` and `to = pos` for every invocation, and every trace event's
position is `i + 1` for an accepted occurrence ending at byte index `i`;
no start offset is ever computed. -/
theorem C4_scan_offsets {σ E : Type} (ps : List Pattern) (text : List Nat)
    (m : σ → Nat → Nat → Nat → σ × Option E) (s0 : σ)
    (hwf : ∀ p ∈ ps, wfBytes p) (hne : ∀ p ∈ ps, p.content ≠ []) :
    ScanGo (builtFrom ps) text m s0
      = some (runMatched (fun s pos pat => m s pat.id 0 pos) s0
          ((specEvents (builtFrom ps) text).map
            (fun e => (e.1, (builtFrom ps).patterns.getD e.2 dfltPat))))
    ∧ ∀ e ∈ specEvents (builtFrom ps) text,
        ∃ i, e.1 = i + 1 ∧ i < text.length
          ∧ acceptedEnd ((builtFrom ps).patterns.getD e.2 dfltPat) text i := by
  have G := builtFrom_good ps
  constructor
  · exact ScanGo_eq G.toSim text m s0
  · intro e he
    have hall : ∀ p ∈ (builtFrom ps).patterns, wfBytes p ∧ p.content ≠ [] := by
      intro p hp
      rw [builtFrom_patterns] at hp
      obtain ⟨q, hq, hqe⟩ := List.mem_map.1 hp
      subst hqe
      exact ⟨fun b hb => hwf q hq b hb, hne q hq⟩
    obtain ⟨j, h1, h3, _, hacc⟩ := specEvents_sound G hall text e he
    exact ⟨j, h1, h3, hacc⟩

/-- C5: when the callback fails on the (j+1)-st invocation of a Scan pass,
Scan returns exactly that error together with the state at the failure,
so no invocation after the failing one contributes to the result. -/
theorem C5_scan_first_error {σ E : Type} (ps : List Pattern) (text : List Nat)
    (m : σ → Nat → Nat → Nat → σ × Option E) (s0 : σ) (j : Nat) (s1 s2 : σ) (err : E)
    (hj : j < ((specEvents (builtFrom ps) text).map
        (fun e => (e.1, (builtFrom ps).patterns.getD e.2 dfltPat))).length)
    (hpre : runMatched (fun s pos pat => m s pat.id 0 pos) s0
        (((specEvents (builtFrom ps) text).map
          (fun e => (e.1, (builtFrom ps).patterns.getD e.2 dfltPat))).take j) = (s1, none))
    (herr : m s1 ((((specEvents (builtFrom ps) text).map
          (fun e => (e.1, (builtFrom ps).patterns.getD e.2 dfltPat))).getD j
            (0, dfltPat)).2).id 0
        ((((specEvents (builtFrom ps) text).map
          (fun e => (e.1, (builtFrom ps).patterns.getD e.2 dfltPat))).getD j
            (0, dfltPat)).1)
      = (s2, some err)) :
    ScanGo (builtFrom ps) text m s0 = some (s2, some err) := by
  have G := builtFrom_good ps
  rw [ScanGo_eq G.toSim text m s0]
  set L := (specEvents (builtFrom ps) text).map
    (fun e => (e.1, (builtFrom ps).patterns.getD e.2 dfltPat)) with hL
  have hget : L.getD j (0, dfltPat) = L[j] := by
    rw [List.getD_eq_getElem?_getD, List.getElem?_eq_getElem hj]
    rfl
  have hsplit : L = L.take j ++ L.getD j (0, dfltPat) :: L.drop (j + 1) := by
    rw [hget, ← List.drop_eq_getElem_cons hj, List.take_append_drop]
  have hstep : runMatched (fun s pos pat => m s pat.id 0 pos) s1
      (L.getD j (0, dfltPat) :: L.drop (j + 1)) = (s2, some err) := by
    show (match m s1 ((L.getD j (0, dfltPat)).2).id 0 ((L.getD j (0, dfltPat)).1) with
      | (s3, none) => runMatched (fun s pos pat => m s pat.id 0 pos) s3 (L.drop (j + 1))
      | (s3, some e) => (s3, some e)) = (s2, some err)
    rw [herr]
  rw [hsplit, runMatched_append, hpre]
  show some (runMatched (fun s pos pat => m s pat.id 0 pos) s1
    (L.getD j (0, dfltPat) :: L.drop (j + 1))) = some (s2, some err)
  rw [hstep]

/-- C6: after `Build` the transition table is total and closed: it has
exactly stateCount x alphabetSize entries, each a state index below
stateCount; during any search pass over any input the computed index
`state * alphabetSize + symbol` stays strictly within the table's bounds
at every step, so the defensive reset-to-root branch is never taken
(`guardHit`, the loop's state recursion with the branch instrumented,
never fires). -/
theorem C6_table_total (ps : List Pattern) :
    (builtFrom ps).stateTable.length
      = (builtFrom ps).stateCount * (builtFrom ps).alphabetSize
    ∧ (∀ x ∈ (builtFrom ps).stateTable, x < (builtFrom ps).stateCount)
    ∧ (∀ (text : List Nat) (i : Nat), i < text.length →
        stateAt (builtFrom ps) text i * (builtFrom ps).alphabetSize
            + (builtFrom ps).translateTable (text.getD i 0)
          < (builtFrom ps).stateTable.length)
    ∧ ∀ text : List Nat, guardHit (builtFrom ps) text 0 = false := by
  have G := builtFrom_good ps
  refine ⟨?_, ?_, ?_, ?_⟩
  · rw [G.sm.htlen, G.sm.hsc]
  · intro x hx
    rw [G.sm.hsc]
    exact G.sm.htmem x hx
  · intro text i hi
    rw [stateAt_spec G.toSim G.toSim.htc]
    have hstep := stepState G.toSim G.toSim.htc
      ((text.take i).map (builtFrom ps).translateTable) (text.getD i 0)
    have h1 := hstep.1
    omega
  · intro text
    exact guardHit_false G.toSim text text 0 0 (by rw [List.drop_zero]) (by omega)
      (by rw [List.take_zero, List.map_nil, reachC_nil])

/-- C7: `AddPattern` always returns a nil error, and registering a pattern
after `Build` changes neither the invocation trace nor the results of
`Search`/`Scan`; the appended pattern is never reported (all reported
indices are below the pre-build pattern count). -/
theorem C7_addPattern_inert {σ E : Type} (ps : List Pattern) (p : Pattern)
    (text : List Nat) (m : σ → Nat → Nat → Nat → σ × Option E) (s0 : σ)
    (ac0 : ACKS) (q : Pattern) :
    (AddPattern ac0 q).2 = none
    ∧ searchCalls ((AddPattern (builtFrom ps) p).1) text
        = searchCalls (builtFrom ps) text
    ∧ SearchGo ((AddPattern (builtFrom ps) p).1) text = SearchGo (builtFrom ps) text
    ∧ ScanGo ((AddPattern (builtFrom ps) p).1) text m s0
        = ScanGo (builtFrom ps) text m s0
    ∧ ∀ e ∈ searchEvents ((AddPattern (builtFrom ps) p).1) text, e.2 < ps.length := by
  have S := (builtFrom_good ps).toSim
  have S2 := SimOK_addPattern S p
  have hspec := specEvents_addPattern S p text
  have hc2 : searchCalls ((AddPattern (builtFrom ps) p).1) text
      = some (specEvents ((AddPattern (builtFrom ps) p).1) text) := search_sim S2 _ text
  have hc1 : searchCalls (builtFrom ps) text
      = some (specEvents (builtFrom ps) text) := search_sim S _ text
  have hgeq : ∀ e ∈ specEvents (builtFrom ps) text,
      ((AddPattern (builtFrom ps) p).1).patterns.getD e.2 dfltPat
        = (builtFrom ps).patterns.getD e.2 dfltPat := by
    intro e he
    have hlt := (specEvents_idlt S text e he).2
    show ((builtFrom ps).patterns ++ [{ p with strlen := p.content.length }]).getD
        e.2 dfltPat = _
    exact List.getD_append _ _ _ _ hlt
  refine ⟨rfl, ?_, ?_, ?_, ?_⟩
  · rw [hc2, hc1, hspec]
  · have hidmap : (specEvents (builtFrom ps) text).map
          (fun e => (((AddPattern (builtFrom ps) p).1).patterns.getD e.2 dfltPat).id)
        = (specEvents (builtFrom ps) text).map
          (fun e => ((builtFrom ps).patterns.getD e.2 dfltPat).id) := by
      apply List.map_congr_left
      intro e he
      rw [hgeq e he]
    rw [SearchGo_eq S2 text, SearchGo_eq S text, hspec, hidmap]
  · have hpairmap : (specEvents (builtFrom ps) text).map
          (fun e => (e.1, ((AddPattern (builtFrom ps) p).1).patterns.getD e.2 dfltPat))
        = (specEvents (builtFrom ps) text).map
          (fun e => (e.1, (builtFrom ps).patterns.getD e.2 dfltPat)) := by
      apply List.map_congr_left
      intro e he
      rw [hgeq e he]
    rw [ScanGo_eq S2 text m s0, ScanGo_eq S text m s0, hspec, hpairmap]
  · intro e he
    rw [searchEvents_eq_spec S2 text, hspec] at he
    have hlt := (specEvents_idlt S text e he).2
    rw [builtFrom_length] at hlt
    exact hlt

/-- C8: the dedup-structure choice is behaviour-preserving: for a built
automaton (with at least one ReportOnce pattern registered) the bit-array
and the hash-set variants produce identical invocation traces on every
input. -/
theorem C8_dedup_equiv (ps : List Pattern) (text : List Nat)
    (hsm : ∃ p ∈ ps, (p.flags &&& SingleMatch) ≠ 0) :
    searchCallsWith (builtFrom ps) true text
      = searchCallsWith (builtFrom ps) false text := by
  rw [search_sim (builtFrom_good ps).toSim true text,
    search_sim (builtFrom_good ps).toSim false text]

/-- C9: the search never panics: for every built automaton and input, the
pass completes (no negative window start), because every pattern reported
after consuming byte `i` has cached length at most `i + 1`. -/
theorem C9_window_nonneg (ps : List Pattern) (text : List Nat) :
    (searchCalls (builtFrom ps) text).isSome = true
    ∧ ∀ i, i < text.length →
        ∀ k ∈ outList (builtFrom ps) (stateAt (builtFrom ps) text (i + 1)),
          ((builtFrom ps).patterns.getD k dfltPat).strlen ≤ i + 1 := by
  have S := (builtFrom_good ps).toSim
  constructor
  · have hc : searchCalls (builtFrom ps) text
        = some (specEvents (builtFrom ps) text) := search_sim S _ text
    rw [hc]
    rfl
  · intro i hi k hk
    unfold outList at hk
    rw [stateAt_spec S S.htc] at hk
    obtain ⟨_, h2⟩ := S.houtD _ k hk
    rw [path_reachC S.hI ((text.take (i + 1)).map (builtFrom ps).translateTable)] at h2
    have hl1 := lsuf_length_le
      (buildTrie (initTranslateTable (addAll ps)).translateTable
        (initTranslateTable (addAll ps)).patterns).edges
      ((text.take (i + 1)).map (builtFrom ps).translateTable)
    have hml : ((text.take (i + 1)).map (builtFrom ps).translateTable).length ≤ i + 1 := by
      simp
    omega

/-- C10: the dedup mark is set before re-verification: pattern "ab" with
ReportOnce (and not Caseless) against text "Abab" has its exact occurrence
ending at index 3 and a case-variant occurrence ending at index 1, yet the
search call produces no event at all — the variant consumed the only
report. -/
theorem C10_mark_before_verify :
    endsAt [97, 98] [65, 98, 97, 98] 3
    ∧ foldEndsAt [97, 98] [65, 98, 97, 98] 1
    ∧ searchEvents (builtFrom [⟨[97, 98], 7, 2, 0⟩]) [65, 98, 97, 98] = [] := by
  refine ⟨by decide, by decide, by decide⟩

/-- Witness for C1 at a concrete input: one flag-free pattern "a", text
"ab". -/
theorem C1_flagfree_exact_events_witness :
    (searchEvents (builtFrom [(⟨[97], 1, 0, 0⟩ : Pattern)]) [97, 98]).filter
        (fun e => e.2 == 0)
      = ((List.range ([97, 98] : List Nat).length).filter
          (fun j => decide (endsAt (([(⟨[97], 1, 0, 0⟩ : Pattern)].getD 0 dfltPat).content)
            [97, 98] j))).map (fun j => (j + 1, 0))
    ∧ SearchGo (builtFrom [(⟨[97], 1, 0, 0⟩ : Pattern)]) [97, 98]
      = some ((specEvents (builtFrom [(⟨[97], 1, 0, 0⟩ : Pattern)]) [97, 98]).map
          (fun e => ((builtFrom [(⟨[97], 1, 0, 0⟩ : Pattern)]).patterns.getD
            e.2 dfltPat).id)) :=
  C1_flagfree_exact_events [⟨[97], 1, 0, 0⟩] [97, 98] 0
    (by decide) (by decide) (by decide) (by decide)

/-- Witness for C2 (amended) at a concrete input: Caseless-only pattern
"a", text "A". -/
theorem C2_caseless_events_witness :
    (searchEvents (builtFrom [(⟨[97], 1, 1, 0⟩ : Pattern)]) [65]).filter
        (fun e => e.2 == 0)
      = ((List.range ([65] : List Nat).length).filter
          (fun j => decide (foldEndsAt (([(⟨[97], 1, 1, 0⟩ : Pattern)].getD 0 dfltPat).content)
            [65] j))).map (fun j => (j + 1, 0)) :=
  C2_caseless_events [⟨[97], 1, 1, 0⟩] [65] 0
    (by decide) (by decide) (by decide) (by decide) (by decide)

/-- Witness for C3 at a concrete input: ReportOnce pattern "a", text
"aa". -/
theorem C3_reportonce_dedup_witness :
    (searchEvents (builtFrom [(⟨[97], 4, 2, 0⟩ : Pattern)]) [97, 97]).countP
        (smIdP (builtFrom [(⟨[97], 4, 2, 0⟩ : Pattern)]).patterns
          (([(⟨[97], 4, 2, 0⟩ : Pattern)].getD 0 dfltPat).id)) ≤ 1
    ∧ ((∀ j, j < ([97, 97] : List Nat).length →
          ¬ acceptedEnd ([(⟨[97], 4, 2, 0⟩ : Pattern)].getD 0 dfltPat) [97, 97] j) →
        (searchEvents (builtFrom [(⟨[97], 4, 2, 0⟩ : Pattern)]) [97, 97]).filter
          (fun e => e.2 == 0) = []) :=
  C3_reportonce_dedup [⟨[97], 4, 2, 0⟩] [97, 97] 0
    (by decide) (by decide) (by decide) (by decide)

/-- Witness for C4 at a concrete input: pattern "a", text "a", a counting
handler. -/
theorem C4_scan_offsets_witness :
    ScanGo (builtFrom [(⟨[97], 1, 0, 0⟩ : Pattern)]) [97]
        (fun (s : Nat) (_ _ _ : Nat) => (s + 1, (none : Option Unit))) 0
      = some (runMatched
          (fun (s : Nat) (_pos : Nat) (_pat : Pattern) => (s + 1, (none : Option Unit))) 0
          ((specEvents (builtFrom [(⟨[97], 1, 0, 0⟩ : Pattern)]) [97]).map
            (fun e => (e.1,
              (builtFrom [(⟨[97], 1, 0, 0⟩ : Pattern)]).patterns.getD e.2 dfltPat))))
    ∧ ∀ e ∈ specEvents (builtFrom [(⟨[97], 1, 0, 0⟩ : Pattern)]) [97],
        ∃ i, e.1 = i + 1 ∧ i < ([97] : List Nat).length
          ∧ acceptedEnd ((builtFrom [(⟨[97], 1, 0, 0⟩ : Pattern)]).patterns.getD
              e.2 dfltPat) [97] i :=
  C4_scan_offsets [⟨[97], 1, 0, 0⟩] [97] (fun s _ _ _ => (s + 1, none)) 0
    (by decide) (by decide)

/-- Witness for C5 at a concrete input: pattern "a", text "a", a handler
that fails on its first invocation. -/
theorem C5_scan_first_error_witness :
    ScanGo (builtFrom [(⟨[97], 1, 0, 0⟩ : Pattern)]) [97]
        (fun (s : Nat) (_ _ _ : Nat) => (s, some (0 : Nat))) 0
      = some (0, some 0) :=
  C5_scan_first_error [⟨[97], 1, 0, 0⟩] [97]
    (fun s _ _ _ => (s, some 0)) 0 0 0 0 0 (by decide) (by rfl) (by rfl)

/-- Witness for C8 at a concrete input: a ReportOnce pattern registered,
both dedup structures compared on text "a". -/
theorem C8_dedup_equiv_witness :
    searchCallsWith (builtFrom [(⟨[97], 1, 2, 0⟩ : Pattern)]) true [97]
      = searchCallsWith (builtFrom [(⟨[97], 1, 2, 0⟩ : Pattern)]) false [97] :=
  C8_dedup_equiv [⟨[97], 1, 2, 0⟩] [97] (by decide)

end AhoCorasick
